import Mathlib

/-!
The pipeline diff/cache engine and the service discoverer of
agent-service-discovery.

A shallow embedding of `pipeline/pipeline.go` (`Pipeline.process`,
`Pipeline.handleEmpty`, `Pipeline.handleNotEmpty`, `stale`), in the namespace
`pipeline`, and of `pipeline/discovery/kubernetes/service.go` together with
`Discovery.hasSynced`, in the namespace `kubernetes`, with the statements of the
specification about them.

Conventions of the embedding:

* A Go map is an association list with the operations `mapGet`, `mapSet`,
  `mapDelete`.  A map has no duplicate key (`mapWF`); the operations keep it so.
* Go leaves the order in which `range` visits a map unspecified.  The order is
  the parameter `MapRange`: any function that returns a permutation of the
  entries.  Every statement about the code holds for every such order.
* The collaborators `Tagger` and `Builder` are external.  `Builder.Build` is a
  function of the target; each invocation of `Tag` and `Build` is recorded in
  the ghost field `calls`, each `delete(grpCache, hash)` in the ghost field
  `evicted`.
* `uint64` hashes are natural numbers: they are only compared, never computed
  with.
* A `[]model.Config` slice is embedded twice.  In the namespace `pipeline` a
  cached slice is the list of its elements.  In the namespace `pipeline.byRef`
  it is the address of its backing array in a memory of arrays, so that the
  write in place of `stale` reaches every holder of the array; the two agree
  when the Builder hands out a fresh array at every call (`byRef.process_view`).
-/

namespace pipeline

/-! ## Go maps -/

section GoMap

variable {κ : Type} {ν : Type} [DecidableEq κ]

/-- Go `v, ok := m[k]`: the value stored under `k`, if any. -/
def mapGet : List (κ × ν) → κ → Option ν
  | [], _ => none
  | (k', v) :: m, k => if k' = k then some v else mapGet m k

/-- Go `m[k] = v`: overwrite the value of `k` in place, or add the key. -/
def mapSet : List (κ × ν) → κ → ν → List (κ × ν)
  | [], k, v => [(k, v)]
  | (k', v') :: m, k, v => if k' = k then (k, v) :: m else (k', v') :: mapSet m k v

/-- Go `delete(m, k)`. -/
def mapDelete (m : List (κ × ν)) (k : κ) : List (κ × ν) :=
  m.filter (fun e => decide (e.1 ≠ k))

/-- The keys of a map. -/
def mapKeys (m : List (κ × ν)) : List κ := m.map Prod.fst

/-- A map stores at most one value per key. -/
def mapWF (m : List (κ × ν)) : Prop := (mapKeys m).Nodup

instance (m : List (κ × ν)) : Decidable (mapWF m) :=
  inferInstanceAs (Decidable (mapKeys m).Nodup)

end GoMap

/-! ## Data model -/

/-- Modelled from the spec: `model.Config` (package `pipeline/model` is not part
of the sources at hand).  An opaque artifact produced by the Builder that
carries a `Stale` flag; `Conf` stands for the opaque content. -/
structure Config where
  Conf : String
  Stale : Bool
deriving DecidableEq, Repr

/-- Modelled from the spec: `model.Target`, a discovered unit with a content
fingerprint `Hash` and a human-stable identifier `TUID`. -/
structure Target where
  Hash : Nat
  TUID : String
deriving DecidableEq, Repr

/-- Modelled from the spec: `model.Group`, the complete target set of one
source.  A target is an interface value and may be nil (`none`). -/
structure Group where
  Source : String
  Targets : List (Option Target)
deriving DecidableEq, Repr

/-- The `Builder` collaborator: `Build(model.Target) []model.Config`, as
observed after `Tagger.Tag` has run on the target. -/
abbrev Builder := Target → List Config

/-- An invocation of a collaborator, with the source of the group in work. -/
inductive Call where
  | Tag (source : String) (target : Target)
  | Build (source : String) (target : Target)
deriving DecidableEq, Repr

/-- Inner cache `groupCache map[uint64][]model.Config`: hash to configs. -/
abbrev groupCache := List (Nat × List Config)

/-- Outer cache `cache map[string]groupCache`: source to inner cache. -/
abbrev cache := List (String × groupCache)

/-- The order in which `range` visits the entries of a `groupCache`. -/
structure MapRange where
  order : groupCache → List (Nat × List Config)
  perm : ∀ m, (order m).Perm m

/-- The range order that visits the entries in insertion order. -/
def MapRange.insertion : MapRange := ⟨fun m => m, fun m => List.Perm.refl m⟩

/-- The range order that visits the entries in reverse insertion order. -/
def MapRange.reversed : MapRange := ⟨fun m => m.reverse, fun m => List.reverse_perm m⟩

/-- The mutable state of a `Pipeline`: its cache, and two ghost logs. -/
structure Pipeline where
  cache : cache
  calls : List Call
  evicted : List (String × Nat)
deriving DecidableEq, Repr

/-- The state of `New(...)`: an empty cache. -/
def New : Pipeline := ⟨[], [], []⟩

/-! ## The code -/

/-- Go `stale`, read on the elements of its argument: the elements of the slice
after the call, which are also those of the slice it returns.  Go writes them
in place into the backing array of the argument; where that array is shared
memory, the write is `byRef.stale`. -/
def stale (configs : List Config) : List Config :=
  configs.map (fun c => { c with Stale := true })

/-- Loop state of `handleEmpty`. -/
structure EmptyLoop where
  grpCache : groupCache
  remove : List Config
  evicted : List (String × Nat)
deriving DecidableEq, Repr

/-- Body of `for hash, cfgs := range grpCache` in `handleEmpty`. -/
def handleEmptyStep (source : String) (st : EmptyLoop) (e : Nat × List Config) : EmptyLoop :=
  { grpCache := mapDelete st.grpCache e.1
    remove := st.remove ++ e.2
    evicted := st.evicted ++ [(source, e.1)] }

/-- Go `Pipeline.handleEmpty`, with the cached slices held by value.  `remove`
is grown by `append` from nil, so `stale(remove)` writes into a fresh array. -/
def Pipeline.handleEmpty (R : MapRange) (p : Pipeline) (group : Group) :
    List Config × Pipeline :=
  match mapGet p.cache group.Source with
  | none => ([], p)
  | some grpCache =>
    let cache := mapDelete p.cache group.Source
    let st := (R.order grpCache).foldl (handleEmptyStep group.Source) ⟨grpCache, [], []⟩
    (stale st.remove, { p with cache := cache, evicted := p.evicted ++ st.evicted })

/-- Loop state of the target loop of `handleNotEmpty`. -/
structure TargetLoop where
  grpCache : groupCache
  seen : List (Nat × Bool)
  add : List Config
  calls : List Call
deriving DecidableEq, Repr

/-- Body of `for _, target := range group.Targets()` in `handleNotEmpty`. -/
def handleNotEmptyStep (B : Builder) (source : String) (st : TargetLoop) :
    Option Target → TargetLoop
  | none => st
  | some target =>
    let seen := mapSet st.seen target.Hash true
    match mapGet st.grpCache target.Hash with
    | some _ => { st with seen := seen }
    | none =>
      let cfgs := B target
      { grpCache := mapSet st.grpCache target.Hash cfgs
        seen := seen
        add := st.add ++ cfgs
        calls := st.calls ++ [Call.Tag source target, Call.Build source target] }

/-- Loop state of the eviction loop of `handleNotEmpty`. -/
structure EvictLoop where
  grpCache : groupCache
  remove : List Config
  evicted : List (String × Nat)
deriving DecidableEq, Repr

/-- Body of `for hash, cfgs := range grpCache` in `handleNotEmpty`. -/
def evictStep (source : String) (seen : List (Nat × Bool)) (st : EvictLoop)
    (e : Nat × List Config) : EvictLoop :=
  if !((mapGet seen e.1).getD false) then
    { grpCache := mapDelete st.grpCache e.1
      remove := st.remove ++ stale e.2
      evicted := st.evicted ++ [(source, e.1)] }
  else st

/-- Go `Pipeline.handleNotEmpty`, with the cached slices held by value.  The
inner map is shared by reference with `p.cache[source]`, so the writes through
`grpCache` are written back.  `stale(cfgs)` writes into the backing array of the
evicted slice, which is the array of the slice that `Build` returned: here the
written elements go to `remove` only, and `byRef.Pipeline.handleNotEmpty` keeps
the array as well. -/
def Pipeline.handleNotEmpty (R : MapRange) (B : Builder) (p : Pipeline) (group : Group) :
    (List Config × List Config) × Pipeline :=
  let exist := (mapGet p.cache group.Source).isSome
  let grpCache := (mapGet p.cache group.Source).getD []
  let cache := if !exist then mapSet p.cache group.Source grpCache else p.cache
  let tl := group.Targets.foldl (handleNotEmptyStep B group.Source) ⟨grpCache, [], [], []⟩
  if !exist then
    ((tl.add, []),
      { p with cache := mapSet cache group.Source tl.grpCache, calls := p.calls ++ tl.calls })
  else
    let el := (R.order tl.grpCache).foldl (evictStep group.Source tl.seen) ⟨tl.grpCache, [], []⟩
    ((tl.add, el.remove),
      { cache := mapSet cache group.Source el.grpCache
        calls := p.calls ++ tl.calls
        evicted := p.evicted ++ el.evicted })

/-- Body of `for _, group := range groups` in `process`. -/
def processStep (R : MapRange) (B : Builder) (st : List Config × Pipeline) (group : Group) :
    List Config × Pipeline :=
  if group.Targets.length = 0 then
    let r := st.2.handleEmpty R group
    if r.1.length > 0 then (st.1 ++ r.1, r.2) else (st.1, r.2)
  else
    let r := st.2.handleNotEmpty R B group
    if r.1.1.length > 0 ∨ r.1.2.length > 0 then (st.1 ++ (r.1.1 ++ r.1.2), r.2) else (st.1, r.2)

/-- Go `Pipeline.process`: the configs of the batch and the state it leaves. -/
def Pipeline.process (R : MapRange) (B : Builder) (p : Pipeline) (groups : List Group) :
    List Config × Pipeline :=
  groups.foldl (processStep R B) ([], p)

/-- The state after a sequence of batches, each handled by one `process`. -/
def Pipeline.processAll (R : MapRange) (B : Builder) (p : Pipeline) (batches : List (List Group)) :
    Pipeline :=
  batches.foldl (fun q groups => (q.process R B groups).2) p

/-! ## Vocabulary of the specification -/

/-- The hashes of the non-nil targets of a target list, in target order. -/
def hashes (ts : List (Option Target)) : List Nat := ts.reduceOption.map Target.Hash

/-- The targets of a list that carry a new hash: non-nil, with a hash that is
neither in `known` nor carried by an earlier target of the list. -/
def fresh (known : List Nat) : List (Option Target) → List Target
  | [] => []
  | none :: ts => fresh known ts
  | some t :: ts =>
    if t.Hash ∈ known then fresh known ts else t :: fresh (known ++ [t.Hash]) ts

/-- The inner cache of a source, empty when the source has no entry. -/
def cachedUnder (c : cache) (source : String) : groupCache := (mapGet c source).getD []

/-- Every inner cache stores at most one config list per hash. -/
def cacheWF (c : cache) : Prop := ∀ source grpCache, mapGet c source = some grpCache → mapWF grpCache

/-- The entries of an inner cache whose hash is among `hs`. -/
def kept (grpCache : groupCache) (hs : List Nat) : groupCache :=
  grpCache.filter (fun e => decide (e.1 ∈ hs))

/-- The entries of an inner cache whose hash is not among `hs`. -/
def dropped (grpCache : groupCache) (hs : List Nat) : groupCache :=
  grpCache.filter (fun e => decide (e.1 ∉ hs))

/-- The inner-cache entries that the Builder yields for a list of targets. -/
def built (B : Builder) (ts : List Target) : groupCache := ts.map (fun t => (t.Hash, B t))

/-- The Tag and Build invocations for a list of targets: Tag, then Build, per target. -/
def callsFor (source : String) (ts : List Target) : List Call :=
  ts.flatMap (fun t => [Call.Tag source t, Call.Build source t])

/-- The additions and the removals that one group of a batch contributes, and
the state it leaves, as `process` obtains them from the two handlers. -/
def groupDiff (R : MapRange) (B : Builder) (p : Pipeline) (group : Group) :
    (List Config × List Config) × Pipeline :=
  if group.Targets.length = 0 then
    (([], (p.handleEmpty R group).1), (p.handleEmpty R group).2)
  else p.handleNotEmpty R B group

/-- The additions and removals of every group of a batch, in batch order. -/
def batchDiffs (R : MapRange) (B : Builder) : Pipeline → List Group →
    List (List Config × List Config)
  | _, [] => []
  | p, group :: groups =>
    (groupDiff R B p group).1 :: batchDiffs R B (groupDiff R B p group).2 groups

/-- How often `Tag` was invoked for a target of the given source and hash. -/
def tagCount (calls : List Call) (source : String) (hash : Nat) : Nat :=
  calls.countP (fun c =>
    match c with
    | Call.Tag s t => decide (s = source ∧ t.Hash = hash)
    | Call.Build _ _ => false)

/-- How often the hash was deleted from the inner cache of the source. -/
def evictCount (evicted : List (String × Nat)) (source : String) (hash : Nat) : Nat :=
  evicted.countP (fun e => decide (e.1 = source ∧ e.2 = hash))

/-- One if the hash is cached under the source, zero otherwise. -/
def cachedCount (c : cache) (source : String) (hash : Nat) : Nat :=
  if hash ∈ mapKeys (cachedUnder c source) then 1 else 0

/-- The accounting invariant of a pipeline state: inner caches are maps, and
for every source and hash the `Tag` invocations are the evictions, plus one if
the hash is cached. -/
def Accounted (p : Pipeline) : Prop :=
  cacheWF p.cache ∧
    ∀ s h, tagCount p.calls s h = evictCount p.evicted s h + cachedCount p.cache s h

/-! ## Concrete inputs -/

/-- A Builder that yields one config per target, named after the target. -/
def oneConfig : Builder := fun t => [⟨t.TUID, false⟩]

/-- A Builder that yields two configs per target. -/
def twoConfigs : Builder := fun t => [⟨t.TUID ++ "/a", false⟩, ⟨t.TUID ++ "/b", false⟩]

/-- A target with hash 1. -/
def target1 : Target := ⟨1, "t1"⟩

/-- A target with hash 2. -/
def target2 : Target := ⟨2, "t2"⟩

/-- A target with hash 3. -/
def target3 : Target := ⟨3, "t3"⟩

/-- The group of source `s1` with the targets of hashes 1 and 2. -/
def group12 : Group := ⟨"s1", [some target1, some target2]⟩

/-- The group of source `s1` with the targets of hashes 2 and 3. -/
def group23 : Group := ⟨"s1", [some target2, some target3]⟩

/-- The tombstone of source `s1`. -/
def tombstone1 : Group := ⟨"s1", []⟩

/-- The group of source `s1` whose only target is nil. -/
def nilGroup1 : Group := ⟨"s1", [none]⟩

/-- The state after `group12` went through a pipeline with the one-config Builder. -/
def after12 : Pipeline := (New.process MapRange.insertion oneConfig [group12]).2

/-- The state after a group of source `s1` with one target of hash 1 went
through a pipeline whose Builder yields two configs per target. -/
def afterTwo : Pipeline :=
  (New.process MapRange.insertion twoConfigs [⟨"s1", [some target1]⟩]).2

/-- A target with hash 4. -/
def target4 : Target := ⟨4, "t4"⟩

/-- A batch of two groups: `group23`, then a first group of source `s2`. -/
def batchTwoSources : List Group := [group23, ⟨"s2", [some target4]⟩]

/-- All configs held in the cache, source by source and hash by hash. -/
def cachedConfigs (c : cache) : List Config :=
  c.flatMap (fun e => e.2.flatMap Prod.snd)

/-- How many configs of a list carry the given content, whatever their `Stale` flag. -/
def confCount (x : String) (cs : List Config) : Nat :=
  cs.countP (fun c => decide (c.Conf = x))

/-- Two lists of group contributions agree: same additions, and the same
removals up to the order in which the hashes of a source are evicted. -/
def SameDiffs (ds ds' : List (List Config × List Config)) : Prop :=
  List.Forall₂ (fun d d' => d.1 = d'.1 ∧ d.2.Perm d'.2) ds ds'

/-! ## The code with cached slices held by reference -/

namespace byRef

/-- The memory of backing arrays of `[]model.Config` slices: address to
elements. -/
abbrev Arrays := List (Nat × List Config)

/-- The elements of the slice at an address.  A slice is identified with its
backing array. -/
def elements (arrays : Arrays) (slice : Nat) : List Config := (mapGet arrays slice).getD []

/-- The `Builder` collaborator with its memory: `Build` returns a slice, and
may allocate or rewrite arrays on the way.  As in `pipeline.Builder`, the call
stands for `Tag` followed by `Build`. -/
abbrev Builder := Arrays → Target → Nat × Arrays

/-- Inner cache: hash to cached slice. -/
abbrev groupCache := List (Nat × Nat)

/-- Outer cache: source to inner cache. -/
abbrev cache := List (String × groupCache)

/-- The order in which `range` visits the entries of a `groupCache`. -/
structure MapRange where
  order : groupCache → List (Nat × Nat)
  perm : ∀ m, (order m).Perm m

/-- The range order that visits the entries in insertion order. -/
def MapRange.insertion : MapRange := ⟨fun m => m, fun m => List.Perm.refl m⟩

/-- The state of a `Pipeline` and the memory its cached slices point into. -/
structure Pipeline where
  cache : cache
  arrays : Arrays
deriving DecidableEq, Repr

/-- The state of `New(...)`: an empty cache, over a given memory. -/
def New (arrays : Arrays) : Pipeline := ⟨[], arrays⟩

/-- Go `stale` on a slice of the memory: sets `Stale` on every element of the
backing array, in place, and returns the slice. -/
def stale (arrays : Arrays) (configs : Nat) : Arrays × Nat :=
  (mapSet arrays configs (pipeline.stale (elements arrays configs)), configs)

/-- Loop state of `handleEmpty`. -/
structure EmptyLoop where
  grpCache : groupCache
  remove : List Config
deriving DecidableEq, Repr

/-- Body of `for hash, cfgs := range grpCache` in `handleEmpty`:
`append(remove, cfgs...)` copies the elements of the cached slice. -/
def handleEmptyStep (arrays : Arrays) (st : EmptyLoop) (e : Nat × Nat) : EmptyLoop :=
  { grpCache := mapDelete st.grpCache e.1
    remove := st.remove ++ elements arrays e.2 }

/-- Go `Pipeline.handleEmpty`.  `remove` is grown by `append` from nil, so its
backing array is fresh and `stale(remove)` writes into no array of the memory. -/
def Pipeline.handleEmpty (R : MapRange) (p : Pipeline) (group : Group) :
    List Config × Pipeline :=
  match mapGet p.cache group.Source with
  | none => ([], p)
  | some grpCache =>
    let cache := mapDelete p.cache group.Source
    let st := (R.order grpCache).foldl (handleEmptyStep p.arrays) ⟨grpCache, []⟩
    (pipeline.stale st.remove, { p with cache := cache })

/-- Loop state of the target loop of `handleNotEmpty`. -/
structure TargetLoop where
  grpCache : groupCache
  seen : List (Nat × Bool)
  add : List Config
  arrays : Arrays
deriving DecidableEq, Repr

/-- Body of `for _, target := range group.Targets()` in `handleNotEmpty`: the
slice that `Build` returns is stored in the inner cache, and
`append(add, cfgs...)` copies its elements. -/
def handleNotEmptyStep (B : Builder) (st : TargetLoop) : Option Target → TargetLoop
  | none => st
  | some target =>
    let seen := mapSet st.seen target.Hash true
    match mapGet st.grpCache target.Hash with
    | some _ => { st with seen := seen }
    | none =>
      let r := B st.arrays target
      { grpCache := mapSet st.grpCache target.Hash r.1
        seen := seen
        add := st.add ++ elements r.2 r.1
        arrays := r.2 }

/-- Loop state of the eviction loop of `handleNotEmpty`. -/
structure EvictLoop where
  grpCache : groupCache
  remove : List Config
  arrays : Arrays
deriving DecidableEq, Repr

/-- Body of `for hash, cfgs := range grpCache` in `handleNotEmpty`:
`stale(cfgs)` writes into the backing array of the cached slice, then
`append(remove, ...)` copies the written elements. -/
def evictStep (seen : List (Nat × Bool)) (st : EvictLoop) (e : Nat × Nat) : EvictLoop :=
  if !((mapGet seen e.1).getD false) then
    let w := stale st.arrays e.2
    { grpCache := mapDelete st.grpCache e.1
      remove := st.remove ++ elements w.1 w.2
      arrays := w.1 }
  else st

/-- Go `Pipeline.handleNotEmpty`. -/
def Pipeline.handleNotEmpty (R : MapRange) (B : Builder) (p : Pipeline) (group : Group) :
    (List Config × List Config) × Pipeline :=
  let exist := (mapGet p.cache group.Source).isSome
  let grpCache := (mapGet p.cache group.Source).getD []
  let cache := if !exist then mapSet p.cache group.Source grpCache else p.cache
  let tl := group.Targets.foldl (handleNotEmptyStep B) ⟨grpCache, [], [], p.arrays⟩
  if !exist then
    ((tl.add, []), { cache := mapSet cache group.Source tl.grpCache, arrays := tl.arrays })
  else
    let el := (R.order tl.grpCache).foldl (evictStep tl.seen) ⟨tl.grpCache, [], tl.arrays⟩
    ((tl.add, el.remove), { cache := mapSet cache group.Source el.grpCache, arrays := el.arrays })

/-- Body of `for _, group := range groups` in `process`. -/
def processStep (R : MapRange) (B : Builder) (st : List Config × Pipeline) (group : Group) :
    List Config × Pipeline :=
  if group.Targets.length = 0 then
    let r := st.2.handleEmpty R group
    if r.1.length > 0 then (st.1 ++ r.1, r.2) else (st.1, r.2)
  else
    let r := st.2.handleNotEmpty R B group
    if r.1.1.length > 0 ∨ r.1.2.length > 0 then (st.1 ++ (r.1.1 ++ r.1.2), r.2) else (st.1, r.2)

/-- Go `Pipeline.process`: the configs of the batch and the state it leaves. -/
def Pipeline.process (R : MapRange) (B : Builder) (p : Pipeline) (groups : List Group) :
    List Config × Pipeline :=
  groups.foldl (processStep R B) ([], p)

/-- The configs that the cache holds under a source and a hash: the elements of
the cached slice, none when there is no such entry. -/
def Pipeline.cachedAt (p : Pipeline) (source : String) (hash : Nat) : List Config :=
  match (mapGet p.cache source).bind (fun grpCache => mapGet grpCache hash) with
  | none => []
  | some slice => elements p.arrays slice

/-- The Builder that hands out a fresh array at every call: it builds the
configs `b target` into a new array behind all others and returns its slice. -/
def freshBuilder (b : pipeline.Builder) : Builder := fun arrays t =>
  (arrays.length, arrays ++ [(arrays.length, b t)])

/-- An inner cache with every cached slice replaced by its elements. -/
def deref (arrays : Arrays) (grpCache : groupCache) : pipeline.groupCache :=
  grpCache.map (fun e => (e.1, elements arrays e.2))

/-- The cache of a state with every cached slice replaced by its elements. -/
def view (p : Pipeline) : pipeline.cache :=
  p.cache.map (fun e => (e.1, deref p.arrays e.2))

/-- The arrays are allocated one behind the other: the addresses are
`0, 1, ...` in order. -/
def MemWF (arrays : Arrays) : Prop := mapKeys arrays = List.range arrays.length

/-- No backing array is shared: the cache holds no slice twice, every cached
slice lies in the memory, the memory is allocated in order and the cache has
one entry per source. -/
def Unshared (p : Pipeline) : Prop :=
  MemWF p.arrays ∧ mapWF p.cache ∧
  (∀ e₁ ∈ p.cache, ∀ x₁ ∈ e₁.2, ∀ e₂ ∈ p.cache, ∀ x₂ ∈ e₂.2,
    x₁.2 = x₂.2 → e₁.1 = e₂.1 ∧ x₁.1 = x₂.1) ∧
  (∀ e ∈ p.cache, ∀ x ∈ e.2, x.2 < p.arrays.length)

/-- The inner-cache entries and the memory after the fresh Builder has built a
list of targets, one after the other. -/
def allocate (b : pipeline.Builder) : Arrays → List Target → groupCache × Arrays
  | arrays, [] => ([], arrays)
  | arrays, t :: ts =>
    ((t.Hash, arrays.length) :: (allocate b (arrays ++ [(arrays.length, b t)]) ts).1,
      (allocate b (arrays ++ [(arrays.length, b t)]) ts).2)

/-- The memory after `stale` has written into a list of slices. -/
def writeAll (arrays : Arrays) (slices : List Nat) : Arrays :=
  slices.foldl (fun a s => (stale a s).1) arrays

/-- A Builder that keeps one slice per target hash: it builds the config of a
target, named after it and not stale, into a new array at the first call for
the hash, and hands the same slice out again at every later call. -/
def memoBuilder : Builder := fun arrays t =>
  match mapGet arrays t.Hash with
  | some _ => (t.Hash, arrays)
  | none => (t.Hash, mapSet arrays t.Hash [⟨t.TUID, false⟩])

/-- The group of source `s1` with the target of hash 1. -/
def group1 : Group := ⟨"s1", [some target1]⟩

/-- The group of source `s1` with the target of hash 2. -/
def group2 : Group := ⟨"s1", [some target2]⟩

/-- The group of source `s2` with the target of hash 1. -/
def otherGroup1 : Group := ⟨"s2", [some target1]⟩

/-- The state after `group1` and then `group2` went through a pipeline with the
memoizing Builder: hash 1 of `s1` was added, then evicted. -/
def afterEviction : Pipeline :=
  ((New []).process MapRange.insertion memoBuilder [group1, group2]).2

/-- The state after `group1` and then `otherGroup1` went through a pipeline
with the memoizing Builder: `s1` and `s2` cache the same slice under hash 1. -/
def afterSharing : Pipeline :=
  ((New []).process MapRange.insertion memoBuilder [group1, otherGroup1]).2

end byRef

end pipeline

namespace kubernetes

/-! ## The service discoverer: data model -/

namespace apiv1

/-- The fields of `apiv1.ServicePort` (package `k8s.io/api/core/v1`) that the
code reads.  `Port` is an `int32`. -/
structure ServicePort where
  Name : String
  Protocol : String
  Port : Int
deriving DecidableEq, Repr

/-- The fields of `apiv1.ServiceSpec` that the code reads. -/
structure ServiceSpec where
  ClusterIP : String
  Ports : List ServicePort
  ExternalName : String
  Type' : String
deriving DecidableEq, Repr

/-- The fields of `apiv1.Service` that the code reads.  The two maps are
`map[string]string`. -/
structure Service where
  Namespace : String
  Name : String
  Annotations : List (String × String)
  Labels : List (String × String)
  Spec : ServiceSpec
deriving DecidableEq, Repr

end apiv1

/-- Go `ServiceTarget`.  The embedded `model.Base` carries no data at
construction and is left out.  `map[string]interface{}` is a list of pairs. -/
structure ServiceTarget where
  hash : Nat
  tuid : String
  Address : String
  Namespace : String
  Name : String
  Annotations : List (String × String)
  Labels : List (String × String)
  Port : String
  PortName : String
  PortProtocol : String
  ClusterIP : String
  ExternalName : String
  Type' : String
deriving DecidableEq, Repr

/-- Go `ServiceTarget.Hash`. -/
def ServiceTarget.Hash (st : ServiceTarget) : Nat := st.hash

/-- Go `ServiceTarget.TUID`. -/
def ServiceTarget.TUID (st : ServiceTarget) : String := st.tuid

/-- Go `serviceGroup`. -/
structure serviceGroup where
  targets : List ServiceTarget
  source : String
deriving DecidableEq, Repr

/-- Go `serviceGroup.Source`. -/
def serviceGroup.Source (sg : serviceGroup) : String := sg.source

/-- Go `serviceGroup.Targets`. -/
def serviceGroup.Targets (sg : serviceGroup) : List ServiceTarget := sg.targets

/-- A `serviceGroup` as the `model.Group` that the pipeline receives: its
source, and its targets seen through `Hash` and `TUID`. -/
def serviceGroup.toGroup (sg : serviceGroup) : pipeline.Group :=
  ⟨sg.Source, sg.Targets.map (fun t => some ⟨t.Hash, t.TUID⟩)⟩

/-- The functions that the code calls and that are not part of the sources at
hand: `calcHash` and `toMapInterface` of this package, `strings.ToLower` and
`cache.SplitMetaNamespaceKey` of libraries.  A returned error is `none`. -/
structure Lib where
  calcHash : ServiceTarget → Option Nat
  toMapInterface : List (String × String) → List (String × String)
  ToLower : String → String
  SplitMetaNamespaceKey : String → Option (String × String)

/-- Go `strconv.FormatInt(i, 10)`: the decimal digits, with a minus sign for a
negative number. -/
def FormatInt (i : Int) : String := toString i

/-- Go `net.JoinHostPort`: `host:port`, with the host in brackets when it
contains a colon. -/
def JoinHostPort (host port : String) : String :=
  if ':' ∈ host.data then "[" ++ host ++ "]:" ++ port else host ++ ":" ++ port

/-! ## The service discoverer: code -/

/-- Go `serviceTUID`; `fmt.Sprintf` with the format `%s_%s_%s_%s` joins its four
string arguments with underscores. -/
def serviceTUID (L : Lib) (svc : apiv1.Service) (port : apiv1.ServicePort) : String :=
  svc.Namespace ++ "_" ++ svc.Name ++ "_" ++ L.ToLower port.Protocol ++ "_" ++
    FormatInt port.Port

/-- Go `serviceSourceFromNsName`. -/
def serviceSourceFromNsName (ns name : String) : String :=
  "k8s/service/" ++ ns ++ "/" ++ name

/-- Go `serviceSource`. -/
def serviceSource (svc : apiv1.Service) : String :=
  serviceSourceFromNsName svc.Namespace svc.Name

/-- The struct literal `&ServiceTarget{...}` of `buildTargets`, hash not yet set. -/
def newServiceTarget (L : Lib) (svc : apiv1.Service) (port : apiv1.ServicePort) :
    ServiceTarget :=
  { hash := 0
    tuid := serviceTUID L svc port
    Address := JoinHostPort (svc.Name ++ "." ++ svc.Namespace ++ ".svc") (FormatInt port.Port)
    Namespace := svc.Namespace
    Name := svc.Name
    Annotations := L.toMapInterface svc.Annotations
    Labels := L.toMapInterface svc.Labels
    Port := FormatInt port.Port
    PortName := port.Name
    PortProtocol := port.Protocol
    ClusterIP := svc.Spec.ClusterIP
    ExternalName := svc.Spec.ExternalName
    Type' := svc.Spec.Type' }

/-- Body of `for _, port := range svc.Spec.Ports` in `buildTargets`. -/
def buildTargetsStep (L : Lib) (svc : apiv1.Service) (targets : List ServiceTarget)
    (port : apiv1.ServicePort) : List ServiceTarget :=
  match L.calcHash (newServiceTarget L svc port) with
  | none => targets
  | some hash => targets ++ [{ newServiceTarget L svc port with hash := hash }]

/-- Go `Service.buildTargets`. -/
def buildTargets (L : Lib) (svc : apiv1.Service) : List ServiceTarget :=
  svc.Spec.Ports.foldl (buildTargetsStep L svc) []

/-- Go `Service.buildGroup`. -/
def buildGroup (L : Lib) (svc : apiv1.Service) : serviceGroup :=
  if svc.Spec.ClusterIP = "" ∨ svc.Spec.Ports.length = 0 then
    { source := serviceSource svc, targets := [] }
  else
    { source := serviceSource svc, targets := buildTargets L svc }

/-- An object of the informer store: a `*apiv1.Service`, or something else. -/
inductive StoreItem where
  | service (svc : apiv1.Service)
  | other
deriving DecidableEq, Repr

/-- Go `toService`; an error is `none`. -/
def toService (o : StoreItem) : Option apiv1.Service :=
  match o with
  | StoreItem.service svc => some svc
  | StoreItem.other => none

/-- A `cache.SharedInformer` as the code sees it at one moment: whether it has
synced, and `GetStore().GetByKey`, which yields an error (`none`), absence
(`some none`) or the object. -/
structure SharedInformer where
  HasSynced : Bool
  GetByKey : String → Option (Option StoreItem)

/-- Go `Service`, the service discoverer (queue and logger left out). -/
structure Service where
  informer : SharedInformer

/-- One turn of the loop of `Service.run` for a dequeued key: the group handed
to `send`, or `none` when the turn returns without sending. -/
def Service.run (L : Lib) (s : Service) (key : String) : Option serviceGroup :=
  match L.SplitMetaNamespaceKey key with
  | none => none
  | some (ns, name) =>
    match s.informer.GetByKey key with
    | none => none
    | some none => some { source := serviceSourceFromNsName ns name, targets := [] }
    | some (some item) =>
      match toService item with
      | none => none
      | some svc => some (buildGroup L svc)

/-- Go `Service.hasSynced`. -/
def Service.hasSynced (s : Service) : Bool := s.informer.HasSynced

/-- Go `Pod`, the pod discoverer, with the three informers that `hasSynced` reads. -/
structure Pod where
  podInformer : SharedInformer
  cmapInformer : SharedInformer
  secretInformer : SharedInformer

/-- Go `Pod.hasSynced`. -/
def Pod.hasSynced (p : Pod) : Bool :=
  p.podInformer.HasSynced && p.cmapInformer.HasSynced && p.secretInformer.HasSynced

/-- A value of the interface `discoverer`: a pod discoverer, a service
discoverer, or a value of a type without the method `hasSynced`. -/
inductive discoverer where
  | pod (p : Pod)
  | service (s : Service)
  | other

/-- The type assertion `dd.(hasSynced)` followed by the call `v.hasSynced()`:
`none` when the assertion fails. -/
def discoverer.syncStatus : discoverer → Option Bool
  | discoverer.pod p => some p.hasSynced
  | discoverer.service s => some s.hasSynced
  | discoverer.other => none

/-- Go `Discovery`, with the field that `hasSynced` reads. -/
structure Discovery where
  discoverers : List discoverer

/-- The loop of `Discovery.hasSynced`. -/
def hasSyncedLoop : List discoverer → Bool
  | [] => true
  | dd :: rest =>
    match dd.syncStatus with
    | none => false
    | some v => if !v then false else hasSyncedLoop rest

/-- Go `Discovery.hasSynced`. -/
def Discovery.hasSynced (d : Discovery) : Bool := hasSyncedLoop d.discoverers

/-! ## Concrete inputs of the service discoverer -/

/-- A library whose hash is the length of the address, whose map conversion
keeps the pairs, whose `ToLower` lowers ASCII letters and whose key parser
knows the key `prod/httpd`. -/
def demoLib : Lib :=
  { calcHash := fun t => some t.Address.length
    toMapInterface := fun m => m
    ToLower := fun s => String.mk (s.data.map Char.toLower)
    SplitMetaNamespaceKey := fun key =>
      if key = "prod/httpd" then some ("prod", "httpd") else none }

/-- A library as `demoLib` whose hash fails on port 443. -/
def failingLib : Lib :=
  { demoLib with calcHash := fun t => if t.Port = "443" then none else some t.Address.length }

/-- A service discoverer whose store is empty. -/
def emptyStore : Service := ⟨⟨true, fun _ => some none⟩⟩

/-- A service `prod/httpd` with cluster IP and the ports 80 and 443. -/
def httpdService : apiv1.Service :=
  { Namespace := "prod"
    Name := "httpd"
    Annotations := []
    Labels := [("app", "httpd")]
    Spec :=
      { ClusterIP := "10.0.0.1"
        Ports := [⟨"http", "TCP", 80⟩, ⟨"https", "TCP", 443⟩]
        ExternalName := ""
        Type' := "ClusterIP" } }

/-- The service `prod/httpd` without a cluster IP and with other labels. -/
def headlessService : apiv1.Service :=
  { httpdService with
    Labels := []
    Spec := { httpdService.Spec with ClusterIP := "" } }

/-- A service discoverer whose store holds `headlessService` under `prod/httpd`. -/
def headlessStore : Service :=
  ⟨⟨true, fun key => if key = "prod/httpd" then some (some (StoreItem.service headlessService))
    else some none⟩⟩

/-- A pod discoverer whose secret informer has not synced. -/
def pendingPod : Pod := ⟨⟨true, fun _ => some none⟩, ⟨true, fun _ => some none⟩,
  ⟨false, fun _ => some none⟩⟩

end kubernetes

namespace pipeline

/-! ## Facts about Go maps -/

section GoMapFacts

variable {κ : Type} {ν : Type} [DecidableEq κ]

theorem mapGet_eq_none_iff (m : List (κ × ν)) (k : κ) :
    mapGet m k = none ↔ k ∉ mapKeys m := by
  induction m with
  | nil => simp [mapGet, mapKeys]
  | cons e m ih =>
    obtain ⟨k', v⟩ := e
    by_cases h : k' = k
    · simp [mapGet, mapKeys, h]
    · have h' : ¬ k = k' := fun x => h x.symm
      simpa [mapGet, mapKeys, h, h'] using ih

theorem mapGet_isSome_iff (m : List (κ × ν)) (k : κ) :
    (mapGet m k).isSome ↔ k ∈ mapKeys m := by
  have := mapGet_eq_none_iff m k
  cases hg : mapGet m k with
  | none => simpa [hg] using this
  | some v =>
    rw [hg] at this
    simp only [Option.isSome_some, true_iff]
    by_contra hk
    exact absurd (this.mpr hk) (by simp)

theorem mapGet_mem (m : List (κ × ν)) (k : κ) (v : ν) (h : mapGet m k = some v) :
    (k, v) ∈ m := by
  induction m with
  | nil => simp [mapGet] at h
  | cons e m ih =>
    obtain ⟨k', v'⟩ := e
    by_cases hk : k' = k
    · simp [mapGet, hk] at h
      simp [hk, h]
    · simp [mapGet, hk] at h
      exact List.mem_cons_of_mem _ (ih h)

theorem mapGet_of_mem (m : List (κ × ν)) (hm : mapWF m) (k : κ) (v : ν) (h : (k, v) ∈ m) :
    mapGet m k = some v := by
  induction m with
  | nil => simp at h
  | cons e m ih =>
    obtain ⟨k', v'⟩ := e
    have hm' : k' ∉ mapKeys m ∧ mapWF m := by simpa [mapWF, mapKeys] using hm
    rcases List.mem_cons.mp h with h | h
    · cases h
      simp [mapGet]
    · have hk : k' ≠ k := by
        intro hk
        apply hm'.1
        rw [hk]
        exact List.mem_map_of_mem Prod.fst h
      simpa [mapGet, hk] using ih hm'.2 h

theorem mapSet_of_none (m : List (κ × ν)) (k : κ) (v : ν) (h : mapGet m k = none) :
    mapSet m k v = m ++ [(k, v)] := by
  induction m with
  | nil => simp [mapSet]
  | cons e m ih =>
    obtain ⟨k', v'⟩ := e
    by_cases hk : k' = k
    · simp [mapGet, hk] at h
    · simp [mapGet, hk] at h
      simp [mapSet, hk, ih h]

theorem mapSet_of_some (m : List (κ × ν)) (k : κ) (v : ν) (h : mapGet m k = some v) :
    mapSet m k v = m := by
  induction m with
  | nil => simp [mapGet] at h
  | cons e m ih =>
    obtain ⟨k', v'⟩ := e
    by_cases hk : k' = k
    · simp [mapGet, hk] at h
      simp [mapSet, hk, h]
    · simp [mapGet, hk] at h
      simp [mapSet, hk, ih h]

theorem mapGet_mapSet_self (m : List (κ × ν)) (k : κ) (v : ν) :
    mapGet (mapSet m k v) k = some v := by
  induction m with
  | nil => simp [mapSet, mapGet]
  | cons e m ih =>
    obtain ⟨k', v'⟩ := e
    by_cases hk : k' = k
    · simp [mapSet, mapGet, hk]
    · simp [mapSet, mapGet, hk, ih]

theorem mapGet_mapSet_ne (m : List (κ × ν)) (k k' : κ) (v : ν) (h : k' ≠ k) :
    mapGet (mapSet m k v) k' = mapGet m k' := by
  have h' : ¬ k = k' := fun x => h x.symm
  induction m with
  | nil => simp [mapSet, mapGet, h']
  | cons e m ih =>
    obtain ⟨k₀, v₀⟩ := e
    by_cases hk : k₀ = k
    · subst hk
      simp [mapSet, mapGet, h']
    · by_cases hk' : k₀ = k'
      · subst hk'
        simp [mapSet, mapGet, hk]
      · simp [mapSet, mapGet, hk, hk', ih]

theorem mapSet_mapSet (m : List (κ × ν)) (k : κ) (v v' : ν) :
    mapSet (mapSet m k v) k v' = mapSet m k v' := by
  induction m with
  | nil => simp [mapSet]
  | cons e m ih =>
    obtain ⟨k', v₀⟩ := e
    by_cases hk : k' = k
    · simp [mapSet, hk]
    · simp [mapSet, hk, ih]

theorem mapGet_mapDelete_self (m : List (κ × ν)) (k : κ) :
    mapGet (mapDelete m k) k = none := by
  rw [mapGet_eq_none_iff]
  simp [mapKeys, mapDelete, List.mem_filter]

theorem mapGet_mapDelete_ne (m : List (κ × ν)) (k k' : κ) (h : k' ≠ k) :
    mapGet (mapDelete m k) k' = mapGet m k' := by
  have h' : ¬ k = k' := fun x => h x.symm
  induction m with
  | nil => simp [mapDelete, mapGet]
  | cons e m ih =>
    obtain ⟨k₀, v₀⟩ := e
    simp only [mapDelete, ne_eq, decide_not] at ih
    by_cases hk : k₀ = k
    · subst hk
      simp [mapDelete, mapGet, h', List.filter_cons, ih]
    · by_cases hk' : k₀ = k'
      · subst hk'
        simp [mapDelete, mapGet, hk, List.filter_cons]
      · simp [mapDelete, mapGet, hk, hk', List.filter_cons, ih]

theorem mapDelete_of_none (m : List (κ × ν)) (k : κ) (h : mapGet m k = none) :
    mapDelete m k = m := by
  rw [mapGet_eq_none_iff] at h
  unfold mapDelete
  rw [List.filter_eq_self]
  intro e he
  have : e.1 ≠ k := by
    intro hk
    apply h
    rw [← hk]
    exact List.mem_map_of_mem Prod.fst he
  simpa using this

theorem mapWF_mapDelete (m : List (κ × ν)) (k : κ) (h : mapWF m) : mapWF (mapDelete m k) := by
  unfold mapWF mapKeys mapDelete at *
  exact (List.Nodup.sublist (List.Sublist.map _ (List.filter_sublist _)) h)

omit [DecidableEq κ] in
theorem mapWF_filter (m : List (κ × ν)) (f : κ × ν → Bool) (h : mapWF m) : mapWF (m.filter f) := by
  unfold mapWF mapKeys at *
  exact (List.Nodup.sublist (List.Sublist.map _ (List.filter_sublist _)) h)

theorem mapKeys_mapSet_of_none (m : List (κ × ν)) (k : κ) (v : ν) (h : mapGet m k = none) :
    mapKeys (mapSet m k v) = mapKeys m ++ [k] := by
  rw [mapSet_of_none m k v h]
  simp [mapKeys]

theorem mapKeys_mapSet_of_mem (m : List (κ × ν)) (k : κ) (v : ν) (h : k ∈ mapKeys m) :
    mapKeys (mapSet m k v) = mapKeys m := by
  induction m with
  | nil => simp [mapKeys] at h
  | cons e m ih =>
    obtain ⟨k', v'⟩ := e
    by_cases hk : k' = k
    · simp [mapSet, mapKeys, hk]
    · have hk' : ¬ k = k' := fun x => hk x.symm
      have : k ∈ mapKeys m := by simpa [mapKeys, hk'] using h
      have ih' := ih this
      simp only [mapKeys] at ih'
      simp [mapSet, mapKeys, hk, ih']

theorem mapWF_mapSet (m : List (κ × ν)) (k : κ) (v : ν) (h : mapWF m) : mapWF (mapSet m k v) := by
  by_cases hk : k ∈ mapKeys m
  · unfold mapWF
    rw [mapKeys_mapSet_of_mem m k v hk]
    exact h
  · have hn := (mapGet_eq_none_iff m k).mpr hk
    unfold mapWF
    rw [mapKeys_mapSet_of_none m k v hn]
    exact List.Nodup.append h (List.nodup_singleton k) (by simpa using hk)

end GoMapFacts

/-! ## The loops -/

theorem mem_hashes_cons_some (t : Target) (ts : List (Option Target)) (h : Nat) :
    h ∈ hashes (some t :: ts) ↔ h = t.Hash ∨ h ∈ hashes ts := by
  simp [hashes, List.reduceOption_cons_of_some]

theorem hashes_cons_none (ts : List (Option Target)) : hashes (none :: ts) = hashes ts := by
  simp [hashes, List.reduceOption_cons_of_none]

theorem hashes_cons_some (t : Target) (ts : List (Option Target)) :
    hashes (some t :: ts) = t.Hash :: hashes ts := by
  simp [hashes, List.reduceOption_cons_of_some]

theorem fresh_sublist (known : List Nat) (ts : List (Option Target)) :
    (fresh known ts).Sublist ts.reduceOption := by
  induction ts generalizing known with
  | nil => simp [fresh]
  | cons o ts ih =>
    cases o with
    | none => simpa [fresh, List.reduceOption_cons_of_none] using ih known
    | some t =>
      rw [List.reduceOption_cons_of_some]
      by_cases hk : t.Hash ∈ known
      · simp only [fresh, hk, if_true]
        exact List.Sublist.cons _ (ih known)
      · simp only [fresh, hk, if_false]
        exact List.Sublist.cons₂ _ (ih _)

theorem mem_fresh_hash (known : List Nat) (ts : List (Option Target)) (h : Nat) :
    h ∈ (fresh known ts).map Target.Hash ↔ h ∈ hashes ts ∧ h ∉ known := by
  induction ts generalizing known with
  | nil => simp [fresh, hashes]
  | cons o ts ih =>
    cases o with
    | none => simpa [fresh, hashes_cons_none] using ih known
    | some t =>
      by_cases hk : t.Hash ∈ known
      · simp only [fresh, hk, if_true, ih known, mem_hashes_cons_some]
        constructor
        · rintro ⟨h1, h2⟩
          exact ⟨Or.inr h1, h2⟩
        · rintro ⟨h1 | h1, h2⟩
          · rw [h1] at h2
            exact absurd hk h2
          · exact ⟨h1, h2⟩
      · simp only [fresh, hk, if_false, List.map_cons, List.mem_cons, ih, mem_hashes_cons_some,
          List.mem_append]
        by_cases he : h = t.Hash
        · subst he
          simp [hk]
        · simp [he]

theorem fresh_nodup (known : List Nat) (ts : List (Option Target)) :
    ((fresh known ts).map Target.Hash).Nodup := by
  induction ts generalizing known with
  | nil => simp [fresh]
  | cons o ts ih =>
    cases o with
    | none => simpa [fresh] using ih known
    | some t =>
      by_cases hk : t.Hash ∈ known
      · simpa [fresh, hk] using ih known
      · simp only [fresh, hk, if_false, List.map_cons, List.nodup_cons]
        refine ⟨?_, ih _⟩
        intro hm
        have := (mem_fresh_hash _ _ _).mp hm
        exact this.2 (by simp)

theorem fresh_eq_nil (known : List Nat) (ts : List (Option Target))
    (h : ∀ x ∈ hashes ts, x ∈ known) : fresh known ts = [] := by
  have : (fresh known ts).map Target.Hash = [] := by
    rw [List.eq_nil_iff_forall_not_mem]
    intro x hx
    have := (mem_fresh_hash _ _ _).mp hx
    exact this.2 (h x this.1)
  simpa using this

/-- The `seen` map after the target loop marks exactly the hashes of the list. -/
theorem seen_foldl (hs : List Nat) (s : List (Nat × Bool)) (h : Nat) :
    (mapGet (hs.foldl (fun s x => mapSet s x true) s) h).getD false = true ↔
      (mapGet s h).getD false = true ∨ h ∈ hs := by
  induction hs generalizing s with
  | nil => simp
  | cons x hs ih =>
    rw [List.foldl_cons, ih]
    by_cases hx : h = x
    · subst hx
      simp [mapGet_mapSet_self]
    · rw [mapGet_mapSet_ne _ _ _ _ hx]
      simp [hx]

/-- What the target loop of `handleNotEmpty` computes. -/
theorem targetLoop_spec (B : Builder) (source : String) (ts : List (Option Target))
    (st : TargetLoop) :
    ts.foldl (handleNotEmptyStep B source) st =
      { grpCache := st.grpCache ++
          (fresh (mapKeys st.grpCache) ts).map (fun t => (t.Hash, B t))
        seen := (hashes ts).foldl (fun s x => mapSet s x true) st.seen
        add := st.add ++ (fresh (mapKeys st.grpCache) ts).flatMap B
        calls := st.calls ++ (fresh (mapKeys st.grpCache) ts).flatMap
          (fun t => [Call.Tag source t, Call.Build source t]) } := by
  induction ts generalizing st with
  | nil => simp [fresh, hashes]
  | cons o ts ih =>
    cases o with
    | none => simpa [handleNotEmptyStep, fresh, hashes_cons_none] using ih st
    | some t =>
      rw [List.foldl_cons, ih]
      cases hg : mapGet st.grpCache t.Hash with
      | some v =>
        have hk : t.Hash ∈ mapKeys st.grpCache := by
          rw [← mapGet_isSome_iff, hg]; rfl
        simp [handleNotEmptyStep, hg, fresh, hk, hashes_cons_some]
      | none =>
        have hk : t.Hash ∉ mapKeys st.grpCache := (mapGet_eq_none_iff _ _).mp hg
        have h1 : handleNotEmptyStep B source st (some t) =
            { grpCache := st.grpCache ++ [(t.Hash, B t)]
              seen := mapSet st.seen t.Hash true
              add := st.add ++ B t
              calls := st.calls ++ [Call.Tag source t, Call.Build source t] } := by
          simp [handleNotEmptyStep, hg, mapSet_of_none _ _ _ hg]
        have h2 : mapKeys (st.grpCache ++ [(t.Hash, B t)]) = mapKeys st.grpCache ++ [t.Hash] := by
          simp [mapKeys]
        rw [h1]
        simp only [h2, fresh, hk, if_false, hashes_cons_some, List.foldl_cons, List.map_cons,
          List.flatMap_cons, List.append_assoc, List.singleton_append, List.cons_append,
          List.nil_append]

theorem filter_mapDelete (m : List (Nat × List Config)) (k : Nat) (l : List Nat) :
    (mapDelete m k).filter (fun e => decide (e.1 ∉ l)) =
      m.filter (fun e => decide (e.1 ∉ k :: l)) := by
  unfold mapDelete
  rw [List.filter_filter]
  apply List.filter_congr
  intro x _
  by_cases hx : x.1 = k <;> simp [hx]

/-- What the eviction loop of `handleNotEmpty` computes. -/
theorem evictLoop_spec (source : String) (seen : List (Nat × Bool))
    (es : List (Nat × List Config)) (st : EvictLoop) :
    es.foldl (evictStep source seen) st =
      { grpCache := st.grpCache.filter (fun e => decide (e.1 ∉
          (es.filter (fun e => !((mapGet seen e.1).getD false))).map Prod.fst))
        remove := st.remove ++
          (es.filter (fun e => !((mapGet seen e.1).getD false))).flatMap (fun e => stale e.2)
        evicted := st.evicted ++
          (es.filter (fun e => !((mapGet seen e.1).getD false))).map (fun e => (source, e.1)) } := by
  induction es generalizing st with
  | nil => simp
  | cons e es ih =>
    rw [List.foldl_cons, ih]
    by_cases hs : (mapGet seen e.1).getD false = true
    · have h1 : evictStep source seen st e = st := by simp [evictStep, hs]
      have h2 : (e :: es).filter (fun e => !((mapGet seen e.1).getD false)) =
          es.filter (fun e => !((mapGet seen e.1).getD false)) := by
        simp [List.filter_cons, hs]
      rw [h1, h2]
    · simp only [Bool.not_eq_true] at hs
      have h1 : evictStep source seen st e =
          { grpCache := mapDelete st.grpCache e.1
            remove := st.remove ++ stale e.2
            evicted := st.evicted ++ [(source, e.1)] } := by simp [evictStep, hs]
      have h2 : (e :: es).filter (fun e => !((mapGet seen e.1).getD false)) =
          e :: es.filter (fun e => !((mapGet seen e.1).getD false)) := by
        simp [List.filter_cons, hs]
      rw [h1, h2]
      simp only [filter_mapDelete, List.map_cons, List.flatMap_cons, List.append_assoc,
        List.singleton_append]

/-- What the loop of `handleEmpty` computes. -/
theorem emptyLoop_spec (source : String) (es : List (Nat × List Config)) (st : EmptyLoop) :
    es.foldl (handleEmptyStep source) st =
      { grpCache := st.grpCache.filter (fun e => decide (e.1 ∉ es.map Prod.fst))
        remove := st.remove ++ es.flatMap Prod.snd
        evicted := st.evicted ++ es.map (fun e => (source, e.1)) } := by
  induction es generalizing st with
  | nil => simp
  | cons e es ih =>
    rw [List.foldl_cons, ih]
    simp only [handleEmptyStep, filter_mapDelete, List.map_cons, List.flatMap_cons,
      List.append_assoc, List.singleton_append]

/-! ## The two handlers -/

theorem handleEmpty_none (R : MapRange) (p : Pipeline) (group : Group)
    (h : mapGet p.cache group.Source = none) : p.handleEmpty R group = ([], p) := by
  simp [Pipeline.handleEmpty, h]

theorem handleEmpty_some (R : MapRange) (p : Pipeline) (group : Group) (grpCache : groupCache)
    (h : mapGet p.cache group.Source = some grpCache) :
    p.handleEmpty R group =
      (stale ((R.order grpCache).flatMap Prod.snd),
        { p with
          cache := mapDelete p.cache group.Source
          evicted := p.evicted ++ (R.order grpCache).map (fun e => (group.Source, e.1)) }) := by
  simp [Pipeline.handleEmpty, h, emptyLoop_spec]

theorem unseen_iff (ts : List (Option Target)) (h : Nat) :
    (!((mapGet ((hashes ts).foldl (fun s x => mapSet s x true) []) h).getD false)) =
      decide (h ∉ hashes ts) := by
  have := seen_foldl (hashes ts) [] h
  simp only [mapGet, Option.getD_none, Bool.false_eq_true, false_or] at this
  by_cases hh : h ∈ hashes ts
  · simp [hh, this.mpr hh]
  · have : (mapGet ((hashes ts).foldl (fun s x => mapSet s x true) []) h).getD false = false := by
      cases hv : (mapGet ((hashes ts).foldl (fun s x => mapSet s x true) []) h).getD false with
      | false => rfl
      | true => exact absurd (this.mp hv) hh
    simp [hh, this]

theorem handleNotEmpty_none (R : MapRange) (B : Builder) (p : Pipeline) (group : Group)
    (h : mapGet p.cache group.Source = none) :
    p.handleNotEmpty R B group =
      (((fresh [] group.Targets).flatMap B, []),
        { p with
          cache := mapSet p.cache group.Source (built B (fresh [] group.Targets))
          calls := p.calls ++ callsFor group.Source (fresh [] group.Targets) }) := by
  simp [Pipeline.handleNotEmpty, h, targetLoop_spec, mapSet_mapSet, built, callsFor, mapKeys]

theorem handleNotEmpty_some (R : MapRange) (B : Builder) (p : Pipeline) (group : Group)
    (grpCache : groupCache) (h : mapGet p.cache group.Source = some grpCache) :
    p.handleNotEmpty R B group =
      (((fresh (mapKeys grpCache) group.Targets).flatMap B,
        (dropped (R.order (grpCache ++ built B (fresh (mapKeys grpCache) group.Targets)))
          (hashes group.Targets)).flatMap (fun e => stale e.2)),
        { cache := mapSet p.cache group.Source
            ((grpCache ++ built B (fresh (mapKeys grpCache) group.Targets)).filter
              (fun e => decide (e.1 ∉ (dropped (R.order (grpCache ++
                built B (fresh (mapKeys grpCache) group.Targets)))
                  (hashes group.Targets)).map Prod.fst)))
          calls := p.calls ++ callsFor group.Source (fresh (mapKeys grpCache) group.Targets)
          evicted := p.evicted ++
            (dropped (R.order (grpCache ++ built B (fresh (mapKeys grpCache) group.Targets)))
              (hashes group.Targets)).map (fun e => (group.Source, e.1)) }) := by
  simp only [Pipeline.handleNotEmpty, h, targetLoop_spec, evictLoop_spec, unseen_iff,
    Option.isSome_some, Option.getD_some, Bool.not_true, Bool.false_eq_true, if_false,
    List.nil_append, built, callsFor, dropped]

theorem dropped_order_perm (R : MapRange) (m : groupCache) (hs : List Nat) :
    (dropped (R.order m) hs).Perm (dropped m hs) :=
  List.Perm.filter _ (R.perm m)

theorem built_hash_mem (B : Builder) (known : List Nat) (ts : List (Option Target))
    (e : Nat × List Config) (he : e ∈ built B (fresh known ts)) :
    e.1 ∈ hashes ts ∧ e.1 ∉ known := by
  unfold built at he
  obtain ⟨t, ht, rfl⟩ := List.mem_map.mp he
  exact (mem_fresh_hash known ts t.Hash).mp (List.mem_map_of_mem Target.Hash ht)

theorem dropped_append_built (B : Builder) (known : List Nat) (ts : List (Option Target))
    (m : groupCache) :
    dropped (m ++ built B (fresh known ts)) (hashes ts) = dropped m (hashes ts) := by
  unfold dropped
  rw [List.filter_append]
  have : (built B (fresh known ts)).filter (fun e => decide (e.1 ∉ hashes ts)) = [] := by
    rw [List.filter_eq_nil_iff]
    intro e he
    simp [(built_hash_mem B known ts e he).1]
  rw [this, List.append_nil]

theorem kept_append_built (B : Builder) (known : List Nat) (ts : List (Option Target))
    (m : groupCache) :
    kept (m ++ built B (fresh known ts)) (hashes ts) =
      kept m (hashes ts) ++ built B (fresh known ts) := by
  unfold kept
  rw [List.filter_append]
  have : (built B (fresh known ts)).filter (fun e => decide (e.1 ∈ hashes ts)) =
      built B (fresh known ts) := by
    rw [List.filter_eq_self]
    intro e he
    simp [(built_hash_mem B known ts e he).1]
  rw [this]

theorem filter_not_dropped (R : MapRange) (m : groupCache) (hs : List Nat) :
    m.filter (fun e => decide (e.1 ∉ (dropped (R.order m) hs).map Prod.fst)) = kept m hs := by
  unfold kept
  apply List.filter_congr
  intro e he
  by_cases hh : e.1 ∈ hs
  · have : e.1 ∉ (dropped (R.order m) hs).map Prod.fst := by
      intro hm
      obtain ⟨e', he', heq⟩ := List.mem_map.mp hm
      have := (List.mem_filter.mp he').2
      rw [heq] at this
      simp [hh] at this
    simp [hh, this]
  · have : e.1 ∈ (dropped (R.order m) hs).map Prod.fst := by
      apply List.mem_map_of_mem Prod.fst
      exact List.mem_filter.mpr ⟨(R.perm m).mem_iff.mpr he, by simp [hh]⟩
    simp [hh, this]

theorem cachedUnder_none (c : cache) (source : String) (h : mapGet c source = none) :
    cachedUnder c source = [] := by simp [cachedUnder, h]

theorem cachedUnder_some (c : cache) (source : String) (grpCache : groupCache)
    (h : mapGet c source = some grpCache) : cachedUnder c source = grpCache := by
  simp [cachedUnder, h]

/-- The additions of `handleNotEmpty`. -/
theorem handleNotEmpty_add (R : MapRange) (B : Builder) (p : Pipeline) (group : Group) :
    (p.handleNotEmpty R B group).1.1 =
      (fresh (mapKeys (cachedUnder p.cache group.Source)) group.Targets).flatMap B := by
  cases h : mapGet p.cache group.Source with
  | none => rw [handleNotEmpty_none R B p group h, cachedUnder_none _ _ h]; rfl
  | some grpCache => rw [handleNotEmpty_some R B p group grpCache h, cachedUnder_some _ _ _ h]

/-- The removals of `handleNotEmpty`, up to order. -/
theorem handleNotEmpty_remove (R : MapRange) (B : Builder) (p : Pipeline) (group : Group) :
    (p.handleNotEmpty R B group).1.2.Perm
      ((dropped (cachedUnder p.cache group.Source) (hashes group.Targets)).flatMap
        (fun e => stale e.2)) := by
  cases h : mapGet p.cache group.Source with
  | none =>
    rw [handleNotEmpty_none R B p group h, cachedUnder_none _ _ h]
    simp [dropped]
  | some grpCache =>
    rw [handleNotEmpty_some R B p group grpCache h, cachedUnder_some _ _ _ h]
    simp only
    refine List.Perm.flatMap_right _ ?_
    refine (dropped_order_perm R _ _).trans ?_
    rw [dropped_append_built]

/-- The cache that `handleNotEmpty` leaves. -/
theorem handleNotEmpty_cache (R : MapRange) (B : Builder) (p : Pipeline) (group : Group) :
    (p.handleNotEmpty R B group).2.cache =
      mapSet p.cache group.Source
        (kept (cachedUnder p.cache group.Source) (hashes group.Targets) ++
          built B (fresh (mapKeys (cachedUnder p.cache group.Source)) group.Targets)) := by
  cases h : mapGet p.cache group.Source with
  | none =>
    rw [handleNotEmpty_none R B p group h, cachedUnder_none _ _ h]
    simp [kept, mapKeys]
  | some grpCache =>
    rw [handleNotEmpty_some R B p group grpCache h, cachedUnder_some _ _ _ h]
    simp only
    rw [filter_not_dropped, kept_append_built]

/-- The collaborator invocations of `handleNotEmpty`. -/
theorem handleNotEmpty_calls (R : MapRange) (B : Builder) (p : Pipeline) (group : Group) :
    (p.handleNotEmpty R B group).2.calls =
      p.calls ++ callsFor group.Source
        (fresh (mapKeys (cachedUnder p.cache group.Source)) group.Targets) := by
  cases h : mapGet p.cache group.Source with
  | none => rw [handleNotEmpty_none R B p group h, cachedUnder_none _ _ h]; rfl
  | some grpCache => rw [handleNotEmpty_some R B p group grpCache h, cachedUnder_some _ _ _ h]

/-- The evictions of `handleNotEmpty`, up to order. -/
theorem handleNotEmpty_evicted (R : MapRange) (B : Builder) (p : Pipeline) (group : Group) :
    ∃ ev, (p.handleNotEmpty R B group).2.evicted = p.evicted ++ ev ∧
      ev.Perm ((dropped (cachedUnder p.cache group.Source) (hashes group.Targets)).map
        (fun e => (group.Source, e.1))) := by
  cases h : mapGet p.cache group.Source with
  | none =>
    rw [handleNotEmpty_none R B p group h, cachedUnder_none _ _ h]
    exact ⟨[], by simp, by simp [dropped]⟩
  | some grpCache =>
    rw [handleNotEmpty_some R B p group grpCache h, cachedUnder_some _ _ _ h]
    refine ⟨_, rfl, ?_⟩
    refine List.Perm.map _ ?_
    refine (dropped_order_perm R _ _).trans ?_
    rw [dropped_append_built]

/-! ## The batch loop -/

theorem processStep_empty (R : MapRange) (B : Builder) (st : List Config × Pipeline)
    (group : Group) (h : group.Targets = []) :
    processStep R B st group =
      (st.1 ++ (st.2.handleEmpty R group).1, (st.2.handleEmpty R group).2) := by
  unfold processStep
  simp only [h, List.length_nil, if_true]
  by_cases hl : (st.2.handleEmpty R group).1.length > 0
  · simp [hl]
  · have : (st.2.handleEmpty R group).1 = [] := by
      apply List.eq_nil_of_length_eq_zero
      omega
    simp [this]

theorem processStep_notEmpty (R : MapRange) (B : Builder) (st : List Config × Pipeline)
    (group : Group) (h : group.Targets ≠ []) :
    processStep R B st group =
      (st.1 ++ ((st.2.handleNotEmpty R B group).1.1 ++ (st.2.handleNotEmpty R B group).1.2),
        (st.2.handleNotEmpty R B group).2) := by
  unfold processStep
  have hl : ¬ group.Targets.length = 0 := by
    intro h0
    exact h (List.eq_nil_of_length_eq_zero h0)
  simp only [hl, if_false]
  by_cases hc : (st.2.handleNotEmpty R B group).1.1.length > 0 ∨
      (st.2.handleNotEmpty R B group).1.2.length > 0
  · simp [hc]
  · have h1 : (st.2.handleNotEmpty R B group).1.1 = [] := by
      apply List.eq_nil_of_length_eq_zero
      omega
    have h2 : (st.2.handleNotEmpty R B group).1.2 = [] := by
      apply List.eq_nil_of_length_eq_zero
      omega
    simp [h1, h2]

theorem processStep_acc (R : MapRange) (B : Builder) (st : List Config × Pipeline)
    (group : Group) :
    processStep R B st group =
      (st.1 ++ (processStep R B ([], st.2) group).1, (processStep R B ([], st.2) group).2) := by
  by_cases h : group.Targets = []
  · rw [processStep_empty R B st group h, processStep_empty R B _ group h]
    simp
  · rw [processStep_notEmpty R B st group h, processStep_notEmpty R B _ group h]
    simp

theorem foldl_processStep_acc (R : MapRange) (B : Builder) (groups : List Group)
    (cs : List Config) (p : Pipeline) :
    groups.foldl (processStep R B) (cs, p) =
      (cs ++ (groups.foldl (processStep R B) ([], p)).1,
        (groups.foldl (processStep R B) ([], p)).2) := by
  induction groups generalizing cs p with
  | nil => simp
  | cons g gs ih =>
    rw [List.foldl_cons, List.foldl_cons, processStep_acc R B (cs, p) g]
    rw [ih, ih (processStep R B ([], p) g).1]
    simp [List.append_assoc]

theorem process_nil (R : MapRange) (B : Builder) (p : Pipeline) :
    p.process R B [] = ([], p) := rfl

theorem process_cons (R : MapRange) (B : Builder) (p : Pipeline) (g : Group)
    (gs : List Group) :
    p.process R B (g :: gs) =
      ((processStep R B ([], p) g).1 ++ ((processStep R B ([], p) g).2.process R B gs).1,
        ((processStep R B ([], p) g).2.process R B gs).2) := by
  unfold Pipeline.process
  rw [List.foldl_cons]
  exact foldl_processStep_acc R B gs _ _

theorem process_append (R : MapRange) (B : Builder) (p : Pipeline) (gs₁ gs₂ : List Group) :
    p.process R B (gs₁ ++ gs₂) =
      ((p.process R B gs₁).1 ++ ((p.process R B gs₁).2.process R B gs₂).1,
        ((p.process R B gs₁).2.process R B gs₂).2) := by
  unfold Pipeline.process
  rw [List.foldl_append]
  exact foldl_processStep_acc R B gs₂ _ _

theorem process_singleton (R : MapRange) (B : Builder) (p : Pipeline) (g : Group) :
    p.process R B [g] = processStep R B ([], p) g := rfl

theorem processAll_eq_process (R : MapRange) (B : Builder) (p : Pipeline)
    (batches : List (List Group)) :
    p.processAll R B batches = (p.process R B batches.flatten).2 := by
  induction batches generalizing p with
  | nil => rfl
  | cons b bs ih =>
    rw [List.flatten_cons, process_append]
    unfold Pipeline.processAll at *
    rw [List.foldl_cons]
    exact ih _

/-! ## Consequences used by the claims -/

theorem mem_mapKeys_kept (m : groupCache) (hs : List Nat) (h : Nat) :
    h ∈ mapKeys (kept m hs) ↔ h ∈ mapKeys m ∧ h ∈ hs := by
  unfold mapKeys kept
  constructor
  · intro hm
    obtain ⟨e, he, rfl⟩ := List.mem_map.mp hm
    have := List.mem_filter.mp he
    exact ⟨List.mem_map_of_mem Prod.fst this.1, by simpa using this.2⟩
  · rintro ⟨hm, hh⟩
    obtain ⟨e, he, rfl⟩ := List.mem_map.mp hm
    exact List.mem_map_of_mem Prod.fst (List.mem_filter.mpr ⟨he, by simpa using hh⟩)

theorem mapKeys_built (B : Builder) (ts : List Target) :
    mapKeys (built B ts) = ts.map Target.Hash := by
  simp [mapKeys, built]

theorem mapKeys_append (m₁ m₂ : groupCache) : mapKeys (m₁ ++ m₂) = mapKeys m₁ ++ mapKeys m₂ := by
  simp [mapKeys]

/-- After `handleNotEmpty` the hashes cached under the source are those of the group. -/
theorem mem_mapKeys_after (B : Builder) (m : groupCache) (ts : List (Option Target)) (h : Nat) :
    h ∈ mapKeys (kept m (hashes ts) ++ built B (fresh (mapKeys m) ts)) ↔ h ∈ hashes ts := by
  rw [mapKeys_append, List.mem_append, mem_mapKeys_kept, mapKeys_built, mem_fresh_hash]
  constructor
  · rintro (⟨_, h2⟩ | ⟨h2, _⟩) <;> exact h2
  · intro hh
    by_cases hk : h ∈ mapKeys m
    · exact Or.inl ⟨hk, hh⟩
    · exact Or.inr ⟨hh, hk⟩

theorem handleEmpty_get (R : MapRange) (p : Pipeline) (group : Group) :
    mapGet (p.handleEmpty R group).2.cache group.Source = none := by
  cases h : mapGet p.cache group.Source with
  | none => rw [handleEmpty_none R p group h]; exact h
  | some grpCache =>
    rw [handleEmpty_some R p group grpCache h]
    exact mapGet_mapDelete_self _ _

theorem handleNotEmpty_get (R : MapRange) (B : Builder) (p : Pipeline) (group : Group) :
    mapGet (p.handleNotEmpty R B group).2.cache group.Source =
      some (kept (cachedUnder p.cache group.Source) (hashes group.Targets) ++
        built B (fresh (mapKeys (cachedUnder p.cache group.Source)) group.Targets)) := by
  rw [handleNotEmpty_cache, mapGet_mapSet_self]

theorem mapGet_filter_key (m : groupCache) (f : Nat → Bool) (h : Nat) (hf : f h = true) :
    mapGet (m.filter (fun e => f e.1)) h = mapGet m h := by
  induction m with
  | nil => rfl
  | cons e m ih =>
    obtain ⟨k, v⟩ := e
    by_cases hk : k = h
    · subst hk
      simp [List.filter_cons, hf, mapGet]
    · by_cases hfk : f k = true
      · simp [List.filter_cons, hfk, mapGet, hk, ih]
      · simp [List.filter_cons, hfk, mapGet, hk, ih]

theorem mapGet_append_of_mem (m₁ m₂ : groupCache) (h : Nat) (hm : h ∈ mapKeys m₁) :
    mapGet (m₁ ++ m₂) h = mapGet m₁ h := by
  induction m₁ with
  | nil => simp [mapKeys] at hm
  | cons e m ih =>
    obtain ⟨k, v⟩ := e
    by_cases hk : k = h
    · simp [mapGet, hk]
    · have : h ∈ mapKeys m := by
        have hk' : ¬ h = k := fun x => hk x.symm
        simpa [mapKeys, hk'] using hm
      simp [mapGet, hk, ih this]

theorem mapGet_append_of_not_mem (m₁ m₂ : groupCache) (h : Nat) (hm : h ∉ mapKeys m₁) :
    mapGet (m₁ ++ m₂) h = mapGet m₂ h := by
  induction m₁ with
  | nil => rfl
  | cons e m ih =>
    obtain ⟨k, v⟩ := e
    have hk : ¬ k = h := by
      intro hk
      apply hm
      simp [mapKeys, hk]
    have : h ∉ mapKeys m := by
      intro hh
      apply hm
      simp only [mapKeys, List.map_cons, List.mem_cons]
      exact Or.inr hh
    simp [mapGet, hk, ih this]

/-- The configs of the dropped entries, read hash by hash. -/
theorem dropped_flatMap_by_hash (m : groupCache) (hm : mapWF m) (hs : List Nat)
    (f : List Config → List Config) :
    (dropped m hs).flatMap (fun e => f e.2) =
      ((mapKeys m).filter (fun h => decide (h ∉ hs))).flatMap
        (fun h => f ((mapGet m h).getD [])) := by
  have key : ∀ l : groupCache, (∀ e ∈ l, mapGet m e.1 = some e.2) →
      l.flatMap (fun e => f e.2) =
        (l.map Prod.fst).flatMap (fun h => f ((mapGet m h).getD [])) := by
    intro l hl
    induction l with
    | nil => rfl
    | cons e l ih =>
      rw [List.flatMap_cons, List.map_cons, List.flatMap_cons,
        ih (fun e he => hl e (List.mem_cons_of_mem _ he)), hl e (List.mem_cons_self _ _)]
      rfl
  have hmap : (mapKeys m).filter (fun h => decide (h ∉ hs)) = (dropped m hs).map Prod.fst := by
    unfold mapKeys dropped
    rw [List.filter_map]
    rfl
  rw [hmap]
  apply key
  intro e he
  exact mapGet_of_mem m hm e.1 e.2 (List.mem_filter.mp he).1

theorem process_one_empty (R : MapRange) (B : Builder) (p : Pipeline) (g : Group)
    (h : g.Targets = []) : p.process R B [g] = p.handleEmpty R g := by
  rw [process_singleton, processStep_empty R B _ g h]
  simp

theorem process_one_notEmpty (R : MapRange) (B : Builder) (p : Pipeline) (g : Group)
    (h : g.Targets ≠ []) :
    p.process R B [g] =
      ((p.handleNotEmpty R B g).1.1 ++ (p.handleNotEmpty R B g).1.2,
        (p.handleNotEmpty R B g).2) := by
  rw [process_singleton, processStep_notEmpty R B _ g h]
  simp

theorem order_nil (R : MapRange) : R.order [] = [] := (R.perm []).eq_nil

theorem eq_nil_of_no_key (m : groupCache) (h : ∀ k, k ∉ mapKeys m) : m = [] := by
  cases m with
  | nil => rfl
  | cons e m => exact absurd (by simp [mapKeys]) (h e.1)

/-- A group whose hashes are exactly the cached ones changes nothing. -/
theorem handleNotEmpty_stable (R : MapRange) (B : Builder) (q : Pipeline) (g : Group)
    (grpCache : groupCache) (hget : mapGet q.cache g.Source = some grpCache)
    (hk : ∀ h, h ∈ mapKeys grpCache ↔ h ∈ hashes g.Targets) :
    q.handleNotEmpty R B g = (([], []), q) := by
  have hf : fresh (mapKeys grpCache) g.Targets = [] :=
    fresh_eq_nil _ _ (fun x hx => (hk x).mpr hx)
  have hd : dropped (R.order (grpCache ++ built B [])) (hashes g.Targets) = [] := by
    unfold dropped
    rw [List.filter_eq_nil_iff]
    intro e he
    have he' : e ∈ grpCache := by
      have := (R.perm _).mem_iff.mp he
      simpa [built] using this
    have : e.1 ∈ hashes g.Targets := (hk e.1).mp (List.mem_map_of_mem Prod.fst he')
    simp [this]
  rw [handleNotEmpty_some R B q g grpCache hget, hf, hd]
  simp [built, callsFor, mapSet_of_some _ _ _ hget]

theorem cachedUnder_mapSet_nil (c : cache) (source s : String)
    (h : mapGet c source = none) :
    cachedUnder (mapSet c source []) s = cachedUnder c s := by
  unfold cachedUnder
  by_cases hs : s = source
  · subst hs
    rw [mapGet_mapSet_self, h]
    rfl
  · rw [mapGet_mapSet_ne _ _ _ _ hs]

theorem cachedUnder_mapDelete_nil (c : cache) (source s : String)
    (h : mapGet c source = some []) :
    cachedUnder (mapDelete c source) s = cachedUnder c s := by
  unfold cachedUnder
  by_cases hs : s = source
  · subst hs
    rw [mapGet_mapDelete_self, h]
    rfl
  · rw [mapGet_mapDelete_ne _ _ _ hs]

theorem mem_hashes_of_mem (ts : List (Option Target)) (t : Target) (h : some t ∈ ts) :
    t.Hash ∈ hashes ts :=
  List.mem_map_of_mem Target.Hash (List.reduceOption_mem_iff.mpr h)

theorem mem_callsFor (source : String) (ts : List Target) (c : Call) :
    c ∈ callsFor source ts ↔ ∃ t ∈ ts, c = Call.Tag source t ∨ c = Call.Build source t := by
  simp [callsFor, List.mem_flatMap]

/-- An entry whose hash the group carries keeps its configs. -/
theorem mapGet_after_of_known (B : Builder) (m : groupCache) (ts : List (Option Target))
    (h : Nat) (hk : h ∈ mapKeys m) (hh : h ∈ hashes ts) :
    mapGet (kept m (hashes ts) ++ built B (fresh (mapKeys m) ts)) h = mapGet m h := by
  rw [mapGet_append_of_mem _ _ _ ((mem_mapKeys_kept m _ h).mpr ⟨hk, hh⟩)]
  exact mapGet_filter_key m (fun k => decide (k ∈ hashes ts)) h (by simpa using hh)

theorem cachedUnder_handleNotEmpty (R : MapRange) (B : Builder) (p : Pipeline) (group : Group) :
    cachedUnder (p.handleNotEmpty R B group).2.cache group.Source =
      kept (cachedUnder p.cache group.Source) (hashes group.Targets) ++
        built B (fresh (mapKeys (cachedUnder p.cache group.Source)) group.Targets) := by
  unfold cachedUnder
  rw [handleNotEmpty_get]
  rfl

/-! ## Accounting of Tag invocations -/

theorem tagCount_append (a b : List Call) (s : String) (h : Nat) :
    tagCount (a ++ b) s h = tagCount a s h + tagCount b s h := by
  simp [tagCount, List.countP_append]

theorem evictCount_append (a b : List (String × Nat)) (s : String) (h : Nat) :
    evictCount (a ++ b) s h = evictCount a s h + evictCount b s h := by
  simp [evictCount, List.countP_append]

theorem tagCount_callsFor (source s : String) (h : Nat) (ts : List Target) :
    tagCount (callsFor source ts) s h =
      if s = source then (ts.map Target.Hash).count h else 0 := by
  induction ts with
  | nil => simp [tagCount, callsFor]
  | cons t ts ih =>
    have hc : callsFor source (t :: ts) =
        [Call.Tag source t, Call.Build source t] ++ callsFor source ts := by
      simp [callsFor, List.flatMap_cons]
    rw [hc, tagCount_append, ih]
    by_cases hs : s = source
    · subst hs
      by_cases hh : t.Hash = h
      · simp [tagCount, List.countP_cons, hh]
        omega
      · simp [tagCount, List.countP_cons, hh, List.count_cons]
    · have hs' : ¬ source = s := fun x => hs x.symm
      simp [tagCount, List.countP_cons, hs, hs']

theorem evictCount_map (source s : String) (h : Nat) (l : groupCache) :
    evictCount (l.map (fun e => (source, e.1))) s h =
      if s = source then (mapKeys l).count h else 0 := by
  induction l with
  | nil => simp [evictCount, mapKeys]
  | cons e l ih =>
    unfold evictCount at ih ⊢
    rw [List.map_cons, List.countP_cons, ih]
    by_cases hs : s = source
    · subst hs
      by_cases hh : e.1 = h
      · simp [mapKeys, List.count_cons, hh]
      · simp [mapKeys, List.count_cons, hh]
    · have hs' : ¬ source = s := fun x => hs x.symm
      simp [hs, hs']

theorem count_of_nodup (l : List Nat) (hl : l.Nodup) (h : Nat) :
    l.count h = if h ∈ l then 1 else 0 := List.count_eq_of_nodup hl

theorem cachedUnder_mapSet_ne (c : cache) (source s : String) (v : groupCache)
    (hs : s ≠ source) : cachedUnder (mapSet c source v) s = cachedUnder c s := by
  unfold cachedUnder
  rw [mapGet_mapSet_ne _ _ _ _ hs]

theorem cachedUnder_mapDelete_ne (c : cache) (source s : String) (hs : s ≠ source) :
    cachedUnder (mapDelete c source) s = cachedUnder c s := by
  unfold cachedUnder
  rw [mapGet_mapDelete_ne _ _ _ hs]

theorem cachedUnder_mapDelete_self (c : cache) (source : String) :
    cachedUnder (mapDelete c source) source = [] := by
  unfold cachedUnder
  rw [mapGet_mapDelete_self]
  rfl

theorem mapWF_cachedUnder (c : cache) (hc : cacheWF c) (s : String) : mapWF (cachedUnder c s) := by
  unfold cachedUnder
  cases h : mapGet c s with
  | none => simp [mapWF, mapKeys]
  | some v => exact hc s v h

theorem mapWF_after (B : Builder) (m : groupCache) (hm : mapWF m) (ts : List (Option Target)) :
    mapWF (kept m (hashes ts) ++ built B (fresh (mapKeys m) ts)) := by
  unfold mapWF
  rw [mapKeys_append, mapKeys_built]
  refine List.Nodup.append (mapWF_filter m _ hm) (fresh_nodup _ _) ?_
  intro x hx hx'
  exact ((mem_fresh_hash _ _ _).mp hx').2 ((mem_mapKeys_kept _ _ _).mp hx).1

theorem mem_mapKeys_dropped (m : groupCache) (hs : List Nat) (h : Nat) :
    h ∈ mapKeys (dropped m hs) ↔ h ∈ mapKeys m ∧ h ∉ hs := by
  unfold mapKeys dropped
  constructor
  · intro hm
    obtain ⟨e, he, rfl⟩ := List.mem_map.mp hm
    have := List.mem_filter.mp he
    exact ⟨List.mem_map_of_mem Prod.fst this.1, by simpa using this.2⟩
  · rintro ⟨hm, hh⟩
    obtain ⟨e, he, rfl⟩ := List.mem_map.mp hm
    exact List.mem_map_of_mem Prod.fst (List.mem_filter.mpr ⟨he, by simpa using hh⟩)

theorem accounted_New : Accounted New := by
  refine ⟨?_, ?_⟩
  · intro s v h
    simp [New, mapGet] at h
  · intro s h
    simp [New, tagCount, evictCount, cachedCount, cachedUnder, mapGet, mapKeys]

theorem accounted_handleEmpty (R : MapRange) (p : Pipeline) (g : Group) (hp : Accounted p) :
    Accounted (p.handleEmpty R g).2 := by
  cases hg : mapGet p.cache g.Source with
  | none => rw [handleEmpty_none R p g hg]; exact hp
  | some grpCache =>
    rw [handleEmpty_some R p g grpCache hg]
    refine ⟨?_, ?_⟩
    · intro s v hv
      simp only at hv
      by_cases hs : s = g.Source
      · subst hs
        rw [mapGet_mapDelete_self] at hv
        exact absurd hv (by simp)
      · rw [mapGet_mapDelete_ne _ _ _ hs] at hv
        exact hp.1 s v hv
    · intro s h
      simp only
      rw [evictCount_append, evictCount_map, hp.2 s h]
      by_cases hs : s = g.Source
      · subst hs
        have hwf : mapWF grpCache := hp.1 _ _ hg
        have hcnt : (mapKeys (R.order grpCache)).count h = (mapKeys grpCache).count h :=
          (List.Perm.map Prod.fst (R.perm grpCache)).count_eq h
        simp only [if_true, hcnt, cachedCount, cachedUnder_mapDelete_self,
          cachedUnder_some _ _ _ hg, count_of_nodup _ hwf h]
        simp [mapKeys]
      · simp [hs, cachedCount, cachedUnder_mapDelete_ne _ _ _ hs]

theorem accounted_handleNotEmpty (R : MapRange) (B : Builder) (p : Pipeline) (g : Group)
    (hp : Accounted p) : Accounted (p.handleNotEmpty R B g).2 := by
  have hwf0 : mapWF (cachedUnder p.cache g.Source) := mapWF_cachedUnder _ hp.1 _
  refine ⟨?_, ?_⟩
  · intro s v hv
    rw [handleNotEmpty_cache] at hv
    by_cases hs : s = g.Source
    · subst hs
      rw [mapGet_mapSet_self] at hv
      cases hv
      exact mapWF_after B _ hwf0 _
    · rw [mapGet_mapSet_ne _ _ _ _ hs] at hv
      exact hp.1 s v hv
  · intro s h
    obtain ⟨ev, hev, hperm⟩ := handleNotEmpty_evicted R B p g
    rw [handleNotEmpty_calls, hev, tagCount_append, evictCount_append, tagCount_callsFor,
      show evictCount ev s h = evictCount
        ((dropped (cachedUnder p.cache g.Source) (hashes g.Targets)).map
          (fun e => (g.Source, e.1))) s h from (by unfold evictCount; exact hperm.countP_eq _),
      evictCount_map, hp.2 s h]
    by_cases hs : s = g.Source
    · subst hs
      have hd : (mapKeys (dropped (cachedUnder p.cache g.Source) (hashes g.Targets))).Nodup :=
        mapWF_filter _ _ hwf0
      simp only [if_true, count_of_nodup _ (fresh_nodup _ _) h, count_of_nodup _ hd h,
        mem_fresh_hash, mem_mapKeys_dropped, cachedCount, cachedUnder_handleNotEmpty,
        mem_mapKeys_after]
      by_cases hk : h ∈ mapKeys (cachedUnder p.cache g.Source) <;>
        by_cases hh : h ∈ hashes g.Targets <;> simp [hk, hh]
    · simp only [hs, if_false, cachedCount, handleNotEmpty_cache,
        cachedUnder_mapSet_ne _ _ _ _ hs]
      omega

theorem accounted_processStep (R : MapRange) (B : Builder) (st : List Config × Pipeline)
    (g : Group) (hp : Accounted st.2) : Accounted (processStep R B st g).2 := by
  by_cases h : g.Targets = []
  · rw [processStep_empty R B st g h]
    exact accounted_handleEmpty R _ g hp
  · rw [processStep_notEmpty R B st g h]
    exact accounted_handleNotEmpty R B _ g hp

theorem accounted_foldl (R : MapRange) (B : Builder) (groups : List Group)
    (st : List Config × Pipeline) (hp : Accounted st.2) :
    Accounted (groups.foldl (processStep R B) st).2 := by
  induction groups generalizing st with
  | nil => exact hp
  | cons g gs ih =>
    rw [List.foldl_cons]
    exact ih _ (accounted_processStep R B st g hp)

theorem accounted_process (R : MapRange) (B : Builder) (p : Pipeline) (groups : List Group)
    (hp : Accounted p) : Accounted (p.process R B groups).2 :=
  accounted_foldl R B groups ([], p) hp

theorem accounted_processAll (R : MapRange) (B : Builder) (p : Pipeline)
    (batches : List (List Group)) (hp : Accounted p) : Accounted (p.processAll R B batches) := by
  rw [processAll_eq_process]
  exact accounted_process R B p _ hp

/-! ## Further lemmas -/

theorem length_flatMap_snd (m : groupCache) :
    (m.flatMap Prod.snd).length = (m.map (fun e => e.2.length)).sum := by
  induction m with
  | nil => rfl
  | cons e m ih => simp [List.flatMap_cons, ih]

theorem sum_lengths_of_one (m : groupCache) (h : ∀ e ∈ m, e.2.length = 1) :
    (m.map (fun e => e.2.length)).sum = (mapKeys m).length := by
  induction m with
  | nil => rfl
  | cons e m ih =>
    have h1 := h e (List.mem_cons_self _ _)
    have h2 := ih (fun x hx => h x (List.mem_cons_of_mem _ hx))
    simp only [List.map_cons, List.sum_cons, h1, h2, mapKeys, List.length_cons, List.length_map]
    omega

theorem stale_all (cs : List Config) : ∀ c ∈ stale cs, c.Stale = true := by
  intro c hc
  obtain ⟨c', _, rfl⟩ := List.mem_map.mp hc
  rfl

theorem process_step_decomp (R : MapRange) (B : Builder) (p : Pipeline) (g : Group) :
    processStep R B ([], p) g =
      ((groupDiff R B p g).1.1 ++ (groupDiff R B p g).1.2, (groupDiff R B p g).2) := by
  by_cases h : g.Targets = []
  · rw [processStep_empty R B _ g h]
    simp [groupDiff, h]
  · have hl : ¬ g.Targets.length = 0 := fun h0 => h (List.eq_nil_of_length_eq_zero h0)
    rw [processStep_notEmpty R B _ g h]
    simp [groupDiff, hl]

theorem length_stale (cs : List Config) : (stale cs).length = cs.length := by
  simp [stale]

theorem stale_append (a b : List Config) : stale (a ++ b) = stale a ++ stale b := by
  simp [stale]

/-! ## The claims -/

/-- C1: after `process` has handled a non-empty sequence of groups (in one batch
or in several) the cache state of the source `S` of the last group is fixed by
that group alone: if it has at least one target, `S` has an entry and the hashes
cached under `S` are exactly the hashes of its non-nil targets; if it is a
tombstone, the cache has no entry for `S`.  This holds for every initial cache
and whatever the earlier groups are, in particular when all carry source `S`. -/
theorem C1_cache_follows_last_group (R : MapRange) (B : Builder) (p : Pipeline)
    (batches : List (List Group)) (gs : List Group) (g : Group)
    (hseq : batches.flatten = gs ++ [g]) :
    (g.Targets ≠ [] →
      ∃ grpCache, mapGet (p.processAll R B batches).cache g.Source = some grpCache ∧
        ∀ h, h ∈ mapKeys grpCache ↔ h ∈ hashes g.Targets) ∧
    (g.Targets = [] → mapGet (p.processAll R B batches).cache g.Source = none) := by
  rw [processAll_eq_process, hseq, process_append, process_singleton]
  constructor
  · intro hne
    rw [processStep_notEmpty R B _ g hne]
    exact ⟨_, handleNotEmpty_get R B _ g, fun h => mem_mapKeys_after B _ _ h⟩
  · intro he
    rw [processStep_empty R B _ g he]
    exact handleEmpty_get R _ g

/-- C1 at a concrete run: `group12`, then `group23` in a second batch. -/
theorem C1_cache_follows_last_group_witness :
    [[group12], [group23]].flatten = [group12] ++ [group23] ∧
    ((group23.Targets ≠ [] →
      ∃ grpCache, mapGet (New.processAll MapRange.insertion oneConfig
          [[group12], [group23]]).cache group23.Source = some grpCache ∧
        ∀ h, h ∈ mapKeys grpCache ↔ h ∈ hashes group23.Targets) ∧
    (group23.Targets = [] → mapGet (New.processAll MapRange.insertion oneConfig
          [[group12], [group23]]).cache group23.Source = none)) :=
  ⟨rfl, C1_cache_follows_last_group MapRange.insertion oneConfig New
    [[group12], [group23]] [group12] group23 rfl⟩

/-- C2: for a group of source `S` whose cached hash set is `A` (empty when `S`
has no entry) and whose non-nil targets have hash set `H`, `handleNotEmpty`
returns as additions the Builder outputs of the targets `fresh A targets`: one
target per hash of `H \ A`, in target order; and as removals, up to order, the
configs cached under the hashes of `A \ H`, marked stale.  No hash is both
among the added and among the removed ones. -/
theorem C2_add_remove_conservation (R : MapRange) (B : Builder) (p : Pipeline) (group : Group)
    (hwf : mapWF (cachedUnder p.cache group.Source)) :
    (p.handleNotEmpty R B group).1.1 =
      (fresh (mapKeys (cachedUnder p.cache group.Source)) group.Targets).flatMap B ∧
    (fresh (mapKeys (cachedUnder p.cache group.Source)) group.Targets).Sublist
      group.Targets.reduceOption ∧
    ((fresh (mapKeys (cachedUnder p.cache group.Source)) group.Targets).map Target.Hash).Nodup ∧
    (∀ h, h ∈ (fresh (mapKeys (cachedUnder p.cache group.Source)) group.Targets).map Target.Hash ↔
      h ∈ hashes group.Targets ∧ h ∉ mapKeys (cachedUnder p.cache group.Source)) ∧
    (p.handleNotEmpty R B group).1.2.Perm
      (((mapKeys (cachedUnder p.cache group.Source)).filter
          (fun h => decide (h ∉ hashes group.Targets))).flatMap
        (fun h => stale ((mapGet (cachedUnder p.cache group.Source) h).getD []))) ∧
    (∀ h, ¬ (h ∈ (fresh (mapKeys (cachedUnder p.cache group.Source)) group.Targets).map
        Target.Hash ∧
      h ∈ (mapKeys (cachedUnder p.cache group.Source)).filter
        (fun h => decide (h ∉ hashes group.Targets)))) := by
  refine ⟨handleNotEmpty_add R B p group, fresh_sublist _ _, fresh_nodup _ _,
    fun h => mem_fresh_hash _ _ h, ?_, ?_⟩
  · rw [← dropped_flatMap_by_hash _ hwf _ stale]
    exact handleNotEmpty_remove R B p group
  · rintro h ⟨h1, h2⟩
    have a := ((mem_fresh_hash _ _ h).mp h1).2
    exact a (List.mem_filter.mp h2).1

/-- C2 at a concrete transition: cache `s1:{1,2}`, group with hashes 2 and 3. -/
theorem C2_add_remove_conservation_witness :
    mapWF (cachedUnder after12.cache group23.Source) ∧
    (after12.handleNotEmpty MapRange.reversed oneConfig group23).1.1 = [⟨"t3", false⟩] ∧
    (after12.handleNotEmpty MapRange.reversed oneConfig group23).1.2.Perm [⟨"t1", true⟩] :=
  have hwf : mapWF (cachedUnder after12.cache group23.Source) := by decide
  have h := C2_add_remove_conservation MapRange.reversed oneConfig after12 group23 hwf
  ⟨hwf, h.1.trans (by decide), h.2.2.2.2.1.trans (by decide)⟩

/-- C3 fails as stated: the tombstone of `s1` and the group of `s1` whose only
target is nil have the same source and the same, empty, set of target hashes.
From the empty cache, the tombstone and then the nil group leave the entry
`s1` with no hash where there was none; the nil group and then the tombstone
delete the entry `s1` that was there.  No entry is evicted, so the range order
plays no part. -/
theorem C3_counterexample :
    nilGroup1.Source = tombstone1.Source ∧
    hashes nilGroup1.Targets = hashes tombstone1.Targets ∧
    (New.process MapRange.insertion oneConfig [tombstone1]).2.cache = [] ∧
    ((New.process MapRange.insertion oneConfig [tombstone1]).2.process MapRange.insertion
      oneConfig [nilGroup1]).2.cache = [("s1", [])] ∧
    (New.process MapRange.insertion oneConfig [nilGroup1]).2.cache = [("s1", [])] ∧
    ((New.process MapRange.insertion oneConfig [nilGroup1]).2.process MapRange.insertion
      oneConfig [tombstone1]).2.cache = [] :=
  ⟨by decide, by decide, by decide, by decide, by decide, by decide⟩

/-- C3, amended: idempotence of `process`.  After a group `g` has been processed,
processing a group `g'` with the same source and the same set of target hashes
yields an empty config list, invokes neither Tagger nor Builder, evicts nothing
and leaves every source with the same cached hashes and configs, an absent
entry counting as one without hashes.  When `g'` is a tombstone exactly if `g`
is one (so when `g'` is `g` again) the whole state, cache included, is literally
unchanged. -/
theorem C3_idempotence (R : MapRange) (B : Builder) (p : Pipeline) (g g' : Group)
    (hsrc : g'.Source = g.Source)
    (hset : ∀ h, h ∈ hashes g'.Targets ↔ h ∈ hashes g.Targets) :
    (((p.process R B [g]).2).process R B [g']).1 = [] ∧
    (((p.process R B [g]).2).process R B [g']).2.calls = (p.process R B [g]).2.calls ∧
    (((p.process R B [g]).2).process R B [g']).2.evicted = (p.process R B [g]).2.evicted ∧
    (∀ s, cachedUnder (((p.process R B [g]).2).process R B [g']).2.cache s =
      cachedUnder (p.process R B [g]).2.cache s) ∧
    ((g'.Targets = [] ↔ g.Targets = []) →
      (((p.process R B [g]).2).process R B [g']).2 = (p.process R B [g]).2) := by
  by_cases hg : g.Targets = []
  · have hnone : mapGet (p.process R B [g]).2.cache g'.Source = none := by
      rw [process_one_empty R B p g hg, hsrc]
      exact handleEmpty_get R p g
    by_cases hg' : g'.Targets = []
    · rw [process_one_empty R B _ g' hg', handleEmpty_none R _ g' hnone]
      simp
    · have hf : fresh [] g'.Targets = [] := by
        apply fresh_eq_nil
        intro x hx
        have := (hset x).mp hx
        simp [hg, hashes] at this
      rw [process_one_notEmpty R B _ g' hg', handleNotEmpty_none R B _ g' hnone, hf]
      refine ⟨by simp, by simp [callsFor], rfl, ?_, ?_⟩
      · intro s
        exact cachedUnder_mapSet_nil _ _ s hnone
      · intro hiff
        exact absurd (hiff.mpr hg) hg'
  · have hsome : mapGet (p.process R B [g]).2.cache g'.Source =
        some (kept (cachedUnder p.cache g.Source) (hashes g.Targets) ++
          built B (fresh (mapKeys (cachedUnder p.cache g.Source)) g.Targets)) := by
      rw [process_one_notEmpty R B p g hg, hsrc]
      exact handleNotEmpty_get R B p g
    have hkeys : ∀ h, h ∈ mapKeys (kept (cachedUnder p.cache g.Source) (hashes g.Targets) ++
          built B (fresh (mapKeys (cachedUnder p.cache g.Source)) g.Targets)) ↔
        h ∈ hashes g'.Targets := by
      intro h
      rw [mem_mapKeys_after, hset]
    by_cases hg' : g'.Targets = []
    · have hnil : kept (cachedUnder p.cache g.Source) (hashes g.Targets) ++
          built B (fresh (mapKeys (cachedUnder p.cache g.Source)) g.Targets) = [] := by
        apply eq_nil_of_no_key
        intro k hk
        have := (hkeys k).mp hk
        simp [hg', hashes] at this
      rw [hnil] at hsome
      rw [process_one_empty R B _ g' hg', handleEmpty_some R _ g' [] hsome, order_nil]
      refine ⟨by simp [stale], rfl, by simp, ?_, ?_⟩
      · intro s
        exact cachedUnder_mapDelete_nil _ _ s hsome
      · intro hiff
        exact absurd (hiff.mp hg') hg
    · rw [process_one_notEmpty R B _ g' hg', handleNotEmpty_stable R B _ g' _ hsome hkeys]
      simp

/-- C3 at a concrete run: `group12` delivered twice. -/
theorem C3_idempotence_witness :
    ((after12.process MapRange.insertion oneConfig [group12]).2).process MapRange.insertion
      oneConfig [group12] = ([], (after12.process MapRange.insertion oneConfig [group12]).2) :=
  have h := C3_idempotence MapRange.insertion oneConfig after12 group12 group12 rfl
    (fun _ => Iff.rfl)
  Prod.ext h.1 (h.2.2.2.2 Iff.rfl)

/-- C4 fails as stated: with a Builder that yields two configs per target, the
cache holds one hash under `s1` and the tombstone of `s1` yields two removals.
The inner cache has a single entry, so the range order plays no part. -/
theorem C4_counterexample :
    (mapKeys (cachedUnder afterTwo.cache "s1")).length = 1 ∧
    (afterTwo.process MapRange.insertion twoConfigs [tombstone1]).1.length = 2 := by
  decide

/-- C4, amended: processing an empty-target group of a source with `N` cached
hashes yields one removal per config cached under those hashes, as many as the
`N` cached config lists hold together and exactly `N` when each of them holds
one config; every removal has `Stale = true`; afterwards the cache has no entry
for the source. -/
theorem C4_tombstone_completeness (R : MapRange) (B : Builder) (p : Pipeline) (g : Group)
    (hg : g.Targets = []) :
    (p.process R B [g]).1.length =
      ((cachedUnder p.cache g.Source).map (fun e => e.2.length)).sum ∧
    (∀ c ∈ (p.process R B [g]).1, c.Stale = true) ∧
    mapGet (p.process R B [g]).2.cache g.Source = none ∧
    ((∀ e ∈ cachedUnder p.cache g.Source, e.2.length = 1) →
      (p.process R B [g]).1.length = (mapKeys (cachedUnder p.cache g.Source)).length) := by
  have hlen : (p.process R B [g]).1.length =
      ((cachedUnder p.cache g.Source).map (fun e => e.2.length)).sum := by
    rw [process_one_empty R B p g hg]
    cases h : mapGet p.cache g.Source with
    | none => rw [handleEmpty_none R p g h, cachedUnder_none _ _ h]; rfl
    | some grpCache =>
      rw [handleEmpty_some R p g grpCache h, cachedUnder_some _ _ _ h]
      simp only [stale, List.length_map]
      rw [(List.Perm.flatMap_right Prod.snd (R.perm grpCache)).length_eq, length_flatMap_snd]
  refine ⟨hlen, ?_, ?_, ?_⟩
  · rw [process_one_empty R B p g hg]
    cases h : mapGet p.cache g.Source with
    | none => rw [handleEmpty_none R p g h]; simp
    | some grpCache =>
      rw [handleEmpty_some R p g grpCache h]
      exact stale_all _
  · rw [process_one_empty R B p g hg]
    exact handleEmpty_get R p g
  · intro hone
    rw [hlen, sum_lengths_of_one _ hone]

/-- C4, amended, at a concrete run: the tombstone of `s1` on cache `s1:{1,2}`
with one config per hash yields two removals. -/
theorem C4_tombstone_completeness_witness :
    tombstone1.Targets = [] ∧
    (after12.process MapRange.reversed oneConfig [tombstone1]).1.length = 2 ∧
    mapGet (after12.process MapRange.reversed oneConfig [tombstone1]).2.cache "s1" = none :=
  have h := C4_tombstone_completeness MapRange.reversed oneConfig after12 tombstone1 rfl
  ⟨rfl, (h.2.2.2 (by decide)).trans (by decide), h.2.2.1⟩

/-- C5 fails as stated: on cache `s1:{1,2}`, in the batch `group23`, then a group
of `s2`, the stale removal of the first group (hash 1) precedes the addition of
the second group.  Hash 1 is the only evicted entry, so the range order plays
no part. -/
theorem C5_counterexample :
    (after12.process MapRange.insertion oneConfig batchTwoSources).1 =
      [⟨"t3", false⟩, ⟨"t1", true⟩, ⟨"t4", false⟩] ∧
    (batchDiffs MapRange.insertion oneConfig after12 batchTwoSources).flatMap Prod.fst =
      [⟨"t3", false⟩, ⟨"t4", false⟩] ∧
    (batchDiffs MapRange.insertion oneConfig after12 batchTwoSources).flatMap Prod.snd =
      [⟨"t1", true⟩] ∧
    (after12.process MapRange.insertion oneConfig batchTwoSources).1 ≠
      (batchDiffs MapRange.insertion oneConfig after12 batchTwoSources).flatMap Prod.fst ++
        (batchDiffs MapRange.insertion oneConfig after12 batchTwoSources).flatMap Prod.snd := by
  decide

/-- C5, amended: the config list that `process` returns for a batch is the
concatenation, in batch order, of what each group contributes: the additions of
the group followed by the stale removals of that same group. -/
theorem C5_batch_order (R : MapRange) (B : Builder) (p : Pipeline) (groups : List Group) :
    (p.process R B groups).1 =
      (batchDiffs R B p groups).flatMap (fun d => d.1 ++ d.2) := by
  induction groups generalizing p with
  | nil => rfl
  | cons g gs ih =>
    rw [process_cons, process_step_decomp]
    simp only [batchDiffs, List.flatMap_cons]
    rw [ih]

/-- C6: first-sighting suppression.  When the cache has no entry for the source
of a group, `handleNotEmpty` returns no removal, whatever the targets; the
additions are the Builder outputs of the first target of every hash.  The same
holds for the group that follows a tombstone of its source. -/
theorem C6_first_sighting (R : MapRange) (B : Builder) (p : Pipeline) (g tomb : Group)
    (hsrc : tomb.Source = g.Source) :
    (mapGet p.cache g.Source = none →
      (p.handleNotEmpty R B g).1 = ((fresh [] g.Targets).flatMap B, [])) ∧
    ((p.handleEmpty R tomb).2.handleNotEmpty R B g).1 = ((fresh [] g.Targets).flatMap B, []) := by
  constructor
  · intro hnone
    rw [handleNotEmpty_none R B p g hnone]
  · have hnone : mapGet (p.handleEmpty R tomb).2.cache g.Source = none := by
      rw [← hsrc]
      exact handleEmpty_get R p tomb
    rw [handleNotEmpty_none R B _ g hnone]

/-- C6 at a concrete run: `group12` on the empty cache, and after a tombstone. -/
theorem C6_first_sighting_witness :
    (New.handleNotEmpty MapRange.insertion oneConfig group12).1.2 = [] ∧
    ((after12.handleEmpty MapRange.insertion tombstone1).2.handleNotEmpty MapRange.insertion
      oneConfig group12).1.2 = [] :=
  have h1 := C6_first_sighting MapRange.insertion oneConfig New group12 tombstone1 rfl
  have h2 := C6_first_sighting MapRange.insertion oneConfig after12 group12 tombstone1 rfl
  ⟨congrArg Prod.snd (h1.1 rfl), congrArg Prod.snd h2.2⟩

/-- C7: no rebuild of an unchanged target.  In the target loop of
`handleNotEmpty` a target whose hash is in the inner cache at that moment
triggers no invocation and leaves additions and inner cache as they are, and a
target whose hash is not triggers `Tag`, then `Build`, once.  Over the whole call
the invocations are `Tag`, then `Build`, for one target per hash of the group
that was not cached under the source, and for no other target; the additions are the
Builder outputs of those targets; a target with a cached hash keeps its cached
configs and none of the removed entries carries its hash. -/
theorem C7_no_rebuild (R : MapRange) (B : Builder) (p : Pipeline) (group : Group) :
    (∀ (st : TargetLoop) (t : Target), (mapGet st.grpCache t.Hash).isSome →
      (handleNotEmptyStep B group.Source st (some t)).calls = st.calls ∧
      (handleNotEmptyStep B group.Source st (some t)).add = st.add ∧
      (handleNotEmptyStep B group.Source st (some t)).grpCache = st.grpCache) ∧
    (∀ (st : TargetLoop) (t : Target), mapGet st.grpCache t.Hash = none →
      (handleNotEmptyStep B group.Source st (some t)).calls =
        st.calls ++ [Call.Tag group.Source t, Call.Build group.Source t] ∧
      (handleNotEmptyStep B group.Source st (some t)).add = st.add ++ B t) ∧
    (p.handleNotEmpty R B group).2.calls =
      p.calls ++ (fresh (mapKeys (cachedUnder p.cache group.Source)) group.Targets).flatMap
        (fun t => [Call.Tag group.Source t, Call.Build group.Source t]) ∧
    (p.handleNotEmpty R B group).1.1 =
      (fresh (mapKeys (cachedUnder p.cache group.Source)) group.Targets).flatMap B ∧
    ((fresh (mapKeys (cachedUnder p.cache group.Source)) group.Targets).map Target.Hash).Nodup ∧
    (∀ h, h ∈ (fresh (mapKeys (cachedUnder p.cache group.Source)) group.Targets).map Target.Hash ↔
      h ∈ hashes group.Targets ∧ h ∉ mapKeys (cachedUnder p.cache group.Source)) ∧
    (p.handleNotEmpty R B group).1.2.Perm
      ((dropped (cachedUnder p.cache group.Source) (hashes group.Targets)).flatMap
        (fun e => stale e.2)) ∧
    (∀ t, some t ∈ group.Targets → t.Hash ∈ mapKeys (cachedUnder p.cache group.Source) →
      t ∉ fresh (mapKeys (cachedUnder p.cache group.Source)) group.Targets ∧
      mapGet (cachedUnder (p.handleNotEmpty R B group).2.cache group.Source) t.Hash =
        mapGet (cachedUnder p.cache group.Source) t.Hash ∧
      ∀ e ∈ dropped (cachedUnder p.cache group.Source) (hashes group.Targets), e.1 ≠ t.Hash) := by
  refine ⟨?_, ?_, handleNotEmpty_calls R B p group, handleNotEmpty_add R B p group,
    fresh_nodup _ _, fun h => mem_fresh_hash _ _ h, handleNotEmpty_remove R B p group, ?_⟩
  · intro st t hs
    obtain ⟨v, hv⟩ := Option.isSome_iff_exists.mp hs
    simp [handleNotEmptyStep, hv]
  · intro st t hn
    simp [handleNotEmptyStep, hn]
  · intro t ht hk
    refine ⟨?_, ?_, ?_⟩
    · intro hf
      exact ((mem_fresh_hash _ _ _).mp (List.mem_map_of_mem Target.Hash hf)).2 hk
    · rw [cachedUnder_handleNotEmpty]
      exact mapGet_after_of_known B _ _ _ hk (mem_hashes_of_mem _ _ ht)
    · intro e he heq
      have := (List.mem_filter.mp he).2
      rw [heq] at this
      simp [mem_hashes_of_mem _ _ ht] at this

/-- C7 at a concrete call: cache `s1:{1,2}`, group with hashes 2 and 3: the only
invocations are `Tag` and `Build` for the target of hash 3. -/
theorem C7_no_rebuild_witness :
    (after12.handleNotEmpty MapRange.insertion oneConfig group23).2.calls =
      after12.calls ++ [Call.Tag "s1" target3, Call.Build "s1" target3] ∧
    target2 ∉ fresh (mapKeys (cachedUnder after12.cache group23.Source)) group23.Targets :=
  have h := C7_no_rebuild MapRange.insertion oneConfig after12 group23
  ⟨h.2.2.1.trans (by decide), (h.2.2.2.2.2.2.2 target2 (by decide) (by decide)).1⟩

/-- C8 fails as stated: from the empty cache, `group12`, the tombstone of `s1`
and `group12` again make `Tag` run twice for source `s1` and hash 1.  The
invocations do not depend on the range order. -/
theorem C8_counterexample :
    tagCount (New.processAll MapRange.insertion oneConfig
      [[group12], [tombstone1], [group12]]).calls "s1" 1 = 2 := by
  decide

/-- C8, amended: over every sequence of batches that one pipeline processes
from the empty cache, the number of `Tag` invocations for a source and hash is
the number of evictions of that hash from the cache of the source, plus one if
the hash is cached under the source at the end.  So `Tag` runs once per time the
hash enters the cache of the source, and at most once over the whole sequence
for a pair that was never evicted. -/
theorem C8_tag_accounting (R : MapRange) (B : Builder) (batches : List (List Group))
    (s : String) (h : Nat) :
    tagCount (New.processAll R B batches).calls s h =
      evictCount (New.processAll R B batches).evicted s h +
        cachedCount (New.processAll R B batches).cache s h ∧
    tagCount (New.processAll R B batches).calls s h ≤
      evictCount (New.processAll R B batches).evicted s h + 1 ∧
    (evictCount (New.processAll R B batches).evicted s h = 0 →
      tagCount (New.processAll R B batches).calls s h ≤ 1) := by
  have hacc := (accounted_processAll R B New batches accounted_New).2 s h
  have hc : cachedCount (New.processAll R B batches).cache s h ≤ 1 := by
    unfold cachedCount
    split <;> omega
  refine ⟨hacc, by omega, ?_⟩
  intro h0
  omega

/-- C8, amended, at a concrete run: two batches without eviction of hash 2 of
`s1`, which is tagged once. -/
theorem C8_tag_accounting_witness :
    evictCount (New.processAll MapRange.insertion oneConfig
      [[group12], [group23]]).evicted "s1" 2 = 0 ∧
    tagCount (New.processAll MapRange.insertion oneConfig
      [[group12], [group23]]).calls "s1" 2 ≤ 1 :=
  ⟨by decide, (C8_tag_accounting MapRange.insertion oneConfig [[group12], [group23]] "s1" 2).2.2
    (by decide)⟩

/-- C9: the scenario of the specification, for every Builder that returns one
config per target, every range order and an initially empty cache.  The group
of `s1` with hashes 1 and 2 yields the two built configs as additions and no
removal, and leaves cache `s1:{1,2}`.  The group of `s1` with hashes 2 and 3
then yields one addition, the config built for hash 3, and one stale removal,
the config cached for hash 1, and leaves cache `s1:{2,3}`.  The tombstone of
`s1` then yields no addition and two stale removals, the configs cached for
hashes 2 and 3, and leaves the cache without an entry for `s1`. -/
theorem C9_scenario (R : MapRange) (B : Builder) (t1 t2 t2' t3 : Target)
    (h1 : t1.Hash = 1) (h2 : t2.Hash = 2) (h2' : t2'.Hash = 2) (h3 : t3.Hash = 3)
    (hB : ∀ t, (B t).length = 1) :
    New.process R B [⟨"s1", [some t1, some t2]⟩] =
      (B t1 ++ B t2, ⟨[("s1", [(1, B t1), (2, B t2)])],
        [Call.Tag "s1" t1, Call.Build "s1" t1, Call.Tag "s1" t2, Call.Build "s1" t2], []⟩) ∧
    (New.handleNotEmpty R B ⟨"s1", [some t1, some t2]⟩).1 = (B t1 ++ B t2, []) ∧
    (B t1 ++ B t2).length = 2 ∧
    ((New.process R B [⟨"s1", [some t1, some t2]⟩]).2.process R B
        [⟨"s1", [some t2', some t3]⟩]).1 = B t3 ++ stale (B t1) ∧
    ((New.process R B [⟨"s1", [some t1, some t2]⟩]).2.handleNotEmpty R B
        ⟨"s1", [some t2', some t3]⟩).1 = (B t3, stale (B t1)) ∧
    (B t3).length = 1 ∧ (stale (B t1)).length = 1 ∧
    ((New.process R B [⟨"s1", [some t1, some t2]⟩]).2.process R B
        [⟨"s1", [some t2', some t3]⟩]).2.cache = [("s1", [(2, B t2), (3, B t3)])] ∧
    ((((New.process R B [⟨"s1", [some t1, some t2]⟩]).2.process R B
        [⟨"s1", [some t2', some t3]⟩]).2.process R B [⟨"s1", []⟩]).1).Perm
      (stale (B t2) ++ stale (B t3)) ∧
    ((((New.process R B [⟨"s1", [some t1, some t2]⟩]).2.process R B
        [⟨"s1", [some t2', some t3]⟩]).2.process R B [⟨"s1", []⟩]).1).length = 2 ∧
    (∀ c ∈ (((New.process R B [⟨"s1", [some t1, some t2]⟩]).2.process R B
        [⟨"s1", [some t2', some t3]⟩]).2.process R B [⟨"s1", []⟩]).1, c.Stale = true) ∧
    (((New.process R B [⟨"s1", [some t1, some t2]⟩]).2.process R B
        [⟨"s1", [some t2', some t3]⟩]).2.process R B [⟨"s1", []⟩]).2.cache = [] := by
  -- first group
  have hf1 : fresh [] [some t1, some t2] = [t1, t2] := by simp [fresh, h1, h2]
  have e1 : New.handleNotEmpty R B ⟨"s1", [some t1, some t2]⟩ =
      ((B t1 ++ B t2, []), ⟨[("s1", [(1, B t1), (2, B t2)])],
        [Call.Tag "s1" t1, Call.Build "s1" t1, Call.Tag "s1" t2, Call.Build "s1" t2], []⟩) := by
    rw [handleNotEmpty_none R B New _ rfl]
    simp [hf1, New, built, callsFor, mapSet, h1, h2]
  have p1 : New.process R B [⟨"s1", [some t1, some t2]⟩] =
      (B t1 ++ B t2, ⟨[("s1", [(1, B t1), (2, B t2)])],
        [Call.Tag "s1" t1, Call.Build "s1" t1, Call.Tag "s1" t2, Call.Build "s1" t2], []⟩) := by
    rw [process_one_notEmpty R B New _ (by simp), e1]
    simp
  -- second group
  have hc1 : cachedUnder (New.process R B [⟨"s1", [some t1, some t2]⟩]).2.cache "s1" =
      [(1, B t1), (2, B t2)] := by
    rw [p1]
    simp [cachedUnder, mapGet]
  have hf2 : fresh [1, 2] [some t2', some t3] = [t3] := by simp [fresh, h2', h3]
  have hh2 : hashes [some t2', some t3] = [2, 3] := by simp [hashes, h2', h3]
  have hd2 : dropped [(1, B t1), (2, B t2)] [2, 3] = [(1, B t1)] := by
    simp [dropped, List.filter_cons]
  have hk2 : kept [(1, B t1), (2, B t2)] [2, 3] = [(2, B t2)] := by
    simp [kept, List.filter_cons]
  obtain ⟨c1, hc1'⟩ := List.length_eq_one.mp (hB t1)
  have ha2 := handleNotEmpty_add R B (New.process R B [⟨"s1", [some t1, some t2]⟩]).2
    ⟨"s1", [some t2', some t3]⟩
  have hr2 := handleNotEmpty_remove R B (New.process R B [⟨"s1", [some t1, some t2]⟩]).2
    ⟨"s1", [some t2', some t3]⟩
  have hcache2 := handleNotEmpty_cache R B (New.process R B [⟨"s1", [some t1, some t2]⟩]).2
    ⟨"s1", [some t2', some t3]⟩
  simp only [hc1, hh2, hd2, hk2, mapKeys, List.map_cons, List.map_nil, hf2,
    List.flatMap_cons, List.flatMap_nil, List.append_nil] at ha2 hr2 hcache2
  have hr2' : ((New.process R B [⟨"s1", [some t1, some t2]⟩]).2.handleNotEmpty R B
      ⟨"s1", [some t2', some t3]⟩).1.2 = stale (B t1) := by
    rw [hc1'] at hr2 ⊢
    exact List.perm_singleton.mp hr2
  have hcache2' : ((New.process R B [⟨"s1", [some t1, some t2]⟩]).2.handleNotEmpty R B
      ⟨"s1", [some t2', some t3]⟩).2.cache = [("s1", [(2, B t2), (3, B t3)])] := by
    rw [hcache2, p1]
    simp [built, mapSet, h3]
  have p2 := process_one_notEmpty R B (New.process R B [⟨"s1", [some t1, some t2]⟩]).2
    ⟨"s1", [some t2', some t3]⟩ (by simp)
  -- tombstone
  have hg3 : mapGet ((New.process R B [⟨"s1", [some t1, some t2]⟩]).2.process R B
      [⟨"s1", [some t2', some t3]⟩]).2.cache "s1" = some [(2, B t2), (3, B t3)] := by
    rw [p2]
    simp only [hcache2']
    simp [mapGet]
  have p3 := process_one_empty R B ((New.process R B [⟨"s1", [some t1, some t2]⟩]).2.process R B
      [⟨"s1", [some t2', some t3]⟩]).2 ⟨"s1", []⟩ rfl
  rw [handleEmpty_some R _ ⟨"s1", []⟩ _ hg3] at p3
  have hperm3 : (stale ((R.order [(2, B t2), (3, B t3)]).flatMap Prod.snd)).Perm
      (stale (B t2) ++ stale (B t3)) := by
    rw [← stale_append]
    refine List.Perm.map _ ?_
    have := List.Perm.flatMap_right Prod.snd (R.perm [(2, B t2), (3, B t3)])
    simpa using this
  refine ⟨p1, by rw [e1], by simp [hB], ?_, ?_, hB t3, by rw [length_stale, hB], ?_, ?_, ?_, ?_, ?_⟩
  · rw [p2, ha2, hr2']
  · exact Prod.ext ha2 hr2'
  · rw [p2]
    exact hcache2'
  · rw [p3]
    exact hperm3
  · rw [p3]
    simp only
    rw [hperm3.length_eq]
    simp [length_stale, hB]
  · rw [p3]
    exact stale_all _
  · rw [p3]
    simp only
    rw [p2]
    simp only [hcache2']
    simp [mapDelete]

/-- C9 at the concrete targets and the one-config Builder. -/
theorem C9_scenario_witness :
    New.process MapRange.reversed oneConfig [⟨"s1", [some target1, some target2]⟩] =
      (oneConfig target1 ++ oneConfig target2,
        ⟨[("s1", [(1, oneConfig target1), (2, oneConfig target2)])],
        [Call.Tag "s1" target1, Call.Build "s1" target1, Call.Tag "s1" target2,
          Call.Build "s1" target2], []⟩) :=
  (C9_scenario MapRange.reversed oneConfig target1 target2 target2 target3 rfl rfl rfl rfl
    (fun _ => rfl)).1

/-- C10: tombstone handling in `handleEmpty`.  When the source of the group has
no cache entry the call returns no config and leaves the state as it is.  When
the source has an entry, the returned removals are, up to order, all configs
cached under all hashes of the source, each marked stale, and the entry of the
source is deleted from the cache. -/
theorem C10_handleEmpty (R : MapRange) (p : Pipeline) (group : Group) :
    (mapGet p.cache group.Source = none → p.handleEmpty R group = ([], p)) ∧
    (∀ grpCache, mapGet p.cache group.Source = some grpCache →
      (p.handleEmpty R group).1.Perm (stale (grpCache.flatMap Prod.snd)) ∧
      (p.handleEmpty R group).2.cache = mapDelete p.cache group.Source ∧
      mapGet (p.handleEmpty R group).2.cache group.Source = none) := by
  refine ⟨handleEmpty_none R p group, ?_⟩
  intro grpCache h
  refine ⟨?_, ?_, handleEmpty_get R p group⟩
  · rw [handleEmpty_some R p group grpCache h]
    exact List.Perm.map _ (List.Perm.flatMap_right _ (R.perm grpCache))
  · rw [handleEmpty_some R p group grpCache h]

/-- C10 at concrete calls: a tombstone on the empty cache, and on cache `s1:{1,2}`. -/
theorem C10_handleEmpty_witness :
    New.handleEmpty MapRange.reversed tombstone1 = ([], New) ∧
    (after12.handleEmpty MapRange.reversed tombstone1).1.Perm [⟨"t1", true⟩, ⟨"t2", true⟩] ∧
    (after12.handleEmpty MapRange.reversed tombstone1).2.cache = [] :=
  have h := (C10_handleEmpty MapRange.reversed after12 tombstone1).2
    [(1, [⟨"t1", false⟩]), (2, [⟨"t2", false⟩])] (by decide)
  ⟨(C10_handleEmpty MapRange.reversed New tombstone1).1 (by decide), h.1, h.2.1.trans (by decide)⟩

/-! ## The contribution of one group -/

theorem groupDiff_empty (R : MapRange) (B : Builder) (p : Pipeline) (g : Group)
    (h : g.Targets = []) :
    groupDiff R B p g = (([], (p.handleEmpty R g).1), (p.handleEmpty R g).2) := by
  simp [groupDiff, h]

theorem groupDiff_notEmpty (R : MapRange) (B : Builder) (p : Pipeline) (g : Group)
    (h : g.Targets ≠ []) : groupDiff R B p g = p.handleNotEmpty R B g := by
  have hl : ¬ g.Targets.length = 0 := fun h0 => h (List.eq_nil_of_length_eq_zero h0)
  simp [groupDiff, hl]

/-! ## Batches -/

theorem process_cons_groupDiff (R : MapRange) (B : Builder) (p : Pipeline) (g : Group)
    (gs : List Group) :
    p.process R B (g :: gs) =
      (((groupDiff R B p g).1.1 ++ (groupDiff R B p g).1.2) ++
          ((groupDiff R B p g).2.process R B gs).1,
        ((groupDiff R B p g).2.process R B gs).2) := by
  rw [process_cons, process_step_decomp]

/-- The configs of a batch, read off the contributions of its groups. -/
theorem process_fst_eq (R : MapRange) (B : Builder) (p : Pipeline) (groups : List Group) :
    (p.process R B groups).1 = (batchDiffs R B p groups).flatMap (fun d => d.1 ++ d.2) := by
  induction groups generalizing p with
  | nil => rfl
  | cons g gs ih =>
    rw [process_cons_groupDiff]
    simp only [batchDiffs, List.flatMap_cons]
    rw [ih]

theorem batchDiffs_append (R : MapRange) (B : Builder) (p : Pipeline) (gs₁ gs₂ : List Group) :
    batchDiffs R B p (gs₁ ++ gs₂) =
      batchDiffs R B p gs₁ ++ batchDiffs R B (p.process R B gs₁).2 gs₂ := by
  induction gs₁ generalizing p with
  | nil => rfl
  | cons g gs ih =>
    rw [List.cons_append, process_cons_groupDiff]
    simp only [batchDiffs, List.cons_append]
    rw [ih]

/-- The contribution of a group depends on the cache only, and on the range
order only for the order of the removals. -/
theorem groupDiff_congr (R R' : MapRange) (B : Builder) (p p' : Pipeline) (g : Group)
    (hc : p.cache = p'.cache) (hl : p.calls = p'.calls) :
    (groupDiff R B p g).1.1 = (groupDiff R' B p' g).1.1 ∧
    (groupDiff R B p g).1.2.Perm (groupDiff R' B p' g).1.2 ∧
    (groupDiff R B p g).2.cache = (groupDiff R' B p' g).2.cache ∧
    (groupDiff R B p g).2.calls = (groupDiff R' B p' g).2.calls := by
  by_cases hg : g.Targets = []
  · rw [groupDiff_empty R B p g hg, groupDiff_empty R' B p' g hg]
    cases h : mapGet p.cache g.Source with
    | none =>
      have h' : mapGet p'.cache g.Source = none := by rw [← hc]; exact h
      rw [handleEmpty_none R p g h, handleEmpty_none R' p' g h']
      exact ⟨rfl, List.Perm.refl _, hc, hl⟩
    | some grpCache =>
      have h' : mapGet p'.cache g.Source = some grpCache := by rw [← hc]; exact h
      rw [handleEmpty_some R p g grpCache h, handleEmpty_some R' p' g grpCache h']
      refine ⟨rfl, ?_, by simp only [hc], hl⟩
      refine List.Perm.map _ (List.Perm.flatMap_right _ ?_)
      exact (R.perm grpCache).trans (R'.perm grpCache).symm
  · rw [groupDiff_notEmpty R B p g hg, groupDiff_notEmpty R' B p' g hg]
    refine ⟨?_, ?_, ?_, ?_⟩
    · rw [handleNotEmpty_add, handleNotEmpty_add, hc]
    · refine (handleNotEmpty_remove R B p g).trans ?_
      rw [hc]
      exact (handleNotEmpty_remove R' B p' g).symm
    · rw [handleNotEmpty_cache, handleNotEmpty_cache, hc]
    · rw [handleNotEmpty_calls, handleNotEmpty_calls, hc, hl]

theorem batchDiffs_congr (R R' : MapRange) (B : Builder) (groups : List Group)
    (p p' : Pipeline) (hc : p.cache = p'.cache) (hl : p.calls = p'.calls) :
    SameDiffs (batchDiffs R B p groups) (batchDiffs R' B p' groups) ∧
    (p.process R B groups).2.cache = (p'.process R' B groups).2.cache ∧
    (p.process R B groups).2.calls = (p'.process R' B groups).2.calls := by
  induction groups generalizing p p' with
  | nil => exact ⟨List.Forall₂.nil, hc, hl⟩
  | cons g gs ih =>
    have hd := groupDiff_congr R R' B p p' g hc hl
    have hi := ih (groupDiff R B p g).2 (groupDiff R' B p' g).2 hd.2.2.1 hd.2.2.2
    rw [process_cons_groupDiff, process_cons_groupDiff]
    exact ⟨List.Forall₂.cons ⟨hd.1, hd.2.1⟩ hi.1, hi.2.1, hi.2.2⟩

theorem sameDiffs_append (a a' b b' : List (List Config × List Config))
    (h₁ : SameDiffs a a') (h₂ : SameDiffs b b') : SameDiffs (a ++ b) (a' ++ b') := by
  unfold SameDiffs at *
  induction h₁ with
  | nil => exact h₂
  | cons hd _ ih => exact List.Forall₂.cons hd ih

theorem sameDiffs_flatMap_perm (ds ds' : List (List Config × List Config))
    (h : SameDiffs ds ds') :
    (ds.flatMap (fun d => d.1 ++ d.2)).Perm (ds'.flatMap (fun d => d.1 ++ d.2)) := by
  unfold SameDiffs at h
  induction h with
  | nil => exact List.Perm.refl _
  | cons hd _ ih =>
    simp only [List.flatMap_cons]
    refine List.Perm.append ?_ ih
    rw [hd.1]
    exact List.Perm.append_left _ hd.2

/-- C18: batch boundaries do not matter.  With one range order, `process` on
`gs₁ ++ gs₂` returns the configs of `process` on `gs₁` followed by those of
`process` on `gs₂` run on the state left by `gs₁`, and ends in the same state.
With any three range orders the two runs yield, group by group, the same
additions and the same removals up to the order of eviction, hence config lists
that are permutations of each other, and they end with the same cache and the
same collaborator invocations. -/
theorem C18_batch_boundaries (R R₁ R₂ : MapRange) (B : Builder) (p : Pipeline)
    (gs₁ gs₂ : List Group) :
    p.process R B (gs₁ ++ gs₂) =
      ((p.process R B gs₁).1 ++ ((p.process R B gs₁).2.process R B gs₂).1,
        ((p.process R B gs₁).2.process R B gs₂).2) ∧
    SameDiffs (batchDiffs R B p (gs₁ ++ gs₂))
      (batchDiffs R₁ B p gs₁ ++ batchDiffs R₂ B (p.process R₁ B gs₁).2 gs₂) ∧
    (p.process R B (gs₁ ++ gs₂)).1.Perm
      ((p.process R₁ B gs₁).1 ++ ((p.process R₁ B gs₁).2.process R₂ B gs₂).1) ∧
    (p.process R B (gs₁ ++ gs₂)).2.cache = ((p.process R₁ B gs₁).2.process R₂ B gs₂).2.cache ∧
    (p.process R B (gs₁ ++ gs₂)).2.calls = ((p.process R₁ B gs₁).2.process R₂ B gs₂).2.calls := by
  have h₁ := batchDiffs_congr R R₁ B gs₁ p p rfl rfl
  have h₂ := batchDiffs_congr R R₂ B gs₂ (p.process R B gs₁).2 (p.process R₁ B gs₁).2
    h₁.2.1 h₁.2.2
  have hs : SameDiffs (batchDiffs R B p (gs₁ ++ gs₂))
      (batchDiffs R₁ B p gs₁ ++ batchDiffs R₂ B (p.process R₁ B gs₁).2 gs₂) := by
    rw [batchDiffs_append]
    exact sameDiffs_append _ _ _ _ h₁.1 h₂.1
  refine ⟨process_append R B p gs₁ gs₂, hs, ?_, ?_, ?_⟩
  · rw [process_fst_eq, process_fst_eq R₁, process_fst_eq R₂, ← List.flatMap_append]
    exact sameDiffs_flatMap_perm _ _ hs
  · rw [process_append]
    exact h₂.2.1
  · rw [process_append]
    exact h₂.2.2

/-! ## Accounting of retractions -/

theorem confCount_append (x : String) (a b : List Config) :
    confCount x (a ++ b) = confCount x a + confCount x b := by
  simp [confCount, List.countP_append]

theorem confCount_stale (x : String) (cs : List Config) :
    confCount x (stale cs) = confCount x cs := by
  induction cs with
  | nil => rfl
  | cons c cs ih =>
    unfold confCount stale at *
    simp only [List.map_cons, List.countP_cons, ih]

theorem confCount_perm (x : String) (a b : List Config) (h : a.Perm b) :
    confCount x a = confCount x b := h.countP_eq _

theorem count_map_conf (x : String) (cs : List Config) :
    (cs.map Config.Conf).count x = confCount x cs := by
  induction cs with
  | nil => rfl
  | cons c cs ih =>
    unfold confCount at *
    rw [List.map_cons, List.count_cons, List.countP_cons, ih]
    by_cases hc : c.Conf = x <;> simp [hc]

theorem confCount_flatMap_stale (x : String) (m : groupCache) :
    confCount x (m.flatMap (fun e => stale e.2)) = confCount x (m.flatMap Prod.snd) := by
  induction m with
  | nil => rfl
  | cons e m ih =>
    simp only [List.flatMap_cons, confCount_append, confCount_stale, ih]

theorem confCount_kept_dropped (x : String) (m : groupCache) (hs : List Nat) :
    confCount x (m.flatMap Prod.snd) =
      confCount x ((kept m hs).flatMap Prod.snd) +
        confCount x ((dropped m hs).flatMap Prod.snd) := by
  induction m with
  | nil => rfl
  | cons e m ih =>
    unfold kept dropped at *
    by_cases he : e.1 ∈ hs
    · simp only [List.filter_cons, he, decide_True, decide_False, not_true_eq_false,
        if_true, List.flatMap_cons, confCount_append, ih]
      simp
      omega
    · simp only [List.filter_cons, he, decide_True, decide_False, not_false_eq_true,
        if_true, List.flatMap_cons, confCount_append, ih]
      simp
      omega

theorem built_flatMap (B : Builder) (ts : List Target) :
    (built B ts).flatMap Prod.snd = ts.flatMap B := by
  induction ts with
  | nil => rfl
  | cons t ts ih =>
    unfold built at *
    simp only [List.map_cons, List.flatMap_cons, ih]

theorem cachedConfigs_cons (e : String × groupCache) (c : cache) :
    cachedConfigs (e :: c) = e.2.flatMap Prod.snd ++ cachedConfigs c := by
  simp [cachedConfigs, List.flatMap_cons]

/-- Storing an inner cache under a source replaces the configs of that source. -/
theorem confCount_mapSet (x : String) (c : cache) (s : String) (v : groupCache) :
    confCount x (cachedConfigs (mapSet c s v)) + confCount x ((cachedUnder c s).flatMap Prod.snd) =
      confCount x (cachedConfigs c) + confCount x (v.flatMap Prod.snd) := by
  induction c with
  | nil => simp [mapSet, cachedUnder, mapGet, cachedConfigs, confCount]
  | cons e c ih =>
    obtain ⟨k, w⟩ := e
    by_cases hk : k = s
    · subst hk
      simp only [mapSet, if_true, cachedConfigs_cons, confCount_append, cachedUnder, mapGet,
        Option.getD_some]
      omega
    · have : cachedUnder ((k, w) :: c) s = cachedUnder c s := by
        simp [cachedUnder, mapGet, hk]
      simp only [mapSet, hk, if_false, cachedConfigs_cons, confCount_append, this]
      omega

/-- Deleting a source removes the configs of that source. -/
theorem confCount_mapDelete (x : String) (c : cache) (hc : mapWF c) (s : String) :
    confCount x (cachedConfigs (mapDelete c s)) + confCount x ((cachedUnder c s).flatMap Prod.snd) =
      confCount x (cachedConfigs c) := by
  induction c with
  | nil => simp [mapDelete, cachedUnder, mapGet, cachedConfigs, confCount]
  | cons e c ih =>
    obtain ⟨k, w⟩ := e
    have hc' : k ∉ mapKeys c ∧ mapWF c := by simpa [mapWF, mapKeys] using hc
    by_cases hk : k = s
    · subst hk
      have hn : mapGet c k = none := (mapGet_eq_none_iff c k).mpr hc'.1
      have hd : mapDelete ((k, w) :: c) k = c := by
        have := mapDelete_of_none c k hn
        simpa [mapDelete, List.filter_cons] using this
      rw [hd]
      simp only [cachedConfigs_cons, confCount_append, cachedUnder, mapGet, if_true,
        Option.getD_some]
      omega
    · have h1 : cachedUnder ((k, w) :: c) s = cachedUnder c s := by
        simp [cachedUnder, mapGet, hk]
      have h2 : mapDelete ((k, w) :: c) s = (k, w) :: mapDelete c s := by
        simp [mapDelete, List.filter_cons, hk]
      rw [h1, h2]
      simp only [cachedConfigs_cons, confCount_append]
      have := ih hc'.2
      omega

/-- One group: additions plus the cache before are the removals plus the cache after. -/
theorem confCount_groupDiff (R : MapRange) (B : Builder) (p : Pipeline) (g : Group)
    (hp : mapWF p.cache) (x : String) :
    mapWF (groupDiff R B p g).2.cache ∧
    confCount x (groupDiff R B p g).1.1 + confCount x (cachedConfigs p.cache) =
      confCount x (groupDiff R B p g).1.2 + confCount x (cachedConfigs (groupDiff R B p g).2.cache) := by
  by_cases hg : g.Targets = []
  · rw [groupDiff_empty R B p g hg]
    cases h : mapGet p.cache g.Source with
    | none =>
      rw [handleEmpty_none R p g h]
      exact ⟨hp, rfl⟩
    | some grpCache =>
      rw [handleEmpty_some R p g grpCache h]
      refine ⟨mapWF_mapDelete _ _ hp, ?_⟩
      have h1 := confCount_mapDelete x p.cache hp g.Source
      rw [cachedUnder_some _ _ _ h] at h1
      have h2 : confCount x (stale ((R.order grpCache).flatMap Prod.snd)) =
          confCount x (grpCache.flatMap Prod.snd) := by
        rw [confCount_stale]
        exact confCount_perm x _ _ (List.Perm.flatMap_right _ (R.perm grpCache))
      simp only [h2]
      simp [confCount] at h1 ⊢
      omega
  · rw [groupDiff_notEmpty R B p g hg]
    refine ⟨?_, ?_⟩
    · rw [handleNotEmpty_cache]
      exact mapWF_mapSet _ _ _ hp
    · have h1 := confCount_mapSet x p.cache g.Source
        (kept (cachedUnder p.cache g.Source) (hashes g.Targets) ++
          built B (fresh (mapKeys (cachedUnder p.cache g.Source)) g.Targets))
      have h2 := confCount_kept_dropped x (cachedUnder p.cache g.Source) (hashes g.Targets)
      have h3 := confCount_perm x _ _ (handleNotEmpty_remove R B p g)
      rw [confCount_flatMap_stale] at h3
      rw [handleNotEmpty_cache, handleNotEmpty_add, h3]
      rw [List.flatMap_append, confCount_append, built_flatMap] at h1
      omega

theorem confCount_batchDiffs (R : MapRange) (B : Builder) (groups : List Group) (p : Pipeline)
    (hp : mapWF p.cache) (x : String) :
    confCount x ((batchDiffs R B p groups).flatMap Prod.fst) + confCount x (cachedConfigs p.cache) =
      confCount x ((batchDiffs R B p groups).flatMap Prod.snd) +
        confCount x (cachedConfigs (p.process R B groups).2.cache) := by
  induction groups generalizing p with
  | nil => rfl
  | cons g gs ih =>
    have hd := confCount_groupDiff R B p g hp x
    have hi := ih (groupDiff R B p g).2 hd.1
    rw [process_cons_groupDiff]
    simp only [batchDiffs, List.flatMap_cons, confCount_append]
    omega

/-- C17: retraction accounting.  For every sequence of batches processed from
the empty cache, the configs emitted so far as additions are, `Stale` flag
ignored and as multisets, the configs emitted so far as stale removals together
with the configs held in the cache.  Hence every removal has the content of an
addition, and the content of every addition is that of a removal or of a cached
config. -/
theorem C17_retraction_accounting (R : MapRange) (B : Builder) (batches : List (List Group)) :
    (((batchDiffs R B New batches.flatten).flatMap Prod.fst).map Config.Conf).Perm
      ((((batchDiffs R B New batches.flatten).flatMap Prod.snd) ++
        cachedConfigs (New.processAll R B batches).cache).map Config.Conf) ∧
    (∀ c ∈ (batchDiffs R B New batches.flatten).flatMap Prod.snd,
      c.Conf ∈ ((batchDiffs R B New batches.flatten).flatMap Prod.fst).map Config.Conf) ∧
    (∀ c ∈ (batchDiffs R B New batches.flatten).flatMap Prod.fst,
      c.Conf ∈ (((batchDiffs R B New batches.flatten).flatMap Prod.snd) ++
        cachedConfigs (New.processAll R B batches).cache).map Config.Conf) := by
  have hperm : (((batchDiffs R B New batches.flatten).flatMap Prod.fst).map Config.Conf).Perm
      ((((batchDiffs R B New batches.flatten).flatMap Prod.snd) ++
        cachedConfigs (New.processAll R B batches).cache).map Config.Conf) := by
    rw [List.perm_iff_count]
    intro x
    have h := confCount_batchDiffs R B batches.flatten New (by decide) x
    rw [count_map_conf, count_map_conf, confCount_append, processAll_eq_process]
    have h0 : confCount x (cachedConfigs New.cache) = 0 := rfl
    omega
  refine ⟨hperm, ?_, ?_⟩
  · intro c hc
    apply hperm.mem_iff.mpr
    exact List.mem_map_of_mem Config.Conf (List.mem_append_left _ hc)
  · intro c hc
    apply hperm.mem_iff.mp
    exact List.mem_map_of_mem Config.Conf hc

/-- C17 at a concrete run: `group12`, then `group23` in a second batch. -/
theorem C17_retraction_accounting_witness :
    (((batchDiffs MapRange.insertion oneConfig New
        [[group12], [group23]].flatten).flatMap Prod.fst).map Config.Conf).Perm
      ((((batchDiffs MapRange.insertion oneConfig New
        [[group12], [group23]].flatten).flatMap Prod.snd) ++
        cachedConfigs (New.processAll MapRange.insertion oneConfig
          [[group12], [group23]]).cache).map Config.Conf) :=
  (C17_retraction_accounting MapRange.insertion oneConfig [[group12], [group23]]).1

end pipeline

namespace kubernetes

/-! ## The service discoverer: lemmas -/

theorem buildGroup_source (L : Lib) (svc : apiv1.Service) :
    (buildGroup L svc).Source = serviceSource svc := by
  unfold buildGroup
  split <;> rfl

theorem buildGroup_empty (L : Lib) (svc : apiv1.Service)
    (h : svc.Spec.ClusterIP = "" ∨ svc.Spec.Ports = []) :
    buildGroup L svc = { source := serviceSource svc, targets := [] } := by
  have h' : svc.Spec.ClusterIP = "" ∨ svc.Spec.Ports.length = 0 := by
    rcases h with h | h
    · exact Or.inl h
    · exact Or.inr (by rw [h]; rfl)
  simp only [buildGroup, h', if_true]

theorem buildGroup_targets (L : Lib) (svc : apiv1.Service)
    (hip : svc.Spec.ClusterIP ≠ "") (hports : svc.Spec.Ports ≠ []) :
    (buildGroup L svc).Targets = buildTargets L svc := by
  have h' : ¬ (svc.Spec.ClusterIP = "" ∨ svc.Spec.Ports.length = 0) := by
    rintro (h | h)
    · exact hip h
    · exact hports (List.eq_nil_of_length_eq_zero h)
  simp only [buildGroup, h', if_false]
  rfl

/-- The loop of `buildTargets` keeps, in port order, the targets whose hash
computation succeeds. -/
theorem buildTargets_foldl (L : Lib) (svc : apiv1.Service) (ports : List apiv1.ServicePort)
    (acc : List ServiceTarget) :
    ports.foldl (buildTargetsStep L svc) acc =
      acc ++ ports.filterMap (fun port =>
        (L.calcHash (newServiceTarget L svc port)).map
          (fun h => { newServiceTarget L svc port with hash := h })) := by
  induction ports generalizing acc with
  | nil => simp
  | cons port ports ih =>
    rw [List.foldl_cons, ih]
    cases hc : L.calcHash (newServiceTarget L svc port) with
    | none => simp [buildTargetsStep, hc, List.filterMap_cons]
    | some h => simp [buildTargetsStep, hc, List.filterMap_cons]

theorem buildTargets_eq (L : Lib) (svc : apiv1.Service) :
    buildTargets L svc =
      svc.Spec.Ports.filterMap (fun port =>
        (L.calcHash (newServiceTarget L svc port)).map
          (fun h => { newServiceTarget L svc port with hash := h })) := by
  unfold buildTargets
  rw [buildTargets_foldl]
  rfl

theorem hasSyncedLoop_iff (ds : List discoverer) :
    hasSyncedLoop ds = true ↔ ∀ dd ∈ ds, dd.syncStatus = some true := by
  induction ds with
  | nil => simp [hasSyncedLoop]
  | cons dd ds ih =>
    cases hs : dd.syncStatus with
    | none => simp [hasSyncedLoop, hs]
    | some v =>
      cases v with
      | false => simp [hasSyncedLoop, hs]
      | true => simp [hasSyncedLoop, hs, ih]

/-! ## The service discoverer: claims -/

/-- C12: service tombstone source.  When a dequeued key parses to namespace
`ns` and name `n` and is absent from the store, the group that `Service.run`
hands to `send` has no targets and the source `k8s/service/ns/n`; this is the
source of the group that `buildGroup` returns for every Service object with
that namespace and name, whatever its other content. -/
theorem C12_tombstone_source (L : Lib) (s : Service) (key ns n : String)
    (hkey : L.SplitMetaNamespaceKey key = some (ns, n))
    (habsent : s.informer.GetByKey key = some none) :
    s.run L key = some { source := "k8s/service/" ++ ns ++ "/" ++ n, targets := [] } ∧
    (∀ (L' : Lib) (svc : apiv1.Service), svc.Namespace = ns → svc.Name = n →
      (buildGroup L' svc).Source = "k8s/service/" ++ ns ++ "/" ++ n) := by
  constructor
  · simp [Service.run, hkey, habsent, serviceSourceFromNsName]
  · intro L' svc h1 h2
    rw [buildGroup_source, ← h1, ← h2]
    rfl

/-- C12 at a concrete key: `prod/httpd` on an empty store, against the two
services `prod/httpd` with different content. -/
theorem C12_tombstone_source_witness :
    emptyStore.run demoLib "prod/httpd" =
      some { source := "k8s/service/prod/httpd", targets := [] } ∧
    (buildGroup demoLib httpdService).Source = "k8s/service/prod/httpd" ∧
    (buildGroup demoLib headlessService).Source = "k8s/service/prod/httpd" :=
  have h := C12_tombstone_source demoLib emptyStore "prod/httpd" "prod" "httpd" rfl rfl
  ⟨h.1, h.2 demoLib httpdService rfl rfl, h.2 demoLib headlessService rfl rfl⟩

/-- C13: for a Service object without cluster IP or without ports,
`buildGroup` returns the group with the source `k8s/service/<ns>/<name>` and no
targets; `Service.run` hands this group to `send` when the store holds the
object; and the pipeline handles it as a tombstone of that source, through
`handleEmpty`. -/
theorem C13_empty_group (L : Lib) (svc : apiv1.Service)
    (h : svc.Spec.ClusterIP = "" ∨ svc.Spec.Ports = []) :
    buildGroup L svc =
      { source := "k8s/service/" ++ svc.Namespace ++ "/" ++ svc.Name, targets := [] } ∧
    (∀ (s : Service) (key ns n : String), L.SplitMetaNamespaceKey key = some (ns, n) →
      s.informer.GetByKey key = some (some (StoreItem.service svc)) →
      s.run L key = some (buildGroup L svc)) ∧
    (buildGroup L svc).toGroup =
      ⟨"k8s/service/" ++ svc.Namespace ++ "/" ++ svc.Name, []⟩ ∧
    (∀ (R : pipeline.MapRange) (B : pipeline.Builder) (p : pipeline.Pipeline),
      p.process R B [(buildGroup L svc).toGroup] =
        p.handleEmpty R ⟨"k8s/service/" ++ svc.Namespace ++ "/" ++ svc.Name, []⟩) := by
  have hb := buildGroup_empty L svc h
  have hg : (buildGroup L svc).toGroup =
      ⟨"k8s/service/" ++ svc.Namespace ++ "/" ++ svc.Name, []⟩ := by
    rw [hb]
    rfl
  refine ⟨hb, ?_, hg, ?_⟩
  · intro s key ns n hkey hget
    simp [Service.run, hkey, hget, toService]
  · intro R B p
    rw [hg]
    exact pipeline.process_one_empty R B p _ rfl

/-- C13 at a concrete object: the service `prod/httpd` without cluster IP. -/
theorem C13_empty_group_witness :
    buildGroup demoLib headlessService = { source := "k8s/service/prod/httpd", targets := [] } ∧
    headlessStore.run demoLib "prod/httpd" = some (buildGroup demoLib headlessService) :=
  have h := C13_empty_group demoLib headlessService (Or.inl rfl)
  ⟨h.1, h.2.1 headlessStore "prod/httpd" "prod" "httpd" rfl rfl⟩

/-- C14: TUID stability.  `serviceTUID` is namespace, name, lower-cased
protocol and decimal port number joined by underscores, so two Service objects
with the same namespace and name and two ports with the same protocol and port
number have the same TUID, whatever else differs; and the target that
`buildTargets` makes for a port carries this TUID. -/
theorem C14_tuid_stability (L : Lib) (svc svc' : apiv1.Service) (port port' : apiv1.ServicePort)
    (hns : svc.Namespace = svc'.Namespace) (hname : svc.Name = svc'.Name)
    (hproto : port.Protocol = port'.Protocol) (hport : port.Port = port'.Port) :
    serviceTUID L svc port =
      svc.Namespace ++ "_" ++ svc.Name ++ "_" ++ L.ToLower port.Protocol ++ "_" ++
        toString port.Port ∧
    serviceTUID L svc port = serviceTUID L svc' port' ∧
    (∀ h h', ({ newServiceTarget L svc port with hash := h } : ServiceTarget).TUID =
      ({ newServiceTarget L svc' port' with hash := h' } : ServiceTarget).TUID) ∧
    (∀ t ∈ buildTargets L svc, ∃ p ∈ svc.Spec.Ports, t.TUID = serviceTUID L svc p) := by
  refine ⟨rfl, ?_, ?_, ?_⟩
  · simp only [serviceTUID, hns, hname, hproto, hport]
  · intro h h'
    simp only [ServiceTarget.TUID, newServiceTarget, serviceTUID, hns, hname, hproto, hport]
  · intro t ht
    rw [buildTargets_eq] at ht
    obtain ⟨p, hp, hpt⟩ := List.mem_filterMap.mp ht
    cases hc : L.calcHash (newServiceTarget L svc p) with
    | none => simp [hc] at hpt
    | some h =>
      simp only [hc, Option.map_some', Option.some.injEq] at hpt
      exact ⟨p, hp, by rw [← hpt]; rfl⟩

/-- C14 at concrete objects: the services `prod/httpd` with and without
cluster IP, and two ports 80/TCP with different names. -/
theorem C14_tuid_stability_witness :
    serviceTUID demoLib httpdService ⟨"http", "TCP", 80⟩ = "prod_httpd_tcp_80" ∧
    serviceTUID demoLib httpdService ⟨"http", "TCP", 80⟩ =
      serviceTUID demoLib headlessService ⟨"web", "TCP", 80⟩ :=
  have h := C14_tuid_stability demoLib httpdService headlessService ⟨"http", "TCP", 80⟩
    ⟨"web", "TCP", 80⟩ rfl rfl rfl rfl
  ⟨h.1.trans (by decide), h.2.1⟩

/-- C15: aggregate sync.  `Discovery.hasSynced` returns true exactly when
every owned discoverer has the method `hasSynced` and reports synced; it
returns false as soon as one of them has not synced or has no such method. -/
theorem C15_aggregate_sync (d : Discovery) :
    (d.hasSynced = true ↔ ∀ dd ∈ d.discoverers, dd.syncStatus = some true) ∧
    ((∃ dd ∈ d.discoverers, dd.syncStatus ≠ some true) → d.hasSynced = false) ∧
    ((∀ dd ∈ d.discoverers, dd.syncStatus = some true) → d.hasSynced = true) := by
  have hiff : d.hasSynced = true ↔ ∀ dd ∈ d.discoverers, dd.syncStatus = some true :=
    hasSyncedLoop_iff d.discoverers
  refine ⟨hiff, ?_, hiff.mpr⟩
  rintro ⟨dd, hdd, hne⟩
  cases hv : d.hasSynced with
  | false => rfl
  | true => exact absurd (hiff.mp hv dd hdd) hne

/-- C15 at concrete discoverers: a synced service discoverer alone, and
together with a pod discoverer whose secret informer has not synced. -/
theorem C15_aggregate_sync_witness :
    (Discovery.mk [discoverer.service emptyStore]).hasSynced = true ∧
    (Discovery.mk [discoverer.service emptyStore, discoverer.pod pendingPod]).hasSynced = false :=
  ⟨(C15_aggregate_sync ⟨[discoverer.service emptyStore]⟩).2.2 (by decide),
    (C15_aggregate_sync ⟨[discoverer.service emptyStore, discoverer.pod pendingPod]⟩).2.1
      ⟨discoverer.pod pendingPod, by simp, by decide⟩⟩

/-- C16: for a Service object with cluster IP and ports, `buildGroup` returns
the group of its source whose targets are, in port order, one target per port
whose hash computation succeeds, so at most as many as ports.  The target of a
port carries the TUID `serviceTUID svc port`, the decimal port number as
`Port`, the address `net.JoinHostPort` of the host `<name>.<namespace>.svc` and
the port, which is `<name>.<namespace>.svc:<port>` when the host has no colon
(as for every valid Kubernetes name), and the hash that `calcHash` computes over
the target. -/
theorem C16_build_group (L : Lib) (svc : apiv1.Service)
    (hip : svc.Spec.ClusterIP ≠ "") (hports : svc.Spec.Ports ≠ []) :
    (buildGroup L svc).Source = serviceSource svc ∧
    (buildGroup L svc).Targets =
      svc.Spec.Ports.filterMap (fun port =>
        (L.calcHash (newServiceTarget L svc port)).map
          (fun h => { newServiceTarget L svc port with hash := h })) ∧
    (buildGroup L svc).Targets.length ≤ svc.Spec.Ports.length ∧
    (∀ t ∈ (buildGroup L svc).Targets, ∃ port ∈ svc.Spec.Ports,
      t = { newServiceTarget L svc port with hash := t.Hash } ∧
      L.calcHash (newServiceTarget L svc port) = some t.Hash ∧
      t.TUID = serviceTUID L svc port ∧
      t.Port = toString port.Port ∧
      t.Address =
        JoinHostPort (svc.Name ++ "." ++ svc.Namespace ++ ".svc") (toString port.Port) ∧
      (':' ∉ (svc.Name ++ "." ++ svc.Namespace ++ ".svc").data →
        t.Address = svc.Name ++ "." ++ svc.Namespace ++ ".svc" ++ ":" ++ toString port.Port)) := by
  have ht := (buildGroup_targets L svc hip hports).trans (buildTargets_eq L svc)
  refine ⟨buildGroup_source L svc, ht, ?_, ?_⟩
  · rw [ht]
    exact List.length_filterMap_le _ _
  · intro t hmem
    rw [ht] at hmem
    obtain ⟨port, hp, hpt⟩ := List.mem_filterMap.mp hmem
    cases hc : L.calcHash (newServiceTarget L svc port) with
    | none => simp [hc] at hpt
    | some h =>
      simp only [hc, Option.map_some', Option.some.injEq] at hpt
      subst hpt
      refine ⟨port, hp, rfl, hc, rfl, rfl, rfl, ?_⟩
      intro hcolon
      show JoinHostPort (svc.Name ++ "." ++ svc.Namespace ++ ".svc") (FormatInt port.Port) = _
      unfold JoinHostPort FormatInt
      rw [if_neg hcolon]

/-- C16 at a concrete object: the service `prod/httpd` with the ports 80 and
443, with a hash that succeeds on both and with a hash that fails on 443. -/
theorem C16_build_group_witness :
    (buildGroup demoLib httpdService).Targets.map (fun t => (t.TUID, t.Address, t.Port, t.Hash)) =
      [("prod_httpd_tcp_80", "httpd.prod.svc:80", "80", 17),
        ("prod_httpd_tcp_443", "httpd.prod.svc:443", "443", 18)] ∧
    (buildGroup failingLib httpdService).Targets.length ≤ 2 :=
  have h := C16_build_group demoLib httpdService (by decide) (by decide)
  have h' := C16_build_group failingLib httpdService (by decide) (by decide)
  ⟨(congrArg (List.map (fun t => (t.TUID, t.Address, t.Port, t.Hash))) h.2.1).trans (by decide),
    h'.2.2.1⟩

end kubernetes

namespace pipeline

namespace byRef

/-! ## Cached slices held by reference: memory -/

theorem elements_mapSet_self (arrays : Arrays) (a : Nat) (v : List Config) :
    elements (mapSet arrays a v) a = v := by
  simp [elements, mapGet_mapSet_self]

theorem elements_mapSet_ne (arrays : Arrays) (a a' : Nat) (v : List Config) (h : a' ≠ a) :
    elements (mapSet arrays a v) a' = elements arrays a' := by
  simp [elements, mapGet_mapSet_ne _ _ _ _ h]

theorem stale_stale (cs : List Config) : pipeline.stale (pipeline.stale cs) = pipeline.stale cs := by
  simp [pipeline.stale]

theorem mem_mapKeys_of_lt (arrays : Arrays) (hm : MemWF arrays) (a : Nat)
    (h : a < arrays.length) : a ∈ mapKeys arrays := by
  rw [hm]
  exact List.mem_range.mpr h

theorem length_not_mem_mapKeys (arrays : Arrays) (hm : MemWF arrays) :
    arrays.length ∉ mapKeys arrays := by
  rw [hm]
  simp

theorem elements_append_of_lt (arrays more : Arrays) (hm : MemWF arrays) (a : Nat)
    (h : a < arrays.length) : elements (arrays ++ more) a = elements arrays a := by
  unfold elements
  rw [mapGet_append_of_mem _ _ _ (mem_mapKeys_of_lt arrays hm a h)]

theorem elements_append_new (arrays : Arrays) (hm : MemWF arrays) (v : List Config) :
    elements (arrays ++ [(arrays.length, v)]) arrays.length = v := by
  unfold elements
  rw [mapGet_append_of_not_mem _ _ _ (length_not_mem_mapKeys arrays hm)]
  simp [mapGet]

theorem memWF_append (arrays : Arrays) (hm : MemWF arrays) (v : List Config) :
    MemWF (arrays ++ [(arrays.length, v)]) := by
  unfold MemWF at *
  rw [mapKeys_append, hm]
  simp [mapKeys, List.range_succ]

theorem length_mapSet_of_mem (arrays : Arrays) (a : Nat) (v : List Config)
    (h : a ∈ mapKeys arrays) : (mapSet arrays a v).length = arrays.length := by
  have := congrArg List.length (mapKeys_mapSet_of_mem arrays a v h)
  simpa [mapKeys] using this

theorem memWF_mapSet (arrays : Arrays) (hm : MemWF arrays) (a : Nat) (v : List Config)
    (h : a < arrays.length) : MemWF (mapSet arrays a v) := by
  have hk := mem_mapKeys_of_lt arrays hm a h
  unfold MemWF at *
  rw [mapKeys_mapSet_of_mem arrays a v hk, length_mapSet_of_mem arrays a v hk]
  exact hm

theorem writeAll_nil (arrays : Arrays) : writeAll arrays [] = arrays := rfl

theorem writeAll_cons (arrays : Arrays) (s : Nat) (ss : List Nat) :
    writeAll arrays (s :: ss) = writeAll (stale arrays s).1 ss := rfl

theorem length_writeAll (arrays : Arrays) (hm : MemWF arrays) (ss : List Nat)
    (hs : ∀ s ∈ ss, s < arrays.length) :
    MemWF (writeAll arrays ss) ∧ (writeAll arrays ss).length = arrays.length := by
  induction ss generalizing arrays with
  | nil => exact ⟨hm, rfl⟩
  | cons s ss ih =>
    have h0 := hs s (List.mem_cons_self _ _)
    have hl : (stale arrays s).1.length = arrays.length :=
      length_mapSet_of_mem arrays s _ (mem_mapKeys_of_lt arrays hm s h0)
    have hm' : MemWF (stale arrays s).1 := memWF_mapSet arrays hm s _ h0
    have := ih (stale arrays s).1 hm' (fun x hx => by
      rw [hl]; exact hs x (List.mem_cons_of_mem _ hx))
    rw [writeAll_cons]
    exact ⟨this.1, this.2.trans hl⟩

/-- The elements of a slice after `stale` has written into a list of slices. -/
theorem elements_writeAll (arrays : Arrays) (ss : List Nat) (a : Nat) :
    elements (writeAll arrays ss) a =
      if a ∈ ss then pipeline.stale (elements arrays a) else elements arrays a := by
  induction ss generalizing arrays with
  | nil => simp [writeAll_nil]
  | cons s ss ih =>
    rw [writeAll_cons, ih]
    by_cases has : a = s
    · subst has
      simp only [stale, elements_mapSet_self, stale_stale, List.mem_cons, true_or, if_true]
      split <;> rfl
    · have h1 : elements (stale arrays s).1 a = elements arrays a :=
        elements_mapSet_ne arrays s a _ has
      simp only [h1, List.mem_cons, has, false_or]

/-! ## Cached slices held by reference: the loops -/

/-- What the fresh Builder leaves after a list of targets. -/
theorem allocate_spec (b : pipeline.Builder) (ts : List Target) (arrays : Arrays)
    (hm : MemWF arrays) :
    MemWF (allocate b arrays ts).2 ∧
    (allocate b arrays ts).2.length = arrays.length + ts.length ∧
    (∀ a, a < arrays.length → elements (allocate b arrays ts).2 a = elements arrays a) ∧
    deref (allocate b arrays ts).2 (allocate b arrays ts).1 = built b ts ∧
    (allocate b arrays ts).1.map Prod.snd = List.range' arrays.length ts.length ∧
    mapKeys (allocate b arrays ts).1 = ts.map Target.Hash := by
  induction ts generalizing arrays with
  | nil => exact ⟨hm, rfl, fun _ _ => rfl, rfl, rfl, rfl⟩
  | cons t ts ih =>
    have hm' := memWF_append arrays hm (b t)
    have hl' : (arrays ++ [(arrays.length, b t)]).length = arrays.length + 1 := by simp
    obtain ⟨i1, i2, i3, i4, i5, i6⟩ := ih (arrays ++ [(arrays.length, b t)]) hm'
    have hn : elements (allocate b (arrays ++ [(arrays.length, b t)]) ts).2 arrays.length = b t := by
      rw [i3 arrays.length (by omega)]
      exact elements_append_new arrays hm (b t)
    refine ⟨i1, ?_, ?_, ?_, ?_, ?_⟩
    · simp only [allocate, i2, hl', List.length_cons]
      omega
    · intro a ha
      simp only [allocate]
      rw [i3 a (by omega)]
      exact elements_append_of_lt arrays _ hm a ha
    · simp only [allocate, deref, List.map_cons, hn, built]
      have := i4
      simp only [deref, built] at this
      rw [this]
    · simp only [allocate, List.map_cons, i5, hl', List.length_cons]
      rfl
    · simp only [allocate, mapKeys, List.map_cons]
      have := i6
      simp only [mapKeys] at this
      rw [this]

/-- What the target loop of `handleNotEmpty` computes with the fresh Builder. -/
theorem targetLoop_fresh (b : pipeline.Builder) (ts : List (Option Target)) (st : TargetLoop)
    (hm : MemWF st.arrays) :
    ts.foldl (handleNotEmptyStep (freshBuilder b)) st =
      { grpCache := st.grpCache ++ (allocate b st.arrays (fresh (mapKeys st.grpCache) ts)).1
        seen := (hashes ts).foldl (fun s x => mapSet s x true) st.seen
        add := st.add ++ (fresh (mapKeys st.grpCache) ts).flatMap b
        arrays := (allocate b st.arrays (fresh (mapKeys st.grpCache) ts)).2 } := by
  induction ts generalizing st with
  | nil => simp [fresh, hashes, allocate]
  | cons o ts ih =>
    cases o with
    | none => simpa [handleNotEmptyStep, fresh, hashes_cons_none] using ih st hm
    | some t =>
      rw [List.foldl_cons]
      cases hg : mapGet st.grpCache t.Hash with
      | some v =>
        have hk : t.Hash ∈ mapKeys st.grpCache := by
          rw [← mapGet_isSome_iff, hg]; rfl
        have h1 : handleNotEmptyStep (freshBuilder b) st (some t) =
            { st with seen := mapSet st.seen t.Hash true } := by
          simp [handleNotEmptyStep, hg]
        rw [h1, ih { st with seen := mapSet st.seen t.Hash true } hm]
        simp only [fresh, hk, if_true, hashes_cons_some, List.foldl_cons]
      | none =>
        have hk : t.Hash ∉ mapKeys st.grpCache := (mapGet_eq_none_iff _ _).mp hg
        have h1 : handleNotEmptyStep (freshBuilder b) st (some t) =
            { grpCache := st.grpCache ++ [(t.Hash, st.arrays.length)]
              seen := mapSet st.seen t.Hash true
              add := st.add ++ b t
              arrays := st.arrays ++ [(st.arrays.length, b t)] } := by
          simp [handleNotEmptyStep, hg, mapSet_of_none _ _ _ hg, freshBuilder,
            elements_append_new st.arrays hm]
        have h2 : mapKeys (st.grpCache ++ [(t.Hash, st.arrays.length)]) =
            mapKeys st.grpCache ++ [t.Hash] := by
          simp [mapKeys]
        rw [h1, ih { grpCache := st.grpCache ++ [(t.Hash, st.arrays.length)]
                     seen := mapSet st.seen t.Hash true
                     add := st.add ++ b t
                     arrays := st.arrays ++ [(st.arrays.length, b t)] }
          (memWF_append st.arrays hm (b t))]
        simp only [h2, fresh, hk, if_false, hashes_cons_some, List.foldl_cons, allocate,
          List.flatMap_cons, List.append_assoc, List.singleton_append]

theorem filter_mapDelete_slices (m : groupCache) (k : Nat) (l : List Nat) :
    (mapDelete m k).filter (fun e => decide (e.1 ∉ l)) =
      m.filter (fun e => decide (e.1 ∉ k :: l)) := by
  unfold mapDelete
  rw [List.filter_filter]
  apply List.filter_congr
  intro x _
  by_cases hx : x.1 = k <;> simp [hx]

theorem stale_elements_stale (arrays : Arrays) (s a : Nat) :
    pipeline.stale (elements (stale arrays s).1 a) = pipeline.stale (elements arrays a) := by
  by_cases has : a = s
  · subst has
    simp only [stale, elements_mapSet_self, stale_stale]
  · rw [show elements (stale arrays s).1 a = elements arrays a from
      elements_mapSet_ne arrays s a _ has]

/-- What the eviction loop of `handleNotEmpty` computes. -/
theorem ref_evictLoop_spec (seen : List (Nat × Bool)) (es : List (Nat × Nat)) (st : EvictLoop) :
    es.foldl (evictStep seen) st =
      { grpCache := st.grpCache.filter (fun e => decide (e.1 ∉
          (es.filter (fun e => !((mapGet seen e.1).getD false))).map Prod.fst))
        remove := st.remove ++
          (es.filter (fun e => !((mapGet seen e.1).getD false))).flatMap
            (fun e => pipeline.stale (elements st.arrays e.2))
        arrays := writeAll st.arrays
          ((es.filter (fun e => !((mapGet seen e.1).getD false))).map Prod.snd) } := by
  induction es generalizing st with
  | nil => simp [writeAll_nil]
  | cons e es ih =>
    rw [List.foldl_cons, ih]
    by_cases hs : (mapGet seen e.1).getD false = true
    · have h1 : evictStep seen st e = st := by simp [evictStep, hs]
      have h2 : (e :: es).filter (fun e => !((mapGet seen e.1).getD false)) =
          es.filter (fun e => !((mapGet seen e.1).getD false)) := by
        simp [List.filter_cons, hs]
      rw [h1, h2]
    · simp only [Bool.not_eq_true] at hs
      have h1 : evictStep seen st e =
          { grpCache := mapDelete st.grpCache e.1
            remove := st.remove ++ pipeline.stale (elements st.arrays e.2)
            arrays := (stale st.arrays e.2).1 } := by
        simp [evictStep, hs, stale, elements_mapSet_self]
      have h2 : (e :: es).filter (fun e => !((mapGet seen e.1).getD false)) =
          e :: es.filter (fun e => !((mapGet seen e.1).getD false)) := by
        simp [List.filter_cons, hs]
      have h3 : (fun x : Nat × Nat => pipeline.stale (elements (stale st.arrays e.2).1 x.2)) =
          (fun x : Nat × Nat => pipeline.stale (elements st.arrays x.2)) := by
        funext x
        exact stale_elements_stale _ _ _
      rw [h1, h2]
      simp only [filter_mapDelete_slices, List.map_cons, List.flatMap_cons, List.append_assoc,
        writeAll_cons, h3]

/-- What the loop of `handleEmpty` computes. -/
theorem ref_emptyLoop_spec (arrays : Arrays) (es : List (Nat × Nat)) (st : EmptyLoop) :
    es.foldl (handleEmptyStep arrays) st =
      { grpCache := st.grpCache.filter (fun e => decide (e.1 ∉ es.map Prod.fst))
        remove := st.remove ++ es.flatMap (fun e => elements arrays e.2) } := by
  induction es generalizing st with
  | nil => simp
  | cons e es ih =>
    rw [List.foldl_cons, ih]
    simp only [handleEmptyStep, filter_mapDelete_slices, List.map_cons, List.flatMap_cons,
      List.append_assoc]

/-! ## Cached slices held by reference: the two handlers -/

theorem ref_handleEmpty_none (R : MapRange) (p : Pipeline) (group : Group)
    (h : mapGet p.cache group.Source = none) : p.handleEmpty R group = ([], p) := by
  simp [Pipeline.handleEmpty, h]

theorem ref_handleEmpty_some (R : MapRange) (p : Pipeline) (group : Group) (grpCache : groupCache)
    (h : mapGet p.cache group.Source = some grpCache) :
    p.handleEmpty R group =
      (pipeline.stale ((R.order grpCache).flatMap (fun e => elements p.arrays e.2)),
        { p with cache := mapDelete p.cache group.Source }) := by
  simp [Pipeline.handleEmpty, h, ref_emptyLoop_spec]

/-- The sibling path: `handleEmpty` writes into no array of the memory. -/
theorem handleEmpty_arrays (R : MapRange) (p : Pipeline) (group : Group) :
    (p.handleEmpty R group).2.arrays = p.arrays := by
  cases h : mapGet p.cache group.Source with
  | none => rw [ref_handleEmpty_none R p group h]
  | some grpCache => rw [ref_handleEmpty_some R p group grpCache h]

theorem ref_handleNotEmpty_none (R : MapRange) (b : pipeline.Builder) (p : Pipeline) (group : Group)
    (hm : MemWF p.arrays) (h : mapGet p.cache group.Source = none) :
    p.handleNotEmpty R (freshBuilder b) group =
      (((fresh [] group.Targets).flatMap b, []),
        { cache := mapSet p.cache group.Source
            (allocate b p.arrays (fresh [] group.Targets)).1
          arrays := (allocate b p.arrays (fresh [] group.Targets)).2 }) := by
  have ht := targetLoop_fresh b group.Targets ⟨[], [], [], p.arrays⟩ hm
  simp only [mapKeys, List.map_nil, List.nil_append] at ht
  simp only [Pipeline.handleNotEmpty, h, Option.isSome_none, Option.getD_none, Bool.not_false,
    if_true, ht, mapSet_mapSet]

theorem ref_handleNotEmpty_some (R : MapRange) (b : pipeline.Builder) (p : Pipeline) (group : Group)
    (hm : MemWF p.arrays) (grpCache : groupCache)
    (h : mapGet p.cache group.Source = some grpCache) :
    p.handleNotEmpty R (freshBuilder b) group =
      (((fresh (mapKeys grpCache) group.Targets).flatMap b,
        ((R.order (grpCache ++
            (allocate b p.arrays (fresh (mapKeys grpCache) group.Targets)).1)).filter
          (fun e => decide (e.1 ∉ hashes group.Targets))).flatMap
          (fun e => pipeline.stale
            (elements (allocate b p.arrays (fresh (mapKeys grpCache) group.Targets)).2 e.2))),
        { cache := mapSet p.cache group.Source
            ((grpCache ++ (allocate b p.arrays (fresh (mapKeys grpCache) group.Targets)).1).filter
              (fun e => decide (e.1 ∉ ((R.order (grpCache ++
                (allocate b p.arrays (fresh (mapKeys grpCache) group.Targets)).1)).filter
                  (fun e => decide (e.1 ∉ hashes group.Targets))).map Prod.fst)))
          arrays := writeAll (allocate b p.arrays (fresh (mapKeys grpCache) group.Targets)).2
            (((R.order (grpCache ++
                (allocate b p.arrays (fresh (mapKeys grpCache) group.Targets)).1)).filter
              (fun e => decide (e.1 ∉ hashes group.Targets))).map Prod.snd) }) := by
  have ht := targetLoop_fresh b group.Targets ⟨grpCache, [], [], p.arrays⟩ hm
  simp only [List.nil_append] at ht
  simp only [Pipeline.handleNotEmpty, h, Option.isSome_some, Option.getD_some, Bool.not_true,
    Bool.false_eq_true, if_false, ht, ref_evictLoop_spec, unseen_iff, List.nil_append]

/-! ## Cached slices held by reference: the view by value -/

theorem mapKeys_deref (arrays : Arrays) (m : groupCache) : mapKeys (deref arrays m) = mapKeys m := by
  simp [mapKeys, deref]

theorem mapGet_map_values {ν μ : Type} (f : ν → μ) (m : List (String × ν)) (k : String) :
    mapGet (m.map (fun e => (e.1, f e.2))) k = (mapGet m k).map f := by
  induction m with
  | nil => rfl
  | cons e m ih =>
    by_cases hk : e.1 = k
    · simp [mapGet, hk]
    · simp [mapGet, hk, ih]

theorem mapSet_map_values {ν μ : Type} (f : ν → μ) (m : List (String × ν)) (k : String) (v : ν) :
    (mapSet m k v).map (fun e => (e.1, f e.2)) = mapSet (m.map (fun e => (e.1, f e.2))) k (f v) := by
  induction m with
  | nil => rfl
  | cons e m ih =>
    by_cases hk : e.1 = k
    · simp [mapSet, hk]
    · simp [mapSet, hk, ih]

theorem mapDelete_map_values {ν μ : Type} (f : ν → μ) (m : List (String × ν)) (k : String) :
    (mapDelete m k).map (fun e => (e.1, f e.2)) = mapDelete (m.map (fun e => (e.1, f e.2))) k := by
  unfold mapDelete
  rw [List.filter_map]
  rfl

/-- Storing under a source hides what the old entry of the source was. -/
theorem mapSet_map_congr {ν μ : Type} (f₁ f₂ : ν → μ) (m : List (String × ν)) (hm : mapWF m)
    (k : String) (v : μ) (h : ∀ e ∈ m, e.1 ≠ k → f₁ e.2 = f₂ e.2) :
    mapSet (m.map (fun e => (e.1, f₁ e.2))) k v = mapSet (m.map (fun e => (e.1, f₂ e.2))) k v := by
  induction m with
  | nil => rfl
  | cons e m ih =>
    have hm' : e.1 ∉ mapKeys m ∧ mapWF m := by simpa [mapWF, mapKeys] using hm
    by_cases hk : e.1 = k
    · have hrest : m.map (fun e => (e.1, f₁ e.2)) = m.map (fun e => (e.1, f₂ e.2)) := by
        apply List.map_congr_left
        intro x hx
        have hxk : x.1 ≠ k := by
          intro hxk
          apply hm'.1
          rw [hk, ← hxk]
          exact List.mem_map_of_mem Prod.fst hx
        rw [h x (List.mem_cons_of_mem _ hx) hxk]
      simp [mapSet, hk, hrest]
    · have h0 := h e (List.mem_cons_self _ _) hk
      have := ih hm'.2 (fun x hx => h x (List.mem_cons_of_mem _ hx))
      simp [mapSet, hk, h0, this]

theorem mem_mapSet_wf {ν : Type} (m : List (String × ν)) (hm : mapWF m) (k : String) (v : ν)
    (e : String × ν) (he : e ∈ mapSet m k v) : e = (k, v) ∨ (e ∈ m ∧ e.1 ≠ k) := by
  induction m with
  | nil =>
    simp [mapSet] at he
    exact Or.inl he
  | cons x m ih =>
    have hm' : x.1 ∉ mapKeys m ∧ mapWF m := by simpa [mapWF, mapKeys] using hm
    by_cases hk : x.1 = k
    · simp only [mapSet, hk, if_true, List.mem_cons] at he
      rcases he with he | he
      · exact Or.inl he
      · refine Or.inr ⟨List.mem_cons_of_mem _ he, ?_⟩
        intro hek
        apply hm'.1
        rw [hk, ← hek]
        exact List.mem_map_of_mem Prod.fst he
    · simp only [mapSet, hk, if_false, List.mem_cons] at he
      rcases he with he | he
      · exact Or.inr ⟨by rw [he]; exact List.mem_cons_self _ _, by rw [he]; exact hk⟩
      · rcases ih hm'.2 he with h | ⟨h1, h2⟩
        · exact Or.inl h
        · exact Or.inr ⟨List.mem_cons_of_mem _ h1, h2⟩

theorem mem_mapDelete {ν : Type} (m : List (String × ν)) (k : String) (e : String × ν)
    (he : e ∈ mapDelete m k) : e ∈ m ∧ e.1 ≠ k := by
  unfold mapDelete at he
  have := List.mem_filter.mp he
  exact ⟨this.1, by simpa using this.2⟩

theorem mapGet_view (p : Pipeline) (s : String) :
    mapGet (view p) s = (mapGet p.cache s).map (deref p.arrays) :=
  mapGet_map_values (deref p.arrays) p.cache s

theorem deref_flatMap (arrays : Arrays) (m : groupCache) :
    (deref arrays m).flatMap Prod.snd = m.flatMap (fun e => elements arrays e.2) := by
  induction m with
  | nil => rfl
  | cons e m ih =>
    unfold deref at *
    simp only [List.map_cons, List.flatMap_cons, ih]

theorem deref_filter (arrays : Arrays) (m : groupCache) (f : Nat → Bool) :
    deref arrays (m.filter (fun e => f e.1)) = (deref arrays m).filter (fun e => f e.1) := by
  induction m with
  | nil => rfl
  | cons e m ih =>
    unfold deref at *
    by_cases hf : f e.1 = true
    · simp [List.filter_cons, hf, ih]
    · simp [List.filter_cons, hf, ih]

theorem deref_congr (arrays arrays' : Arrays) (m : groupCache)
    (h : ∀ x ∈ m, elements arrays x.2 = elements arrays' x.2) :
    deref arrays m = deref arrays' m := by
  unfold deref
  apply List.map_congr_left
  intro x hx
  rw [h x hx]

/-! ## Cached slices held by reference: agreement with the view by value -/

theorem flatMap_congr_mem {α β : Type} (l : List α) (f g : α → List β)
    (h : ∀ x ∈ l, f x = g x) : l.flatMap f = l.flatMap g := by
  induction l with
  | nil => rfl
  | cons x l ih =>
    rw [List.flatMap_cons, List.flatMap_cons, h x (List.mem_cons_self _ _),
      ih (fun y hy => h y (List.mem_cons_of_mem _ hy))]

theorem cachedUnder_view (p : Pipeline) (s : String) :
    cachedUnder (view p) s = deref p.arrays ((mapGet p.cache s).getD []) := by
  unfold cachedUnder
  rw [mapGet_view]
  cases mapGet p.cache s <;> rfl

theorem mem_cache_of_mem_getD (p : Pipeline) (s : String) (y : Nat × Nat)
    (hy : y ∈ (mapGet p.cache s).getD []) : (s, (mapGet p.cache s).getD []) ∈ p.cache := by
  cases h : mapGet p.cache s with
  | none => simp [h] at hy
  | some grpCache => exact mapGet_mem p.cache s grpCache h

/-- `handleEmpty` by reference and by value agree. -/
theorem handleEmpty_view (R' : MapRange) (R : pipeline.MapRange) (p : Pipeline)
    (q : pipeline.Pipeline) (g : Group) (hU : Unshared p) (hq : q.cache = view p) :
    (p.handleEmpty R' g).1.Perm (q.handleEmpty R g).1 ∧
    (q.handleEmpty R g).2.cache = view (p.handleEmpty R' g).2 ∧
    Unshared (p.handleEmpty R' g).2 := by
  cases h : mapGet p.cache g.Source with
  | none =>
    have hv : mapGet q.cache g.Source = none := by rw [hq, mapGet_view, h]; rfl
    rw [ref_handleEmpty_none R' p g h, pipeline.handleEmpty_none R q g hv]
    exact ⟨List.Perm.refl _, hq, hU⟩
  | some grpCache =>
    have hv : mapGet q.cache g.Source = some (deref p.arrays grpCache) := by
      rw [hq, mapGet_view, h]; rfl
    rw [ref_handleEmpty_some R' p g grpCache h, pipeline.handleEmpty_some R q g _ hv]
    refine ⟨?_, ?_, ?_⟩
    · refine List.Perm.map _ ?_
      refine (List.Perm.flatMap_right _ (R'.perm grpCache)).trans ?_
      rw [← deref_flatMap]
      exact (List.Perm.flatMap_right _ (R.perm _)).symm
    · simp only [view, hq]
      exact (mapDelete_map_values (deref p.arrays) p.cache g.Source).symm
    · obtain ⟨u1, u2, u3, u4⟩ := hU
      refine ⟨u1, mapWF_mapDelete _ _ u2, ?_, ?_⟩
      · intro e₁ he₁ x₁ hx₁ e₂ he₂ x₂ hx₂ hx
        exact u3 e₁ (mem_mapDelete _ _ _ he₁).1 x₁ hx₁ e₂ (mem_mapDelete _ _ _ he₂).1 x₂ hx₂ hx
      · intro e he x hx
        exact u4 e (mem_mapDelete _ _ _ he).1 x hx

theorem filter_not_unseen (R : MapRange) (m : groupCache) (hs : List Nat) :
    m.filter (fun e => decide (e.1 ∉
        ((R.order m).filter (fun e => decide (e.1 ∉ hs))).map Prod.fst)) =
      m.filter (fun e => decide (e.1 ∈ hs)) := by
  apply List.filter_congr
  intro e he
  by_cases hh : e.1 ∈ hs
  · have : e.1 ∉ ((R.order m).filter (fun e => decide (e.1 ∉ hs))).map Prod.fst := by
      intro hm
      obtain ⟨e', he', heq⟩ := List.mem_map.mp hm
      have := (List.mem_filter.mp he').2
      rw [heq] at this
      simp [hh] at this
    simp only [this, hh, not_false_eq_true, decide_True]
  · have : e.1 ∈ ((R.order m).filter (fun e => decide (e.1 ∉ hs))).map Prod.fst := by
      apply List.mem_map_of_mem Prod.fst
      exact List.mem_filter.mpr ⟨(R.perm m).mem_iff.mpr he, by simp [hh]⟩
    simp only [this, hh, not_true_eq_false, decide_False]

theorem allocate_slice_ge (b : pipeline.Builder) (ts : List Target) (arrays : Arrays)
    (hm : MemWF arrays) (x : Nat × Nat) (hx : x ∈ (allocate b arrays ts).1) :
    arrays.length ≤ x.2 ∧ x.2 < arrays.length + ts.length := by
  have h5 := (allocate_spec b ts arrays hm).2.2.2.2.1
  have : x.2 ∈ (allocate b arrays ts).1.map Prod.snd := List.mem_map_of_mem Prod.snd hx
  rw [h5] at this
  have := List.mem_range'_1.mp this
  omega

theorem allocate_slice_inj (b : pipeline.Builder) (ts : List Target) (arrays : Arrays)
    (hm : MemWF arrays) (x y : Nat × Nat) (hx : x ∈ (allocate b arrays ts).1)
    (hy : y ∈ (allocate b arrays ts).1) (h : x.2 = y.2) : x = y := by
  have h5 := (allocate_spec b ts arrays hm).2.2.2.2.1
  have hn : ((allocate b arrays ts).1.map Prod.snd).Nodup := by
    rw [h5]
    exact List.nodup_range' _ _
  exact List.inj_on_of_nodup_map hn hx hy h

theorem deref_append (arrays : Arrays) (m₁ m₂ : groupCache) :
    deref arrays (m₁ ++ m₂) = deref arrays m₁ ++ deref arrays m₂ := by
  simp [deref]

/-- The view of the state that `handleNotEmpty` leaves: `grpCache` is the inner
cache of the source before, `al` what the fresh Builder allocated, `W` the
slices that `stale` wrote into, all of evicted entries. -/
theorem view_after (b : pipeline.Builder) (p : Pipeline) (hU : Unshared p) (S : String)
    (H : List Nat) (F : List Target) (W : List Nat) (grpCache : groupCache)
    (al : groupCache × Arrays) (hg : (mapGet p.cache S).getD [] = grpCache)
    (hal : allocate b p.arrays F = al)
    (hW : ∀ w ∈ W, ∃ y ∈ grpCache, y.1 ∉ H ∧ y.2 = w) :
    view ⟨mapSet p.cache S (grpCache.filter (fun e => decide (e.1 ∈ H)) ++ al.1),
        writeAll al.2 W⟩ =
      mapSet (view p) S (kept (deref p.arrays grpCache) H ++ built b F) := by
  obtain ⟨u1, u2, u3, u4⟩ := hU
  have hs := allocate_spec b F p.arrays u1
  rw [hal] at hs
  have hin : ∀ y ∈ grpCache, (S, grpCache) ∈ p.cache := by
    intro y hy
    have := mem_cache_of_mem_getD p S y (by rw [hg]; exact hy)
    rwa [hg] at this
  have hWlt : ∀ w ∈ W, w < p.arrays.length := by
    intro w hw
    obtain ⟨y, hy, _, rfl⟩ := hW w hw
    exact u4 _ (hin y hy) y hy
  have hold : ∀ a, a < p.arrays.length → a ∉ W →
      elements (writeAll al.2 W) a = elements p.arrays a := by
    intro a ha haW
    rw [elements_writeAll, if_neg haW]
    exact hs.2.2.1 a ha
  have hnew : deref (writeAll al.2 W) al.1 = built b F := by
    rw [← hs.2.2.2.1]
    apply deref_congr
    intro x hx
    rw [elements_writeAll, if_neg]
    intro hxW
    have h1 := hWlt _ hxW
    have h2 := (allocate_slice_ge b F p.arrays u1 x (by rw [hal]; exact hx)).1
    omega
  have hkept : deref (writeAll al.2 W) (grpCache.filter (fun e => decide (e.1 ∈ H))) =
      kept (deref p.arrays grpCache) H := by
    rw [deref_congr _ p.arrays]
    · exact deref_filter p.arrays grpCache (fun k => decide (k ∈ H))
    · intro x hx
      have hx0 := List.mem_filter.mp hx
      apply hold _ (u4 _ (hin x hx0.1) x hx0.1)
      intro hxW
      obtain ⟨y, hy, hyH, hyx⟩ := hW _ hxW
      have h1 := (u3 _ (hin x hx0.1) x hx0.1 _ (hin x hx0.1) y hy hyx.symm).2
      apply hyH
      rw [← h1]
      simpa using hx0.2
  have hrest : ∀ e ∈ p.cache, e.1 ≠ S →
      deref (writeAll al.2 W) e.2 = deref p.arrays e.2 := by
    intro e he heS
    apply deref_congr
    intro x hx
    apply hold _ (u4 e he x hx)
    intro hxW
    obtain ⟨y, hy, _, hyx⟩ := hW _ hxW
    exact heS (u3 e he x hx _ (hin y hy) y hy hyx.symm).1
  unfold view
  simp only
  rw [mapSet_map_values (deref (writeAll al.2 W)), deref_append, hkept, hnew]
  exact mapSet_map_congr _ _ p.cache u2 S _ hrest

/-- The state that `handleNotEmpty` leaves shares no backing array. -/
theorem unshared_after (b : pipeline.Builder) (p : Pipeline) (hU : Unshared p) (S : String)
    (H : List Nat) (F : List Target) (W : List Nat) (grpCache : groupCache)
    (al : groupCache × Arrays) (hg : (mapGet p.cache S).getD [] = grpCache)
    (hal : allocate b p.arrays F = al)
    (hW : ∀ w ∈ W, ∃ y ∈ grpCache, y.1 ∉ H ∧ y.2 = w) :
    Unshared ⟨mapSet p.cache S (grpCache.filter (fun e => decide (e.1 ∈ H)) ++ al.1),
      writeAll al.2 W⟩ := by
  obtain ⟨u1, u2, u3, u4⟩ := hU
  have hs := allocate_spec b F p.arrays u1
  rw [hal] at hs
  have hin : ∀ y ∈ grpCache, (S, grpCache) ∈ p.cache := by
    intro y hy
    have := mem_cache_of_mem_getD p S y (by rw [hg]; exact hy)
    rwa [hg] at this
  have hWlt : ∀ w ∈ W, w < al.2.length := by
    intro w hw
    obtain ⟨y, hy, _, rfl⟩ := hW w hw
    have := u4 _ (hin y hy) y hy
    rw [hs.2.1]
    omega
  have hlen := length_writeAll al.2 hs.1 W hWlt
  have hge : ∀ x ∈ al.1, p.arrays.length ≤ x.2 ∧ x.2 < p.arrays.length + F.length := by
    intro x hx
    exact allocate_slice_ge b F p.arrays u1 x (by rw [hal]; exact hx)
  -- the entries of the inner cache of `S` afterwards
  have hmemS : ∀ x ∈ grpCache.filter (fun e => decide (e.1 ∈ H)) ++ al.1,
      (x ∈ grpCache ∧ x.2 < p.arrays.length) ∨ x ∈ al.1 := by
    intro x hx
    rcases List.mem_append.mp hx with h | h
    · have h0 := (List.mem_filter.mp h).1
      exact Or.inl ⟨h0, u4 _ (hin x h0) x h0⟩
    · exact Or.inr h
  refine ⟨hlen.1, mapWF_mapSet _ _ _ u2, ?_, ?_⟩
  · intro e₁ he₁ x₁ hx₁ e₂ he₂ x₂ hx₂ hx
    rcases mem_mapSet_wf p.cache u2 S _ e₁ he₁ with h₁ | ⟨h₁, k₁⟩ <;>
      rcases mem_mapSet_wf p.cache u2 S _ e₂ he₂ with h₂ | ⟨h₂, k₂⟩
    · subst h₁
      subst h₂
      refine ⟨rfl, ?_⟩
      rcases hmemS x₁ hx₁ with ⟨a₁, b₁⟩ | a₁ <;> rcases hmemS x₂ hx₂ with ⟨a₂, b₂⟩ | a₂
      · exact (u3 _ (hin x₁ a₁) x₁ a₁ _ (hin x₁ a₁) x₂ a₂ hx).2
      · have := (hge x₂ a₂).1
        omega
      · have := (hge x₁ a₁).1
        omega
      · rw [allocate_slice_inj b F p.arrays u1 x₁ x₂ (by rw [hal]; exact a₁)
          (by rw [hal]; exact a₂) hx]
    · subst h₁
      exfalso
      rcases hmemS x₁ hx₁ with ⟨a₁, _⟩ | a₁
      · exact k₂ (u3 _ (hin x₁ a₁) x₁ a₁ e₂ h₂ x₂ hx₂ hx).1.symm
      · have := (hge x₁ a₁).1
        have := u4 e₂ h₂ x₂ hx₂
        omega
    · subst h₂
      exfalso
      rcases hmemS x₂ hx₂ with ⟨a₂, _⟩ | a₂
      · exact k₁ (u3 e₁ h₁ x₁ hx₁ _ (hin x₂ a₂) x₂ a₂ hx).1
      · have := (hge x₂ a₂).1
        have := u4 e₁ h₁ x₁ hx₁
        omega
    · exact u3 e₁ h₁ x₁ hx₁ e₂ h₂ x₂ hx₂ hx
  · intro e he x hx
    simp only
    rw [hlen.2, hs.2.1]
    rcases mem_mapSet_wf p.cache u2 S _ e he with h | ⟨h, _⟩
    · subst h
      rcases hmemS x hx with ⟨_, a⟩ | a
      · omega
      · exact (hge x a).2
    · have := u4 e h x hx
      omega

theorem allocate_key_mem (b : pipeline.Builder) (known : List Nat) (ts : List (Option Target))
    (arrays : Arrays) (hm : MemWF arrays) (x : Nat × Nat)
    (hx : x ∈ (allocate b arrays (fresh known ts)).1) : x.1 ∈ hashes ts := by
  have h6 := (allocate_spec b (fresh known ts) arrays hm).2.2.2.2.2
  have : x.1 ∈ mapKeys (allocate b arrays (fresh known ts)).1 := List.mem_map_of_mem Prod.fst hx
  rw [h6] at this
  exact ((mem_fresh_hash known ts x.1).mp this).1

/-- `handleNotEmpty` by reference, with the fresh Builder, and by value agree. -/
theorem handleNotEmpty_view (R' : MapRange) (R : pipeline.MapRange) (b : pipeline.Builder)
    (p : Pipeline) (q : pipeline.Pipeline) (g : Group) (hU : Unshared p) (hq : q.cache = view p) :
    (p.handleNotEmpty R' (freshBuilder b) g).1.1 = (q.handleNotEmpty R b g).1.1 ∧
    (p.handleNotEmpty R' (freshBuilder b) g).1.2.Perm (q.handleNotEmpty R b g).1.2 ∧
    (q.handleNotEmpty R b g).2.cache = view (p.handleNotEmpty R' (freshBuilder b) g).2 ∧
    Unshared (p.handleNotEmpty R' (freshBuilder b) g).2 := by
  have hcu : cachedUnder q.cache g.Source = deref p.arrays ((mapGet p.cache g.Source).getD []) := by
    rw [hq]
    exact cachedUnder_view p g.Source
  have hadd := pipeline.handleNotEmpty_add R b q g
  have hrem := pipeline.handleNotEmpty_remove R b q g
  have hcache := pipeline.handleNotEmpty_cache R b q g
  rw [hcu, mapKeys_deref] at hadd hcache
  rw [hcu] at hrem
  cases h : mapGet p.cache g.Source with
  | none =>
    rw [h] at hadd hrem hcache
    simp only [Option.getD_none] at hadd hrem hcache
    have hv := view_after b p hU g.Source (hashes g.Targets) (fresh (mapKeys ([] : groupCache))
      g.Targets) [] [] _ (by rw [h]; rfl) rfl (by simp)
    have hu := unshared_after b p hU g.Source (hashes g.Targets) (fresh (mapKeys ([] : groupCache))
      g.Targets) [] [] _ (by rw [h]; rfl) rfl (by simp)
    rw [ref_handleNotEmpty_none R' b p g hU.1 h]
    refine ⟨hadd.symm, ?_, ?_, hu⟩
    · refine List.Perm.trans ?_ hrem.symm
      simp [dropped, deref]
    · rw [hcache, hq]
      exact hv.symm
  | some grpCache =>
    rw [h] at hadd hrem hcache
    simp only [Option.getD_some] at hadd hrem hcache
    obtain ⟨al, hal⟩ : ∃ al, allocate b p.arrays (fresh (mapKeys grpCache) g.Targets) = al :=
      ⟨_, rfl⟩
    have hkey : ∀ x ∈ al.1, x.1 ∈ hashes g.Targets := by
      intro x hx
      exact allocate_key_mem b _ _ p.arrays hU.1 x (by rw [hal]; exact hx)
    have hin : (g.Source, grpCache) ∈ p.cache := mapGet_mem p.cache g.Source grpCache h
    have hf1 : (grpCache ++ al.1).filter (fun e => decide (e.1 ∈ hashes g.Targets)) =
        grpCache.filter (fun e => decide (e.1 ∈ hashes g.Targets)) ++ al.1 := by
      rw [List.filter_append]
      congr 1
      rw [List.filter_eq_self]
      intro x hx
      simpa using hkey x hx
    have hf2 : (grpCache ++ al.1).filter (fun e => decide (e.1 ∉ hashes g.Targets)) =
        grpCache.filter (fun e => decide (e.1 ∉ hashes g.Targets)) := by
      rw [List.filter_append]
      have : al.1.filter (fun e => decide (e.1 ∉ hashes g.Targets)) = [] := by
        rw [List.filter_eq_nil_iff]
        intro x hx
        simpa using hkey x hx
      rw [this, List.append_nil]
    have hperm : ((R'.order (grpCache ++ al.1)).filter
        (fun e => decide (e.1 ∉ hashes g.Targets))).Perm
        (grpCache.filter (fun e => decide (e.1 ∉ hashes g.Targets))) := by
      rw [← hf2]
      exact List.Perm.filter _ (R'.perm _)
    have hW : ∀ w ∈ ((R'.order (grpCache ++ al.1)).filter
        (fun e => decide (e.1 ∉ hashes g.Targets))).map Prod.snd,
        ∃ y ∈ grpCache, y.1 ∉ hashes g.Targets ∧ y.2 = w := by
      intro w hw
      obtain ⟨y, hy, rfl⟩ := List.mem_map.mp hw
      have hy' := List.mem_filter.mp (hperm.mem_iff.mp hy)
      exact ⟨y, hy'.1, by simpa using hy'.2, rfl⟩
    have hv := view_after b p hU g.Source (hashes g.Targets) (fresh (mapKeys grpCache) g.Targets)
      _ grpCache al (by rw [h]; rfl) hal hW
    have hu := unshared_after b p hU g.Source (hashes g.Targets)
      (fresh (mapKeys grpCache) g.Targets) _ grpCache al (by rw [h]; rfl) hal hW
    rw [ref_handleNotEmpty_some R' b p g hU.1 grpCache h, hal, filter_not_unseen, hf1]
    refine ⟨hadd.symm, ?_, ?_, hu⟩
    · refine List.Perm.trans ?_ hrem.symm
      refine (List.Perm.flatMap_right _ hperm).trans ?_
      have hs := allocate_spec b (fresh (mapKeys grpCache) g.Targets) p.arrays hU.1
      rw [hal] at hs
      have hcongr : (grpCache.filter (fun e => decide (e.1 ∉ hashes g.Targets))).flatMap
          (fun e => pipeline.stale (elements al.2 e.2)) =
          (grpCache.filter (fun e => decide (e.1 ∉ hashes g.Targets))).flatMap
          (fun e => pipeline.stale (elements p.arrays e.2)) := by
        apply flatMap_congr_mem
        intro x hx
        rw [hs.2.2.1 x.2 (hU.2.2.2 _ hin x (List.mem_filter.mp hx).1)]
      rw [hcongr]
      have hd : dropped (deref p.arrays grpCache) (hashes g.Targets) =
          deref p.arrays (grpCache.filter (fun e => decide (e.1 ∉ hashes g.Targets))) :=
        (deref_filter p.arrays grpCache (fun k => decide (k ∉ hashes g.Targets))).symm
      rw [hd]
      simp [deref, List.flatMap_map]
    · rw [hcache, hq]
      exact hv.symm

/-! ## Cached slices held by reference: batches -/

theorem ref_processStep_empty (R : MapRange) (B : Builder) (st : List Config × Pipeline)
    (group : Group) (h : group.Targets = []) :
    processStep R B st group =
      (st.1 ++ (st.2.handleEmpty R group).1, (st.2.handleEmpty R group).2) := by
  unfold processStep
  simp only [h, List.length_nil, if_true]
  by_cases hl : (st.2.handleEmpty R group).1.length > 0
  · simp [hl]
  · have : (st.2.handleEmpty R group).1 = [] := by
      apply List.eq_nil_of_length_eq_zero
      omega
    simp [this]

theorem ref_processStep_notEmpty (R : MapRange) (B : Builder) (st : List Config × Pipeline)
    (group : Group) (h : group.Targets ≠ []) :
    processStep R B st group =
      (st.1 ++ ((st.2.handleNotEmpty R B group).1.1 ++ (st.2.handleNotEmpty R B group).1.2),
        (st.2.handleNotEmpty R B group).2) := by
  unfold processStep
  have hl : ¬ group.Targets.length = 0 := by
    intro h0
    exact h (List.eq_nil_of_length_eq_zero h0)
  simp only [hl, if_false]
  by_cases hc : (st.2.handleNotEmpty R B group).1.1.length > 0 ∨
      (st.2.handleNotEmpty R B group).1.2.length > 0
  · simp [hc]
  · have h1 : (st.2.handleNotEmpty R B group).1.1 = [] := by
      apply List.eq_nil_of_length_eq_zero
      omega
    have h2 : (st.2.handleNotEmpty R B group).1.2 = [] := by
      apply List.eq_nil_of_length_eq_zero
      omega
    simp [h1, h2]

theorem unshared_New : Unshared (New []) := by
  refine ⟨rfl, ?_, ?_, ?_⟩
  · simp [New, mapWF, mapKeys]
  · intro e₁ he₁
    simp [New] at he₁
  · intro e he
    simp [New] at he

theorem foldl_view (R' : MapRange) (R : pipeline.MapRange) (b : pipeline.Builder)
    (groups : List Group) (st : List Config × Pipeline) (sv : List Config × pipeline.Pipeline)
    (hc : st.1.Perm sv.1) (hU : Unshared st.2) (hq : sv.2.cache = view st.2) :
    (groups.foldl (processStep R' (freshBuilder b)) st).1.Perm
      (groups.foldl (pipeline.processStep R b) sv).1 ∧
    (groups.foldl (pipeline.processStep R b) sv).2.cache =
      view (groups.foldl (processStep R' (freshBuilder b)) st).2 ∧
    Unshared (groups.foldl (processStep R' (freshBuilder b)) st).2 := by
  induction groups generalizing st sv with
  | nil => exact ⟨hc, hq, hU⟩
  | cons g gs ih =>
    rw [List.foldl_cons, List.foldl_cons]
    by_cases hg : g.Targets = []
    · have h := handleEmpty_view R' R st.2 sv.2 g hU hq
      rw [ref_processStep_empty R' _ st g hg, pipeline.processStep_empty R b sv g hg]
      exact ih _ _ (List.Perm.append hc h.1) h.2.2 h.2.1
    · have h := handleNotEmpty_view R' R b st.2 sv.2 g hU hq
      rw [ref_processStep_notEmpty R' _ st g hg, pipeline.processStep_notEmpty R b sv g hg]
      refine ih _ _ (List.Perm.append hc ?_) h.2.2.2 h.2.2.1
      rw [h.1]
      exact List.Perm.append_left _ h.2.1

/-- The two embeddings agree when no backing array is shared.  With the Builder
that hands out a fresh array at every call, from a state that shares no array,
in particular from the empty cache, `process` by reference returns the configs
of `process` by value up to the order of eviction, and leaves a cache whose
slices hold the configs that the cache by value holds. -/
theorem process_view (R' : MapRange) (R : pipeline.MapRange) (b : pipeline.Builder)
    (p : Pipeline) (q : pipeline.Pipeline) (groups : List Group)
    (hU : Unshared p) (hq : q.cache = view p) :
    (p.process R' (freshBuilder b) groups).1.Perm (q.process R b groups).1 ∧
    (q.process R b groups).2.cache = view (p.process R' (freshBuilder b) groups).2 ∧
    Unshared (p.process R' (freshBuilder b) groups).2 :=
  foldl_view R' R b groups ([], p) ([], q) (List.Perm.refl _) hU hq

theorem process_view_New (R' : MapRange) (R : pipeline.MapRange) (b : pipeline.Builder)
    (groups : List Group) :
    ((New []).process R' (freshBuilder b) groups).1.Perm (pipeline.New.process R b groups).1 ∧
    (pipeline.New.process R b groups).2.cache =
      view ((New []).process R' (freshBuilder b) groups).2 :=
  have h := process_view R' R b (New []) pipeline.New groups unshared_New rfl
  ⟨h.1, h.2.1⟩

/-! ## Cached slices held by reference: the write in place of `stale` -/

/-- C11: the code fails the claim at a Builder that hands the same slice out
again.  With the memoizing Builder the first group of `s1` adds the config of
the target of hash 1 as built, not stale.  The second group evicts hash 1, and
`stale` writes into the array of the Builder.  The third group brings hash 1
back: `Build` returns its slice, and `handleNotEmpty` emits the config as an
addition with `Stale` set; the removal is the config of hash 2.  One entry is
evicted at a time, so the range order plays no part. -/
theorem C11_addition_marked_stale :
    ((New []).handleNotEmpty MapRange.insertion memoBuilder group1).1 =
      ([⟨"t1", false⟩], []) ∧
    elements afterEviction.arrays 1 = [⟨"t1", true⟩] ∧
    (afterEviction.handleNotEmpty MapRange.insertion memoBuilder group1).1 =
      ([⟨"t1", true⟩], [⟨"t2", true⟩]) ∧
    (afterEviction.process MapRange.insertion memoBuilder [group1]).1 =
      [⟨"t1", true⟩, ⟨"t2", true⟩] := by
  decide

/-- C19: the code fails the claim at a Builder that hands the same slice out to
two sources.  With the memoizing Builder `s1` and `s2` cache the slice of hash 1.
The group of `s1` with hash 2 evicts hash 1 from `s1`, `stale` writes into the
shared array, and the config that `s2` caches under hash 1 has `Stale` set
although no group of `s2` was processed.  One entry is evicted, so the range
order plays no part. -/
theorem C19_other_source_marked_stale :
    afterSharing.cachedAt "s2" 1 = [⟨"t1", false⟩] ∧
    (afterSharing.process MapRange.insertion memoBuilder [group2]).1 =
      [⟨"t2", false⟩, ⟨"t1", true⟩] ∧
    (afterSharing.process MapRange.insertion memoBuilder [group2]).2.cachedAt "s2" 1 =
      [⟨"t1", true⟩] := by
  decide

end byRef

end pipeline
